import Mathlib

/-!
Verification of the cumulative frequency table crate.

The crate provides three implementations of one trait `CumulFreqTable`:
`freq_array::FreqTable` (absolute frequencies plus a running total),
`cumulfreq_array::CumulFreqTable` (stored cumulative sums) and
`binary_indexed_tree::CumulFreqTable` (a Fenwick tree).

Embedding conventions:
* The frequency type `F` is modelled by `Int` (the crate is generic over
  signed and unsigned integer types; arithmetic is exact under the
  "no overflow" reading, which matches the signed instantiations used by
  the crate's own tests, e.g. `i16`).
* A Rust `assert!` failure (panic) is modelled by an `Option` result:
  `none` is a panic.  `unsafe { r.unwrap_unchecked() }` applied to `None`
  (undefined behavior) is likewise modelled by `none`.
* Rust slice indexing `tree[i]` at indices the code has established to be
  in bounds is modelled by `List.getD i 0`.
* `usize::trailing_zeros` / `1 << i.trailing_zeros()` are modelled by
  `tz` / `lowbit` below, and `usize::next_power_of_two` by `nextPow2`.
-/

/-- `lowbit n` is the value of the least significant set bit of `n`
(`0` for `n = 0`).  It equals `1 << n.trailing_zeros()` from the Rust
source, i.e. `n & n.wrapping_neg()` in two's complement. -/
def lowbit (n : Nat) : Nat :=
  if n = 0 then 0
  else if n % 2 = 1 then 1
  else 2 * lowbit (n / 2)
termination_by n
decreasing_by simp_wf; omega

/-- `usize::trailing_zeros` (on the nonzero numbers the source applies it to). -/
def tz (n : Nat) : Nat :=
  if n = 0 then 0
  else if n % 2 = 1 then 0
  else tz (n / 2) + 1
termination_by n
decreasing_by simp_wf; omega

/-- `usize::next_power_of_two`: the least power of two that is `≥ n`
(and `1` for `n = 0`). -/
def nextPow2 (n : Nat) : Nat := 2 ^ Nat.clog 2 n

theorem lowbit_zero : lowbit 0 = 0 := by simp [lowbit]

theorem lowbit_odd {n : Nat} (h : n % 2 = 1) : lowbit n = 1 := by
  rw [lowbit]
  have hne : n ≠ 0 := by omega
  simp [hne, h]

theorem lowbit_two_mul (n : Nat) : lowbit (2 * n) = 2 * lowbit n := by
  rcases Nat.eq_zero_or_pos n with h | h
  · subst h; simp [lowbit]
  · rw [lowbit]
    have h1 : 2 * n ≠ 0 := by omega
    have h2 : ¬ (2 * n) % 2 = 1 := by omega
    have h3 : 2 * n / 2 = n := by omega
    simp [h1, h2, h3]

theorem lowbit_exists_pow {n : Nat} (hn : 0 < n) : ∃ k, lowbit n = 2 ^ k := by
  induction n using Nat.strong_induction_on with
  | _ n ih =>
    rcases Nat.even_or_odd n with he | ho
    · obtain ⟨m, hm⟩ := he
      have hm' : n = 2 * m := by omega
      subst hm'
      obtain ⟨k, hk⟩ := ih m (by omega) (by omega)
      exact ⟨k + 1, by rw [lowbit_two_mul, hk]; ring⟩
    · exact ⟨0, by rw [lowbit_odd (Nat.odd_iff.mp ho)]; rfl⟩

theorem lowbit_pos {n : Nat} (hn : 0 < n) : 0 < lowbit n := by
  obtain ⟨k, hk⟩ := lowbit_exists_pow hn
  rw [hk]
  exact pow_pos (by omega) k

theorem lowbit_eq_pow_iff (n : Nat) (hn : 0 < n) (k : Nat) :
    lowbit n = 2 ^ k ↔ (2 ^ k ∣ n ∧ ¬ 2 ^ (k + 1) ∣ n) := by
  induction n using Nat.strong_induction_on generalizing k with
  | _ n ih =>
    rcases Nat.even_or_odd n with he | ho
    · obtain ⟨m, hm⟩ := he
      have hm' : n = 2 * m := by omega
      subst hm'
      have hmpos : 0 < m := by omega
      rw [lowbit_two_mul]
      cases k with
      | zero =>
        have hlb : 0 < lowbit m := lowbit_pos hmpos
        constructor
        · intro h; omega
        · rintro ⟨-, h2⟩
          exact absurd ⟨m, by ring⟩ h2
      | succ j =>
        have hiff := ih m (by omega) hmpos j
        have hpj : (2:Nat) ^ (j + 1) = 2 * 2 ^ j := by ring
        have hpj2 : (2:Nat) ^ (j + 2) = 2 * 2 ^ (j + 1) := by ring
        constructor
        · intro h
          have hj : lowbit m = 2 ^ j := by omega
          obtain ⟨hd, hnd⟩ := hiff.mp hj
          obtain ⟨c, hc⟩ := hd
          refine ⟨⟨c, by rw [hpj, hc]; ring⟩, ?_⟩
          rintro ⟨c', hc'⟩
          apply hnd
          refine ⟨c', ?_⟩
          have h2 : 2 * m = 2 * (2 ^ (j + 1) * c') := by
            rw [hc']; ring
          exact Nat.eq_of_mul_eq_mul_left (by omega) h2
        · rintro ⟨hd, hnd⟩
          obtain ⟨c, hc⟩ := hd
          have hd' : 2 ^ j ∣ m := by
            refine ⟨c, ?_⟩
            have h2 : 2 * m = 2 * (2 ^ j * c) := by
              rw [hc, hpj]; ring
            exact Nat.eq_of_mul_eq_mul_left (by omega) h2
          have hnd' : ¬ 2 ^ (j + 1) ∣ m := by
            rintro ⟨c', hc'⟩
            exact hnd ⟨c', by rw [hpj2, hc']; ring⟩
          rw [hiff.mpr ⟨hd', hnd'⟩]
          ring
    · have h1 : n % 2 = 1 := Nat.odd_iff.mp ho
      rw [lowbit_odd h1]
      cases k with
      | zero =>
        constructor
        · intro _
          refine ⟨one_dvd n, ?_⟩
          rintro ⟨c, hc⟩
          have hp : (2:Nat) ^ (0 + 1) = 2 := by ring
          rw [hp] at hc
          omega
        · intro _; rfl
      | succ j =>
        have h2 : (2:Nat) ≤ 2 ^ (j + 1) := by
          calc (2:Nat) = 2 ^ 1 := by ring
          _ ≤ 2 ^ (j + 1) := Nat.pow_le_pow_right (by omega) (by omega)
        constructor
        · intro h
          exfalso
          omega
        · rintro ⟨hd, -⟩
          exfalso
          obtain ⟨c, hc⟩ := hd
          have h4 : n = 2 * (2 ^ j * c) := by
            rw [hc]; ring
          omega

theorem lowbit_dvd (n : Nat) : lowbit n ∣ n := by
  rcases Nat.eq_zero_or_pos n with h | h
  · subst h; simp [lowbit]
  · obtain ⟨k, hk⟩ := lowbit_exists_pow h
    exact hk ▸ ((lowbit_eq_pow_iff n h k).mp hk).1

theorem lowbit_le {n : Nat} (hn : 0 < n) : lowbit n ≤ n :=
  Nat.le_of_dvd hn (lowbit_dvd n)

theorem pow_dvd_lowbit {m n : Nat} (hn : 0 < n) (h : 2 ^ m ∣ n) :
    2 ^ m ∣ lowbit n := by
  obtain ⟨k, hk⟩ := lowbit_exists_pow hn
  have hnd := ((lowbit_eq_pow_iff n hn k).mp hk).2
  rw [hk]
  rcases le_or_lt m k with hle | hlt
  · exact pow_dvd_pow 2 hle
  · exact absurd (dvd_trans (pow_dvd_pow 2 (by omega)) h) hnd

theorem lowbit_pow (k : Nat) : lowbit (2 ^ k) = 2 ^ k := by
  rw [lowbit_eq_pow_iff (2 ^ k) (pow_pos (by omega) k) k]
  refine ⟨dvd_refl _, ?_⟩
  rintro ⟨c, hc⟩
  have h2 : (2:Nat) ^ (k + 1) = 2 * 2 ^ k := by ring
  have hkpos : 0 < (2:Nat) ^ k := pow_pos (by omega) k
  rcases Nat.eq_zero_or_pos c with h | h
  · rw [h, Nat.mul_zero] at hc
    omega
  · have hle : 2 ^ (k + 1) ≤ 2 ^ (k + 1) * c := Nat.le_mul_of_pos_right _ h
    rw [← hc] at hle
    omega

theorem lowbit_mod_pow {x m : Nat} (hx : 0 < x) (h : x % 2 ^ m ≠ 0) :
    lowbit x = lowbit (x % 2 ^ m) := by
  set r := x % 2 ^ m with hr
  have hrpos : 0 < r := Nat.pos_of_ne_zero h
  have hrlt : r < 2 ^ m := Nat.mod_lt x (pow_pos (by omega) m)
  obtain ⟨k, hk⟩ := lowbit_exists_pow hrpos
  have hkfacts := (lowbit_eq_pow_iff r hrpos k).mp hk
  have hkm : k + 1 ≤ m := by
    by_contra hge
    have h1 : 2 ^ m ≤ 2 ^ k := Nat.pow_le_pow_right (by omega) (by omega)
    have h2 : 2 ^ k ≤ r := Nat.le_of_dvd hrpos hkfacts.1
    omega
  rw [hk, lowbit_eq_pow_iff x hx k]
  have hxq : 2 ^ m * (x / 2 ^ m) + r = x := Nat.div_add_mod x (2 ^ m)
  have hdm : (2:Nat) ^ k ∣ 2 ^ m := pow_dvd_pow 2 (by omega)
  have hdm1 : (2:Nat) ^ (k + 1) ∣ 2 ^ m := pow_dvd_pow 2 hkm
  constructor
  · rw [← hxq]
    exact Nat.dvd_add (dvd_mul_of_dvd_left hdm _) hkfacts.1
  · intro hdx
    apply hkfacts.2
    have hr' : r = x - 2 ^ m * (x / 2 ^ m) := by omega
    rw [hr']
    exact Nat.dvd_sub' hdx (dvd_mul_of_dvd_left hdm1 _)

theorem lowbit_pow_sub {r m : Nat} (h0 : 0 < r) (hlt : r < 2 ^ m) :
    lowbit (2 ^ m - r) = lowbit r := by
  have hspos : 0 < 2 ^ m - r := by omega
  obtain ⟨k, hk⟩ := lowbit_exists_pow h0
  have hkfacts := (lowbit_eq_pow_iff r h0 k).mp hk
  have hkm : k + 1 ≤ m := by
    by_contra hge
    have h1 : 2 ^ m ≤ 2 ^ k := Nat.pow_le_pow_right (by omega) (by omega)
    have h2 : 2 ^ k ≤ r := Nat.le_of_dvd h0 hkfacts.1
    omega
  rw [hk, lowbit_eq_pow_iff _ hspos k]
  have hdmk : (2:Nat) ^ k ∣ 2 ^ m := pow_dvd_pow 2 (by omega)
  have hdmk1 : (2:Nat) ^ (k + 1) ∣ 2 ^ m := pow_dvd_pow 2 hkm
  constructor
  · exact Nat.dvd_sub' hdmk hkfacts.1
  · intro hd
    apply hkfacts.2
    have : r = 2 ^ m - (2 ^ m - r) := by omega
    rw [this]
    exact Nat.dvd_sub' hdmk1 hd

theorem lowbit_mul_pow_add_pow (a k : Nat) :
    lowbit (2 ^ (k + 1) * a + 2 ^ k) = 2 ^ k := by
  have hpos : 0 < 2 ^ (k + 1) * a + 2 ^ k := by
    have := pow_pos (by omega : (0:Nat) < 2) k
    omega
  rw [lowbit_eq_pow_iff _ hpos k]
  have hpj : (2:Nat) ^ (k + 1) = 2 * 2 ^ k := by ring
  constructor
  · exact ⟨2 * a + 1, by rw [hpj]; ring⟩
  · rintro ⟨c, hc⟩
    have hkpos : 0 < (2:Nat) ^ k := pow_pos (by omega) k
    have heq : 2 ^ k * (2 * a + 1) = 2 ^ k * (2 * c) := by
      rw [hpj] at hc
      calc 2 ^ k * (2 * a + 1) = 2 * 2 ^ k * a + 2 ^ k := by ring
      _ = 2 * 2 ^ k * c := hc
      _ = 2 ^ k * (2 * c) := by ring
    have : 2 * a + 1 = 2 * c := Nat.eq_of_mul_eq_mul_left hkpos heq
    omega

/-! ### Fenwick chains over an abstract cell assignment

`binary_indexed_tree`'s `sum`, `freq` and `find_by_sum` only read the
backing array; we model their traversals over an abstract cell
assignment `f : Nat → Int` (instantiated with `fun i => tree.getD i 0`).
-/

/-- Sum of the cells on the bit-clearing chain `p, p - lowbit p, …`
down to (and excluding) `0`. -/
def chainSum (f : Nat → Int) (p : Nat) : Int :=
  if h : p = 0 then 0 else f p + chainSum f (p - lowbit p)
termination_by p
decreasing_by
  have h1 : 0 < p := Nat.pos_of_ne_zero h
  have := lowbit_pos h1
  omega

/-- Sum of the cells on the bit-clearing chain from `p` down to (and
excluding) `parent`; mirrors the loop in `freq`. -/
def chainSumAbove (f : Nat → Int) (parent p : Nat) : Int :=
  if h : parent < p then f p + chainSumAbove f parent (p - lowbit p) else 0
termination_by p
decreasing_by
  have h1 : 0 < p := by omega
  have := lowbit_pos h1
  omega

theorem chainSum_zero (f : Nat → Int) : chainSum f 0 = 0 := by
  rw [chainSum]
  simp

theorem chainSum_pos (f : Nat → Int) {p : Nat} (hp : 0 < p) :
    chainSum f p = f p + chainSum f (p - lowbit p) := by
  rw [chainSum]
  simp [Nat.pos_iff_ne_zero.mp hp]

theorem chainSumAbove_stop (f : Nat → Int) {parent p : Nat} (h : ¬ parent < p) :
    chainSumAbove f parent p = 0 := by
  rw [chainSumAbove]
  simp [h]

theorem chainSumAbove_step (f : Nat → Int) {parent p : Nat} (h : parent < p) :
    chainSumAbove f parent p = f p + chainSumAbove f parent (p - lowbit p) := by
  rw [chainSumAbove]
  simp [h]

theorem chainSum_two_mul (f : Nat → Int) (a : Nat) :
    chainSum f (2 * a) = chainSum (fun j => f (2 * j)) a := by
  induction a using Nat.strong_induction_on with
  | _ a ih =>
    rcases Nat.eq_zero_or_pos a with h | h
    · subst h
      rw [Nat.mul_zero, chainSum_zero, chainSum_zero]
    · have h2 : 0 < 2 * a := by omega
      rw [chainSum_pos f h2, chainSum_pos _ h, lowbit_two_mul]
      have hlb := lowbit_pos h
      have hle := lowbit_le h
      have harg : 2 * a - 2 * lowbit a = 2 * (a - lowbit a) := by omega
      rw [harg, ih (a - lowbit a) (by omega)]

theorem chainSumAbove_two_mul (f : Nat → Int) (b a : Nat) :
    chainSumAbove f (2 * b) (2 * a) = chainSumAbove (fun j => f (2 * j)) b a := by
  induction a using Nat.strong_induction_on generalizing b with
  | _ a ih =>
    rcases Nat.lt_or_ge b a with h | h
    · have h2 : 2 * b < 2 * a := by omega
      have ha : 0 < a := by omega
      rw [chainSumAbove_step f h2, chainSumAbove_step _ h, lowbit_two_mul]
      have hlb := lowbit_pos ha
      have hle := lowbit_le ha
      have harg : 2 * a - 2 * lowbit a = 2 * (a - lowbit a) := by omega
      rw [harg, ih (a - lowbit a) (by omega)]
    · have h2 : ¬ 2 * b < 2 * a := by omega
      rw [chainSumAbove_stop f h2, chainSumAbove_stop _ (by omega)]

/-- Key chain decomposition: the chain from `m` splits at
`parent = (m+1) - lowbit (m+1)` (the Fenwick parent of `m + 1`): it first
walks from `m` down to `parent` and then continues with the chain of
`parent`.  This is the classic fact that the ranges of the cells on the
chain of `m` tile `(0, m]`. -/
theorem chainSum_decomp (f : Nat → Int) (m : Nat) :
    chainSum f m =
      chainSumAbove f (m + 1 - lowbit (m + 1)) m +
        chainSum f (m + 1 - lowbit (m + 1)) := by
  induction m using Nat.strong_induction_on generalizing f with
  | _ m ih =>
    rcases Nat.even_or_odd m with he | ho
    · -- `m` even: `m + 1` is odd, the parent is `m` itself.
      have h1 : (m + 1) % 2 = 1 := by
        obtain ⟨t, ht⟩ := he
        omega
      rw [lowbit_odd h1]
      have h2 : m + 1 - 1 = m := by omega
      rw [h2, chainSumAbove_stop f (by omega)]
      ring
    · -- `m` odd: write `m = 2t - 1`; one chain step from `m` is `m - 1 = 2(t-1)`
      -- and everything doubles down to the decomposition at `t - 1`.
      obtain ⟨t1, ht1⟩ := ho
      set t : Nat := t1 + 1 with htdef
      have hm : m = 2 * t - 1 := by omega
      have htpos : 0 < t := by omega
      have hlbt := lowbit_pos htpos
      have hlet := lowbit_le htpos
      have hm1 : m + 1 = 2 * t := by omega
      have hmodd : m % 2 = 1 := by omega
      have hmpos : 0 < m := by omega
      rw [hm1, lowbit_two_mul]
      have hpar : 2 * t - 2 * lowbit t = 2 * (t - lowbit t) := by omega
      rw [hpar]
      have hparlt : 2 * (t - lowbit t) < m := by omega
      rw [chainSum_pos f hmpos, chainSumAbove_step f hparlt, lowbit_odd hmodd]
      have hm2 : m - 1 = 2 * (t - 1) := by omega
      rw [hm2, chainSum_two_mul, chainSumAbove_two_mul, chainSum_two_mul]
      have hrec := ih (t - 1) (by omega) (fun j => f (2 * j))
      have harg : t - 1 + 1 - lowbit (t - 1 + 1) = t - lowbit t := by
        have : t - 1 + 1 = t := by omega
        rw [this]
      rw [harg] at hrec
      rw [hrec]
      ring

/-! ### The update walk of `add`/`sub` and its membership characterization -/

/-- `inWalk p c` holds when the increasing update walk
`p, p + lowbit p, …` of `add`/`sub` visits `c`. -/
def inWalk (p c : Nat) : Bool :=
  if p = c then true
  else if h : 0 < p ∧ p < c then inWalk (p + lowbit p) c
  else false
termination_by c - p
decreasing_by
  have := lowbit_pos h.1
  omega

theorem inWalk_self (p : Nat) : inWalk p p = true := by
  rw [inWalk]
  simp

theorem inWalk_step {p c : Nat} (h0 : 0 < p) (h1 : p < c) :
    inWalk p c = inWalk (p + lowbit p) c := by
  rw [inWalk]
  have hne : p ≠ c := by omega
  simp [hne, h0, h1]

theorem inWalk_le {p c : Nat} (h : inWalk p c = true) : p ≤ c := by
  by_contra hgt
  rw [inWalk] at h
  have h1 : ¬ p = c := by omega
  have h2 : ¬ (0 < p ∧ p < c) := by omega
  simp [h1, h2] at h

/-- Every positive number is its lowbit-many past a multiple of the next
power of two: `c = 2^(j+1) * u + 2^j` when `lowbit c = 2^j`. -/
theorem lowbit_decomp {c j : Nat} (hc : 0 < c) (hj : lowbit c = 2 ^ j) :
    ∃ u, c = 2 ^ (j + 1) * u + 2 ^ j := by
  have hfacts := (lowbit_eq_pow_iff c hc j).mp hj
  obtain ⟨q, hq⟩ := hfacts.1
  have hqodd : q % 2 = 1 := by
    rcases Nat.even_or_odd q with he | ho
    · exfalso
      obtain ⟨u, hu⟩ := he
      exact hfacts.2 ⟨u, by rw [hq, hu]; ring⟩
    · exact Nat.odd_iff.mp ho
  refine ⟨q / 2, ?_⟩
  have hq2 : q = 2 * (q / 2) + 1 := by omega
  have h2 : 2 ^ (j + 1) * (q / 2) + 2 ^ j = 2 ^ j * (2 * (q / 2) + 1) := by ring
  rw [hq, h2, ← hq2]

theorem parent_pow_dvd {c j : Nat} (hc : 0 < c) (hj : lowbit c = 2 ^ j) :
    2 ^ (j + 1) ∣ c - lowbit c := by
  obtain ⟨u, hu⟩ := lowbit_decomp hc hj
  refine ⟨u, ?_⟩
  omega

/-- If a walk step from `p ≤ B` jumps past the multiple `B` of
`2^(j+1)`, it lands at least `2^(j+1)` beyond `B`. -/
theorem walk_jump {p B j : Nat} (hp : 0 < p) (hpB : p ≤ B)
    (hdvd : 2 ^ (j + 1) ∣ B) (hjump : B < p + lowbit p) :
    B + 2 ^ (j + 1) ≤ p + lowbit p := by
  rcases Nat.eq_or_lt_of_le hpB with heq | hlt
  · subst heq
    have hd : 2 ^ (j + 1) ∣ lowbit p := pow_dvd_lowbit hp hdvd
    have := Nat.le_of_dvd (lowbit_pos hp) hd
    omega
  · obtain ⟨s, hs⟩ := lowbit_exists_pow hp
    rcases le_or_lt s (j + 1) with hle | hgt
    · exfalso
      have hdB : 2 ^ s ∣ B := dvd_trans (pow_dvd_pow 2 hle) hdvd
      have hdp : 2 ^ s ∣ p := hs ▸ lowbit_dvd p
      have hdiff : 2 ^ s ∣ B - p := Nat.dvd_sub' hdB hdp
      have hpos : 0 < B - p := by omega
      have := Nat.le_of_dvd hpos hdiff
      omega
    · have hdp : 2 ^ (j + 1) ∣ p :=
        dvd_trans (pow_dvd_pow 2 (by omega)) (hs ▸ lowbit_dvd p)
      have hdlb : 2 ^ (j + 1) ∣ lowbit p :=
        hs ▸ pow_dvd_pow 2 (by omega)
      have hdsum : 2 ^ (j + 1) ∣ p + lowbit p - B :=
        Nat.dvd_sub' (Nat.dvd_add hdp hdlb) hdvd
      have hpos : 0 < p + lowbit p - B := by omega
      have := Nat.le_of_dvd hpos hdsum
      omega

theorem inWalk_gt_parent :
    ∀ d p c : Nat, c - p ≤ d → 0 < p → 0 < c → inWalk p c = true →
      c - lowbit c < p := by
  intro d
  induction d with
  | zero =>
    intro p c hd hp hc h
    have hle := inWalk_le h
    have hpc : p = c := by omega
    have := lowbit_pos hc
    omega
  | succ n ih =>
    intro p c hd hp hc h
    by_cases hpc : p = c
    · have := lowbit_pos hc
      omega
    · have hlt : p < c := by
        have := inWalk_le h
        omega
      rw [inWalk_step hp hlt] at h
      have hlbp := lowbit_pos hp
      have hBp' : c - lowbit c < p + lowbit p :=
        ih (p + lowbit p) c (by omega) (by omega) hc h
      by_contra hle
      obtain ⟨j, hj⟩ := lowbit_exists_pow hc
      have hBdvd := parent_pow_dvd hc hj
      have hjump := walk_jump hp (by omega) hBdvd hBp'
      have hple := inWalk_le h
      have hlbc := lowbit_le hc
      have hpow : (2:Nat) ^ (j + 1) = 2 * 2 ^ j := by ring
      omega

theorem inWalk_of_between :
    ∀ d p c : Nat, c - p ≤ d → 0 < p → c - lowbit c < p → p ≤ c →
      inWalk p c = true := by
  intro d
  induction d with
  | zero =>
    intro p c hd hp hB hpc
    have : p = c := by omega
    subst this
    exact inWalk_self p
  | succ n ih =>
    intro p c hd hp hB hpc
    rcases Nat.eq_or_lt_of_le hpc with heq | hlt
    · subst heq
      exact inWalk_self p
    · have hc : 0 < c := by omega
      obtain ⟨j, hj⟩ := lowbit_exists_pow hc
      obtain ⟨u, hu⟩ := lowbit_decomp hc hj
      set r : Nat := c - p with hrdef
      have hlbc := lowbit_le hc
      have hr0 : 0 < r := by omega
      have hrlt : r < 2 ^ j := by omega
      have hjpos : 0 < (2:Nat) ^ j := pow_pos (by omega) j
      -- p ≡ 2^j - r  (mod 2^j), hence lowbit p = lowbit r ≤ r.
      have hX : 2 ^ (j + 1) * u = 2 ^ j * (2 * u) := by ring
      have hp2 : p = 2 ^ j * (2 * u) + (2 ^ j - r) := by omega
      have hmod : p % 2 ^ j = 2 ^ j - r := by
        rw [hp2, Nat.mul_add_mod]
        exact Nat.mod_eq_of_lt (by omega)
      have hmodne : p % 2 ^ j ≠ 0 := by omega
      have hlbp : lowbit p = lowbit r := by
        rw [lowbit_mod_pow hp hmodne, hmod, lowbit_pow_sub hr0 hrlt]
      have hlbr := lowbit_le hr0
      have hlbrpos := lowbit_pos hr0
      have hstep : p + lowbit p ≤ c := by omega
      rw [inWalk_step hp hlt]
      exact ih (p + lowbit p) c (by omega) (by omega) (by omega) hstep

/-- Membership in the update walk of `add(p, _)`: the walk from `p`
visits exactly the cells whose covered range `(c - lowbit c, c]`
contains `p`. -/
theorem inWalk_iff {p c : Nat} (hp : 0 < p) (hc : 0 < c) :
    inWalk p c = true ↔ (c - lowbit c < p ∧ p ≤ c) := by
  constructor
  · intro h
    exact ⟨inWalk_gt_parent (c - p) p c (by omega) hp hc h, inWalk_le h⟩
  · rintro ⟨h1, h2⟩
    exact inWalk_of_between (c - p) p c (by omega) hp h1 h2

/-! ### Prefix sums of a list of frequencies -/

/-- `psum L p` is the inclusive prefix sum `Σ_{i = 0..=p} L[i]` (missing
entries count as `0`); it is literally `freqs[..=pos].iter().sum()` from
`freq_array::sum`. -/
def psum (L : List Int) (p : Nat) : Int := (L.take (p + 1)).sum

theorem psum_nil (p : Nat) : psum [] p = 0 := by simp [psum]

theorem psum_cons_zero (x : Int) (t : List Int) : psum (x :: t) 0 = x := by
  simp [psum]

theorem psum_cons_succ (x : Int) (t : List Int) (p : Nat) :
    psum (x :: t) (p + 1) = x + psum t p := by
  simp [psum]

theorem psum_zero (L : List Int) : psum L 0 = L.getD 0 0 := by
  cases L <;> simp [psum]

theorem psum_succ (L : List Int) (p : Nat) :
    psum L (p + 1) = psum L p + L.getD (p + 1) 0 := by
  induction L generalizing p with
  | nil => simp [psum_nil]
  | cons x t ih =>
    cases p with
    | zero =>
      rw [psum_cons_succ, psum_cons_zero, psum_zero, List.getD_cons_succ]
    | succ q =>
      rw [psum_cons_succ, psum_cons_succ, ih, List.getD_cons_succ]
      ring

theorem psum_of_length_le (L : List Int) (p : Nat) (h : L.length ≤ p + 1) :
    psum L p = L.sum := by
  unfold psum
  rw [List.take_of_length_le h]

theorem getD_set_self (L : List Int) (p : Nat) (x : Int) (hp : p < L.length) :
    (L.set p x).getD p 0 = x := by
  induction L generalizing p with
  | nil => simp at hp
  | cons a t ih =>
    cases p with
    | zero => simp
    | succ q =>
      simp only [List.set_cons_succ, List.getD_cons_succ]
      exact ih q (by simpa using hp)

theorem getD_set_ne (L : List Int) (p q : Nat) (x : Int) (hne : p ≠ q) :
    (L.set p x).getD q 0 = L.getD q 0 := by
  induction L generalizing p q with
  | nil => simp
  | cons a t ih =>
    cases p with
    | zero =>
      cases q with
      | zero => omega
      | succ r => simp
    | succ s =>
      cases q with
      | zero => simp
      | succ r =>
        simp only [List.set_cons_succ, List.getD_cons_succ]
        exact ih s r (by omega)

theorem psum_set (L : List Int) (p q : Nat) (x : Int) (hp : p < L.length) :
    psum (L.set p x) q = psum L q + (if p ≤ q then x - L.getD p 0 else 0) := by
  induction L generalizing p q with
  | nil => simp at hp
  | cons a t ih =>
    cases p with
    | zero =>
      cases q with
      | zero => simp [psum_cons_zero]
      | succ r =>
        simp only [List.set_cons_zero, psum_cons_succ, List.getD_cons_zero,
          Nat.zero_le, if_pos]
        ring
    | succ s =>
      have hs : s < t.length := by simpa using hp
      cases q with
      | zero =>
        have : ¬ s + 1 ≤ 0 := by omega
        simp [psum_cons_zero, this]
      | succ r =>
        simp only [List.set_cons_succ, psum_cons_succ, List.getD_cons_succ]
        rw [ih s r hs]
        by_cases hsr : s ≤ r
        · rw [if_pos hsr, if_pos (by omega : s + 1 ≤ r + 1)]
          ring
        · rw [if_neg hsr, if_neg (by omega : ¬ s + 1 ≤ r + 1)]
          ring

theorem sum_set (L : List Int) (p : Nat) (x : Int) (hp : p < L.length) :
    (L.set p x).sum = L.sum + (x - L.getD p 0) := by
  have h := psum_set L p (L.length - 1) x hp
  rw [psum_of_length_le L (L.length - 1) (by omega),
      psum_of_length_le (L.set p x) (L.length - 1)
        (by rw [List.length_set]; omega)] at h
  have hle : p ≤ L.length - 1 := by omega
  rw [h, if_pos hle]

/-! ### `freq_array::FreqTable` -/

namespace freq_array

/-- `freq_array::FreqTable`: absolute frequency per position plus a
separately maintained running total. -/
structure FreqTable where
  freqs : List Int
  total : Int

/-- `FreqTable::new`.  `none` models the `assert!(len > 0)` panic. -/
def FreqTable.new (len : Nat) : Option FreqTable :=
  if 0 < len then some ⟨List.replicate len 0, 0⟩ else none

/-- `FreqTable::with_freq`, generic over the `usize: TryInto<F>`
conversion (`tryIntoF`): `total = init * len.try_into().unwrap()`, so a
failing conversion (`none`) is a panic, as is `len == 0`. -/
def FreqTable.with_freqGen (tryIntoF : Nat → Option Int) (len : Nat)
    (init : Int) : Option FreqTable :=
  if 0 < len then
    (tryIntoF len).map (fun l => ⟨List.replicate len init, init * l⟩)
  else none

/-- `FreqTable::with_freq` at an unbounded frequency type (the
conversion from `usize` always succeeds). -/
def FreqTable.with_freq (len : Nat) (init : Int) : Option FreqTable :=
  FreqTable.with_freqGen (fun n => some (n : Int)) len init

/-- `FreqTable::len`. -/
def FreqTable.len (t : FreqTable) : Nat := t.freqs.length

/-- `FreqTable::add`.  `none` models the out-of-bounds panic. -/
def FreqTable.add (t : FreqTable) (pos : Nat) (val : Int) :
    Option FreqTable :=
  if pos < t.freqs.length then
    some ⟨t.freqs.set pos (t.freqs.getD pos 0 + val), t.total + val⟩
  else none

/-- `FreqTable::sub`. -/
def FreqTable.sub (t : FreqTable) (pos : Nat) (val : Int) :
    Option FreqTable :=
  if pos < t.freqs.length then
    some ⟨t.freqs.set pos (t.freqs.getD pos 0 - val), t.total - val⟩
  else none

/-- Default `CumulFreqTable::inc`: `add(pos, 1)`. -/
def FreqTable.inc (t : FreqTable) (pos : Nat) : Option FreqTable :=
  t.add pos 1

/-- Default `CumulFreqTable::dec`: `sub(pos, 1)`. -/
def FreqTable.dec (t : FreqTable) (pos : Nat) : Option FreqTable :=
  t.sub pos 1

/-- `FreqTable::sum`: `freqs[..=pos].iter().sum()` behind the bounds
assert. -/
def FreqTable.sum (t : FreqTable) (pos : Nat) : Option Int :=
  if pos < t.freqs.length then some (psum t.freqs pos) else none

/-- `FreqTable::freq`. -/
def FreqTable.freq (t : FreqTable) (pos : Nat) : Option Int :=
  if pos < t.freqs.length then some (t.freqs.getD pos 0) else none

/-- `Iterator::position` over the frequencies with the running sum
`r_sum` threaded through the closure, as in `FreqTable::find_by_sum`. -/
def positionAcc (target : Int) : List Int → Int → Option Nat
  | [], _ => none
  | f :: rest, acc =>
    if target ≤ acc + f then some 0
    else (positionAcc target rest (acc + f)).map (fun i => i + 1)

/-- `FreqTable::find_by_sum`.  The source ends with
`unsafe { r.unwrap_unchecked() }`; the `none` case of `position` is that
undefined behavior. -/
def FreqTable.find_by_sum (t : FreqTable) (target : Int) : Option Nat :=
  positionAcc target t.freqs 0

/-- The loop of `FreqTable::scale`: rewrites each frequency through
`scale_freq` while accumulating the new total.  The extra third
component records the arguments `scale_freq` is applied to, in call
order, for the calls-per-position property. -/
def scaleGo (f : Int → Int) : List Int → Int → List Int × Int × List Int
  | [], acc => ([], acc, [])
  | x :: rest, acc =>
    let y := f x
    let r := scaleGo f rest (acc + y)
    (y :: r.1, r.2.1, x :: r.2.2)

/-- `FreqTable::scale` (state part) together with the recorded argument
list of `scale_freq`. -/
def FreqTable.scale (t : FreqTable) (f : Int → Int) :
    FreqTable × List Int :=
  let r := scaleGo f t.freqs 0
  (⟨r.1, r.2.1⟩, r.2.2)

/-- States reachable through the public interface. -/
inductive FreqTable.Reachable : FreqTable → Prop
  | new (len : Nat) (t : FreqTable) :
      FreqTable.new len = some t → Reachable t
  | with_freq (len : Nat) (k : Int) (t : FreqTable) :
      FreqTable.with_freq len k = some t → Reachable t
  | add (t : FreqTable) (pos : Nat) (v : Int) (t' : FreqTable) :
      Reachable t → t.add pos v = some t' → Reachable t'
  | sub (t : FreqTable) (pos : Nat) (v : Int) (t' : FreqTable) :
      Reachable t → t.sub pos v = some t' → Reachable t'
  | inc (t : FreqTable) (pos : Nat) (t' : FreqTable) :
      Reachable t → t.inc pos = some t' → Reachable t'
  | dec (t : FreqTable) (pos : Nat) (t' : FreqTable) :
      Reachable t → t.dec pos = some t' → Reachable t'
  | scale (t : FreqTable) (f : Int → Int) :
      Reachable t → Reachable (t.scale f).1

end freq_array

/-! ### `cumulfreq_array::CumulFreqTable` -/

namespace cumulfreq_array

/-- `cumulfreq_array::CumulFreqTable`: cumulative sum per position. -/
structure CumulFreqTable where
  sums : List Int

/-- `CumulFreqTable::new`. -/
def CumulFreqTable.new (len : Nat) : Option CumulFreqTable :=
  if 0 < len then some ⟨List.replicate len 0⟩ else none

/-- The fill loop of `with_freq`: `*sum = total; total += init`. -/
def wfGo (init : Int) : Nat → Int → List Int
  | 0, _ => []
  | n + 1, total => total :: wfGo init n (total + init)

/-- `CumulFreqTable::with_freq`. -/
def CumulFreqTable.with_freq (len : Nat) (init : Int) :
    Option CumulFreqTable :=
  if 0 < len then some ⟨wfGo init len init⟩ else none

/-- `CumulFreqTable::len`. -/
def CumulFreqTable.len (t : CumulFreqTable) : Nat := t.sums.length

/-- `CumulFreqTable::add`: add `val` to every stored sum from `pos` on. -/
def CumulFreqTable.add (t : CumulFreqTable) (pos : Nat) (val : Int) :
    Option CumulFreqTable :=
  if pos < t.sums.length then
    some ⟨t.sums.take pos ++ (t.sums.drop pos).map (fun s => s + val)⟩
  else none

/-- `CumulFreqTable::sub`. -/
def CumulFreqTable.sub (t : CumulFreqTable) (pos : Nat) (val : Int) :
    Option CumulFreqTable :=
  if pos < t.sums.length then
    some ⟨t.sums.take pos ++ (t.sums.drop pos).map (fun s => s - val)⟩
  else none

/-- Default `CumulFreqTable::inc`. -/
def CumulFreqTable.inc (t : CumulFreqTable) (pos : Nat) :
    Option CumulFreqTable :=
  t.add pos 1

/-- Default `CumulFreqTable::dec`. -/
def CumulFreqTable.dec (t : CumulFreqTable) (pos : Nat) :
    Option CumulFreqTable :=
  t.sub pos 1

/-- `CumulFreqTable::sum`: a direct read. -/
def CumulFreqTable.sum (t : CumulFreqTable) (pos : Nat) : Option Int :=
  if pos < t.sums.length then some (t.sums.getD pos 0) else none

/-- `CumulFreqTable::total`: `sums.last()`, whose
`unwrap_unchecked` on an empty table (impossible for constructed
tables) is modelled by the default `0`. -/
def CumulFreqTable.total (t : CumulFreqTable) : Int := t.sums.getLastD 0

/-- `CumulFreqTable::freq`. -/
def CumulFreqTable.freq (t : CumulFreqTable) (pos : Nat) : Option Int :=
  if pos < t.sums.length then
    some (if pos = 0 then t.sums.getD 0 0
          else t.sums.getD pos 0 - t.sums.getD (pos - 1) 0)
  else none

/-- `Iterator::position(|&i_sum| i_sum >= sum)` from `find_by_sum`. -/
def position (target : Int) : List Int → Option Nat
  | [] => none
  | s :: rest =>
    if target ≤ s then some 0
    else (position target rest).map (fun i => i + 1)

/-- `CumulFreqTable::find_by_sum`; as for `freq_array`, the `none` case
is the `unwrap_unchecked` undefined behavior. -/
def CumulFreqTable.find_by_sum (t : CumulFreqTable) (target : Int) :
    Option Nat :=
  position target t.sums

/-- The loop of `CumulFreqTable::scale`, threading `psum` (previous old
sum) and `spsum` (scaled prefix sum); the second component records the
arguments passed to `scale_freq`. -/
def scaleGo (f : Int → Int) : List Int → Int → Int → List Int × List Int
  | [], _, _ => ([], [])
  | s :: rest, psumv, spsumv =>
    let d := s - psumv
    let sp := spsumv + f d
    let r := scaleGo f rest s sp
    (sp :: r.1, d :: r.2)

/-- `CumulFreqTable::scale` with the recorded argument list. -/
def CumulFreqTable.scale (t : CumulFreqTable) (f : Int → Int) :
    CumulFreqTable × List Int :=
  let r := scaleGo f t.sums 0 0
  (⟨r.1⟩, r.2)

/-- States reachable through the public interface. -/
inductive CumulFreqTable.Reachable : CumulFreqTable → Prop
  | new (len : Nat) (t : CumulFreqTable) :
      CumulFreqTable.new len = some t → Reachable t
  | with_freq (len : Nat) (k : Int) (t : CumulFreqTable) :
      CumulFreqTable.with_freq len k = some t → Reachable t
  | add (t : CumulFreqTable) (pos : Nat) (v : Int) (t' : CumulFreqTable) :
      Reachable t → t.add pos v = some t' → Reachable t'
  | sub (t : CumulFreqTable) (pos : Nat) (v : Int) (t' : CumulFreqTable) :
      Reachable t → t.sub pos v = some t' → Reachable t'
  | inc (t : CumulFreqTable) (pos : Nat) (t' : CumulFreqTable) :
      Reachable t → t.inc pos = some t' → Reachable t'
  | dec (t : CumulFreqTable) (pos : Nat) (t' : CumulFreqTable) :
      Reachable t → t.dec pos = some t' → Reachable t'
  | scale (t : CumulFreqTable) (f : Int → Int) :
      Reachable t → Reachable (t.scale f).1

end cumulfreq_array

/-! ### `binary_indexed_tree::CumulFreqTable` -/

namespace binary_indexed_tree

/-- `binary_indexed_tree::CumulFreqTable`: the Fenwick-tree cells. -/
structure CumulFreqTable where
  tree : List Int

/-- `CumulFreqTable::new`. -/
def CumulFreqTable.new (len : Nat) : Option CumulFreqTable :=
  if 0 < len then some ⟨List.replicate len 0⟩ else none

/-- `CumulFreqTable::with_freq`: cell `i` starts as
`init << i.trailing_zeros()` (cell `0` as `init`). -/
def CumulFreqTable.with_freq (len : Nat) (init : Int) :
    Option CumulFreqTable :=
  if 0 < len then
    some ⟨(List.range len).map
      (fun i => if i = 0 then init else init * 2 ^ tz i)⟩
  else none

/-- `CumulFreqTable::len`. -/
def CumulFreqTable.len (t : CumulFreqTable) : Nat := t.tree.length

/-- The update walk of `add`: `tree[pos] += val; pos += 1 << pos.trailing_zeros()`
while `pos < len`.  The loop is only ever entered with `pos ≥ 1` (the
`pos == 0` case updates `tree[0]` directly); the `0 < pos` conjunct
records that and makes the walk terminating. -/
def addLoop (t : List Int) (pos : Nat) (val : Int) : List Int :=
  if h : 0 < pos ∧ pos < t.length then
    addLoop (t.set pos (t.getD pos 0 + val)) (pos + lowbit pos) val
  else t
termination_by t.length - pos
decreasing_by
  rw [List.length_set]
  have := lowbit_pos h.1
  omega

/-- The update walk of `sub`, mirror of `addLoop`. -/
def subLoop (t : List Int) (pos : Nat) (val : Int) : List Int :=
  if h : 0 < pos ∧ pos < t.length then
    subLoop (t.set pos (t.getD pos 0 - val)) (pos + lowbit pos) val
  else t
termination_by t.length - pos
decreasing_by
  rw [List.length_set]
  have := lowbit_pos h.1
  omega

/-- `CumulFreqTable::add`. -/
def CumulFreqTable.add (t : CumulFreqTable) (pos : Nat) (val : Int) :
    Option CumulFreqTable :=
  if pos < t.tree.length then
    some ⟨if pos = 0 then t.tree.set 0 (t.tree.getD 0 0 + val)
          else addLoop t.tree pos val⟩
  else none

/-- `CumulFreqTable::sub`. -/
def CumulFreqTable.sub (t : CumulFreqTable) (pos : Nat) (val : Int) :
    Option CumulFreqTable :=
  if pos < t.tree.length then
    some ⟨if pos = 0 then t.tree.set 0 (t.tree.getD 0 0 - val)
          else subLoop t.tree pos val⟩
  else none

/-- Default `CumulFreqTable::inc`. -/
def CumulFreqTable.inc (t : CumulFreqTable) (pos : Nat) :
    Option CumulFreqTable :=
  t.add pos 1

/-- Default `CumulFreqTable::dec`. -/
def CumulFreqTable.dec (t : CumulFreqTable) (pos : Nat) :
    Option CumulFreqTable :=
  t.sub pos 1

/-- The query loop of `sum`: `sum += tree[pos]; pos -= 1 << pos.trailing_zeros()`
while `pos > 0`, over an abstract cell assignment. -/
def sumLoop (f : Nat → Int) (pos : Nat) (acc : Int) : Int :=
  if h : 0 < pos then sumLoop f (pos - lowbit pos) (acc + f pos) else acc
termination_by pos
decreasing_by
  have := lowbit_pos h
  omega

/-- `sum` on the raw cell list (the accumulator starts at `tree[0]`). -/
def sumCore (t : List Int) (pos : Nat) : Int :=
  sumLoop (fun i => t.getD i 0) pos (t.getD 0 0)

/-- `CumulFreqTable::sum`. -/
def CumulFreqTable.sum (t : CumulFreqTable) (pos : Nat) : Option Int :=
  if pos < t.tree.length then some (sumCore t.tree pos) else none

/-- `CumulFreqTable::total`: `self.sum(self.len() - 1)` (whose bounds
assert holds for every constructed table). -/
def CumulFreqTable.total (t : CumulFreqTable) : Int :=
  sumCore t.tree (t.tree.length - 1)

/-- The walk of `freq`: starting from `pos - 1`, subtract cells while
above `parent = pos - lowbit pos`.  The source loop guard is
`parent != pos`; on every call the walk stays at or above `parent`, so
the `<` guard is the same test and makes termination evident. -/
def freqLoop (f : Nat → Int) (parent p : Nat) (acc : Int) : Int :=
  if h : parent < p then freqLoop f parent (p - lowbit p) (acc - f p) else acc
termination_by p
decreasing_by
  have : 0 < p := by omega
  have := lowbit_pos this
  omega

/-- `freq` on the raw cell list. -/
def freqCore (t : List Int) (pos : Nat) : Int :=
  if pos = 0 then t.getD 0 0
  else freqLoop (fun i => t.getD i 0) (pos - lowbit pos) (pos - 1)
    (t.getD pos 0)

/-- `CumulFreqTable::freq`. -/
def CumulFreqTable.freq (t : CumulFreqTable) (pos : Nat) : Option Int :=
  if pos < t.tree.length then some (freqCore t.tree pos) else none

/-- The tree-shaped binary search of `find_by_sum`: test
`hi = pos + mid`, commit when in bounds and `tree[hi] <= rem`, halve
`mid`, stop at `mid = 0`. -/
def findLoop (f : Nat → Int) (len : Nat) (pos mid : Nat) (rem : Int) :
    Nat :=
  if h : mid = 0 then pos
  else if pos + mid < len ∧ f (pos + mid) ≤ rem then
    findLoop f len (pos + mid) (mid / 2) (rem - f (pos + mid))
  else findLoop f len pos (mid / 2) rem
termination_by mid
decreasing_by
  · omega
  · omega

/-- `CumulFreqTable::find_by_sum`: returns `0` unless
`target > tree[0]`, in which case it runs the binary search with the
initial halving step `(((len - 1) / 2) + 1).next_power_of_two()`. -/
def CumulFreqTable.find_by_sum (t : CumulFreqTable) (target : Int) :
    Nat :=
  if t.tree.getD 0 0 < target then
    findLoop (fun i => t.tree.getD i 0) t.tree.length 0
      (nextPow2 ((t.tree.length - 1) / 2 + 1)) (target - t.tree.getD 0 0)
  else 0

/-- The position walk of `scale`, from `len - 1` down to `1`: read the
absolute frequency, apply `scale_freq` once, and write the delta back
through the `sub`/`add` walks (their asserts hold: `1 ≤ pos < len`).
The second component records the arguments of `scale_freq`. -/
def scaleGo (f : Int → Int) : List Int → Nat → List Int × List Int
  | t, 0 => (t, [])
  | t, p + 1 =>
    let fr := freqCore t (p + 1)
    let sfr := f fr
    let t2 :=
      if sfr < fr then subLoop t (p + 1) (fr - sfr)
      else if fr < sfr then addLoop t (p + 1) (sfr - fr)
      else t
    let r := scaleGo f t2 p
    (r.1, fr :: r.2)

/-- `CumulFreqTable::scale`: the downward walk, then
`tree[0] = scale_freq(tree[0])`. -/
def CumulFreqTable.scale (t : CumulFreqTable) (f : Int → Int) :
    CumulFreqTable × List Int :=
  let r := scaleGo f t.tree (t.tree.length - 1)
  (⟨(r.1).set 0 (f ((r.1).getD 0 0))⟩, r.2 ++ [(r.1).getD 0 0])

/-- States reachable through the public interface. -/
inductive CumulFreqTable.Reachable : CumulFreqTable → Prop
  | new (len : Nat) (t : CumulFreqTable) :
      CumulFreqTable.new len = some t → Reachable t
  | with_freq (len : Nat) (k : Int) (t : CumulFreqTable) :
      CumulFreqTable.with_freq len k = some t → Reachable t
  | add (t : CumulFreqTable) (pos : Nat) (v : Int) (t' : CumulFreqTable) :
      Reachable t → t.add pos v = some t' → Reachable t'
  | sub (t : CumulFreqTable) (pos : Nat) (v : Int) (t' : CumulFreqTable) :
      Reachable t → t.sub pos v = some t' → Reachable t'
  | inc (t : CumulFreqTable) (pos : Nat) (t' : CumulFreqTable) :
      Reachable t → t.inc pos = some t' → Reachable t'
  | dec (t : CumulFreqTable) (pos : Nat) (t' : CumulFreqTable) :
      Reachable t → t.dec pos = some t' → Reachable t'
  | scale (t : CumulFreqTable) (f : Int → Int) :
      Reachable t → Reachable (t.scale f).1

end binary_indexed_tree

/-! ### Semantics of the Fenwick traversals -/

namespace binary_indexed_tree

theorem sumLoop_eq (f : Nat → Int) (p : Nat) (acc : Int) :
    sumLoop f p acc = acc + chainSum f p := by
  induction p using Nat.strong_induction_on generalizing acc with
  | _ p ih =>
    rcases Nat.eq_zero_or_pos p with h | h
    · subst h
      rw [sumLoop, chainSum_zero]
      simp
    · rw [sumLoop]
      have hlb := lowbit_pos h
      simp only [h, dite_true]
      rw [ih (p - lowbit p) (by omega), chainSum_pos f h]
      ring

theorem freqLoop_eq (f : Nat → Int) (parent p : Nat) (acc : Int) :
    freqLoop f parent p acc = acc - chainSumAbove f parent p := by
  induction p using Nat.strong_induction_on generalizing acc with
  | _ p ih =>
    by_cases h : parent < p
    · rw [freqLoop]
      have hp : 0 < p := by omega
      have hlb := lowbit_pos hp
      simp only [h, dite_true]
      rw [ih (p - lowbit p) (by omega), chainSumAbove_step f h]
      ring
    · rw [freqLoop, chainSumAbove_stop f h]
      simp [h]

/-- The value computed by `sum(p)` as a function of the abstract cells. -/
def sumVal (f : Nat → Int) (p : Nat) : Int := f 0 + chainSum f p

/-- The value computed by `freq(p)` as a function of the abstract cells. -/
def freqVal (f : Nat → Int) (p : Nat) : Int :=
  if p = 0 then f 0 else f p - chainSumAbove f (p - lowbit p) (p - 1)

theorem sumCore_eq (t : List Int) (p : Nat) :
    sumCore t p = sumVal (fun i => t.getD i 0) p := by
  unfold sumCore sumVal
  rw [sumLoop_eq]

theorem freqCore_eq (t : List Int) (p : Nat) :
    freqCore t p = freqVal (fun i => t.getD i 0) p := by
  unfold freqCore freqVal
  by_cases h : p = 0
  · simp [h]
  · simp only [h, if_false]
    rw [freqLoop_eq]

theorem sumVal_zero (f : Nat → Int) : sumVal f 0 = f 0 := by
  unfold sumVal
  rw [chainSum_zero]
  ring

/-- Stepping the prefix sum by one position yields exactly the computed
frequency: the heart of the `sum`/`freq` consistency, valid for every
cell assignment. -/
theorem sumVal_succ_sub (f : Nat → Int) (p : Nat) :
    sumVal f (p + 1) - sumVal f p = freqVal f (p + 1) := by
  unfold sumVal freqVal
  have hdec := chainSum_decomp f p
  rw [chainSum_pos f (by omega : 0 < p + 1)]
  simp only [Nat.add_one_ne_zero, if_false, Nat.add_sub_cancel]
  rw [hdec]
  ring

theorem sumVal_eq_freq_list (f : Nat → Int) (p : Nat) :
    sumVal f p = ((List.range (p + 1)).map (freqVal f)).sum := by
  induction p with
  | zero =>
    rw [sumVal_zero]
    have h1 : List.range 1 = [0] := rfl
    rw [h1, List.map_cons, List.map_nil, List.sum_cons, List.sum_nil]
    unfold freqVal
    simp
  | succ q ih =>
    rw [List.range_succ, List.map_append, List.sum_append]
    have := sumVal_succ_sub f q
    simp only [List.map_cons, List.map_nil, List.sum_cons, List.sum_nil]
    omega

/-- `Rep t L`: the cell list `t` is the Fenwick encoding of the
frequency list `L` — cell `0` holds `L[0]` and cell `c ≥ 1` holds the
range sum of `L` over `(c - lowbit c, c]`. -/
def cellVal (L : List Int) (c : Nat) : Int :=
  if c = 0 then psum L 0 else psum L c - psum L (c - lowbit c)

def Rep (t L : List Int) : Prop :=
  t.length = L.length ∧ ∀ c, c < t.length → t.getD c 0 = cellVal L c

theorem Rep.sumVal_eq {t L : List Int} (h : Rep t L) :
    ∀ p, p < t.length → sumVal (fun i => t.getD i 0) p = psum L p := by
  intro p
  induction p using Nat.strong_induction_on with
  | _ p ih =>
    intro hp
    rcases Nat.eq_zero_or_pos p with h0 | h0
    · subst h0
      rw [sumVal_zero]
      have := h.2 0 hp
      rw [this]
      unfold cellVal
      simp
    · have hlb := lowbit_pos h0
      have hlble := lowbit_le h0
      unfold sumVal
      rw [chainSum_pos _ h0]
      have hrec := ih (p - lowbit p) (by omega) (by omega)
      unfold sumVal at hrec
      have hcell := h.2 p hp
      unfold cellVal at hcell
      simp only [Nat.pos_iff_ne_zero.mp h0, if_false] at hcell
      rw [hcell]
      omega

theorem Rep.freq_getD {t L : List Int} (h : Rep t L) :
    ∀ p, p < t.length → freqCore t p = L.getD p 0 := by
  intro p hp
  rw [freqCore_eq]
  rcases Nat.eq_zero_or_pos p with h0 | h0
  · subst h0
    have hcell := h.2 0 hp
    unfold cellVal at hcell
    rw [if_pos rfl, psum_zero] at hcell
    unfold freqVal
    rw [if_pos rfl]
    exact hcell
  · obtain ⟨q, hq⟩ : ∃ q, p = q + 1 := ⟨p - 1, by omega⟩
    subst hq
    have hsub := sumVal_succ_sub (fun i => t.getD i 0) q
    rw [h.sumVal_eq (q + 1) hp, h.sumVal_eq q (by omega)] at hsub
    rw [← hsub, psum_succ]
    ring

end binary_indexed_tree

namespace binary_indexed_tree

theorem addLoop_length :
    ∀ d t pos (v : Int), t.length - pos ≤ d →
      (addLoop t pos v).length = t.length := by
  intro d
  induction d with
  | zero =>
    intro t pos v hd
    rw [addLoop]
    split
    · next hcond => omega
    · rfl
  | succ n ih =>
    intro t pos v hd
    rw [addLoop]
    split
    · next hcond =>
      have hlb := lowbit_pos hcond.1
      rw [ih _ _ v (by rw [List.length_set]; omega), List.length_set]
    · rfl

theorem subLoop_eq_addLoop :
    ∀ d t pos (v : Int), t.length - pos ≤ d →
      subLoop t pos v = addLoop t pos (-v) := by
  intro d
  induction d with
  | zero =>
    intro t pos v hd
    rw [subLoop, addLoop]
    split
    · next hcond => omega
    · rfl
  | succ n ih =>
    intro t pos v hd
    rw [subLoop, addLoop]
    split
    · next hcond =>
      have hlb := lowbit_pos hcond.1
      rw [ih _ _ v (by rw [List.length_set]; omega)]
      have harg : t.getD pos 0 - v = t.getD pos 0 + -v := by ring
      rw [harg]
    · rfl

theorem addLoop_getD :
    ∀ d t pos (v : Int) c, t.length - pos ≤ d → 0 < pos → c < t.length →
      (addLoop t pos v).getD c 0 =
        t.getD c 0 + (if inWalk pos c = true then v else 0) := by
  intro d
  induction d with
  | zero =>
    intro t pos v c hd hpos hc
    rw [addLoop]
    have hcond : ¬ (0 < pos ∧ pos < t.length) := by omega
    rw [dif_neg hcond]
    have hnw : ¬ inWalk pos c = true := by
      intro hw
      have := inWalk_le hw
      omega
    rw [if_neg hnw]
    ring
  | succ n ih =>
    intro t pos v c hd hpos hc
    rw [addLoop]
    by_cases hcond : 0 < pos ∧ pos < t.length
    · rw [dif_pos hcond]
      have hlb := lowbit_pos hpos
      have hrec := ih (t.set pos (t.getD pos 0 + v)) (pos + lowbit pos) v c
        (by rw [List.length_set]; omega) (by omega)
        (by rw [List.length_set]; omega)
      rw [hrec]
      by_cases hcp : c = pos
      · subst hcp
        rw [getD_set_self t c _ hc]
        have hnw : ¬ inWalk (c + lowbit c) c = true := by
          intro hw
          have := inWalk_le hw
          omega
        rw [if_neg hnw, if_pos (inWalk_self c)]
        ring
      · rw [getD_set_ne t pos c _ (by omega)]
        rcases Nat.lt_or_ge pos c with hlt | hge
        · rw [inWalk_step hpos hlt]
        · have h1 : ¬ inWalk pos c = true := by
            intro hw
            have := inWalk_le hw
            omega
          have h2 : ¬ inWalk (pos + lowbit pos) c = true := by
            intro hw
            have := inWalk_le hw
            omega
          rw [if_neg h1, if_neg h2]
    · rw [dif_neg hcond]
      have hnw : ¬ inWalk pos c = true := by
        intro hw
        have := inWalk_le hw
        omega
      rw [if_neg hnw]
      ring

/-- `add`'s update body (either the direct `tree[0]` update or the
walk) maps a representation of `L` to a representation of `L` with
`v` added at `pos`. -/
theorem Rep.addBody {t L : List Int} (h : Rep t L) {pos : Nat}
    (hpos : pos < t.length) (v : Int) :
    Rep (if pos = 0 then t.set 0 (t.getD 0 0 + v) else addLoop t pos v)
      (L.set pos (L.getD pos 0 + v)) := by
  have hlen := h.1
  have hLlen : pos < L.length := by omega
  by_cases h0 : pos = 0
  · subst h0
    rw [if_pos rfl]
    have hcell0 : t.getD 0 0 = L.getD 0 0 := by
      have hx := h.2 0 hpos
      unfold cellVal at hx
      rw [if_pos rfl, psum_zero] at hx
      exact hx
    constructor
    · rw [List.length_set, List.length_set, hlen]
    · intro c hc
      rw [List.length_set] at hc
      by_cases hc0 : c = 0
      · subst hc0
        rw [getD_set_self t 0 _ hpos, hcell0]
        unfold cellVal
        rw [if_pos rfl, psum_set L 0 0 _ hLlen, if_pos (le_refl 0), psum_zero]
        ring
      · rw [getD_set_ne t 0 c _ (by omega)]
        have hcell : t.getD c 0 = psum L c - psum L (c - lowbit c) := by
          have hx := h.2 c hc
          unfold cellVal at hx
          rw [if_neg hc0] at hx
          exact hx
        rw [hcell]
        unfold cellVal
        rw [if_neg hc0, psum_set L 0 c _ hLlen,
          psum_set L 0 (c - lowbit c) _ hLlen,
          if_pos (Nat.zero_le c), if_pos (Nat.zero_le (c - lowbit c))]
        ring
  · rw [if_neg h0]
    have hp1 : 0 < pos := by omega
    constructor
    · rw [addLoop_length (t.length - pos) t pos v le_rfl, List.length_set, hlen]
    · intro c hc
      rw [addLoop_length (t.length - pos) t pos v le_rfl] at hc
      rw [addLoop_getD (t.length - pos) t pos v c le_rfl hp1 hc]
      by_cases hc0 : c = 0
      · subst hc0
        have hnw : ¬ inWalk pos 0 = true := by
          intro hw
          have := inWalk_le hw
          omega
        have hcell0 : t.getD 0 0 = psum L 0 := by
          have hx := h.2 0 hc
          unfold cellVal at hx
          rw [if_pos rfl] at hx
          exact hx
        rw [if_neg hnw, hcell0]
        unfold cellVal
        rw [if_pos rfl, psum_set L pos 0 _ hLlen,
          if_neg (by omega : ¬ pos ≤ 0)]
      · have hcpos : 0 < c := by omega
        have hcell : t.getD c 0 = psum L c - psum L (c - lowbit c) := by
          have hx := h.2 c hc
          unfold cellVal at hx
          rw [if_neg hc0] at hx
          exact hx
        rw [hcell]
        unfold cellVal
        rw [if_neg hc0, psum_set L pos c _ hLlen,
          psum_set L pos (c - lowbit c) _ hLlen]
        have hiff := inWalk_iff hp1 hcpos
        by_cases hw : inWalk pos c = true
        · obtain ⟨hw1, hw2⟩ := hiff.mp hw
          rw [if_pos hw, if_pos hw2, if_neg (by omega : ¬ pos ≤ c - lowbit c)]
          ring
        · have hnot := hiff.not.mp hw
          push_neg at hnot
          by_cases hle : pos ≤ c
          · have hle2 : pos ≤ c - lowbit c := by
              by_contra hx
              have := hnot (by omega)
              omega
            rw [if_neg hw, if_pos hle, if_pos hle2]
            ring
          · rw [if_neg hw, if_neg hle, if_neg (by omega : ¬ pos ≤ c - lowbit c)]
            ring

end binary_indexed_tree

namespace binary_indexed_tree

theorem lowbit_eq_pow_tz {n : Nat} (hn : 0 < n) : lowbit n = 2 ^ tz n := by
  induction n using Nat.strong_induction_on with
  | _ n ih =>
    rcases Nat.even_or_odd n with he | ho
    · obtain ⟨m, hm⟩ := he
      have hm' : n = 2 * m := by omega
      subst hm'
      have hmpos : 0 < m := by omega
      have htz : tz (2 * m) = tz m + 1 := by
        rw [tz]
        have h1 : 2 * m ≠ 0 := by omega
        have h2 : ¬ (2 * m) % 2 = 1 := by omega
        have h3 : 2 * m / 2 = m := by omega
        simp [h1, h2, h3]
      rw [lowbit_two_mul, htz, ih m (by omega) hmpos]
      ring
    · have h1 : n % 2 = 1 := Nat.odd_iff.mp ho
      have htz : tz n = 0 := by
        rw [tz]
        have hne : n ≠ 0 := by omega
        simp [hne, h1]
      rw [lowbit_odd h1, htz]
      rfl

theorem getD_range_map (g : Nat → Int) (n p : Nat) (hp : p < n) :
    ((List.range n).map g).getD p 0 = g p := by
  rw [List.getD_eq_getElem?_getD, List.getElem?_map, List.getElem?_range hp]
  rfl

theorem psum_replicate (n : Nat) (k : Int) (q : Nat) :
    psum (List.replicate n k) q = ((min (q + 1) n : Nat) : Int) * k := by
  unfold psum
  rw [List.take_replicate, List.sum_replicate, nsmul_eq_mul]

/-- `new` produces the Fenwick encoding of the all-zero table. -/
theorem rep_new (len : Nat) :
    Rep (List.replicate len 0) (List.replicate len 0) := by
  constructor
  · rw [List.length_replicate]
  · intro c hc
    rw [List.length_replicate] at hc
    have hg : (List.replicate len (0:Int)).getD c 0 = 0 := by
      rw [List.getD_eq_getElem?_getD, List.getElem?_replicate]
      simp [hc]
    rw [hg]
    unfold cellVal
    rw [psum_replicate, psum_replicate, psum_replicate]
    split <;> ring

/-- `with_freq` produces the Fenwick encoding of the constant table:
cell `c ≥ 1` holds `init * 2^(trailing zeros) = init * lowbit c`, the
range sum of `lowbit c` copies of `init`. -/
theorem rep_with_freq (len : Nat) (k : Int) :
    Rep ((List.range len).map (fun i => if i = 0 then k else k * 2 ^ tz i))
      (List.replicate len k) := by
  constructor
  · rw [List.length_map, List.length_range, List.length_replicate]
  · intro c hc
    rw [List.length_map, List.length_range] at hc
    rw [getD_range_map _ len c hc]
    unfold cellVal
    by_cases hc0 : c = 0
    · subst hc0
      rw [if_pos rfl, if_pos rfl, psum_replicate]
      have h1 : min 1 len = 1 := by omega
      rw [h1]
      push_cast
      ring
    · have hcpos : 0 < c := by omega
      have hcast : (2:Int) ^ tz c = ((2 ^ tz c : Nat) : Int) := by
        push_cast
        ring
      rw [if_neg hc0, if_neg hc0, psum_replicate, psum_replicate, hcast,
        ← lowbit_eq_pow_tz hcpos]
      have hlb := lowbit_pos hcpos
      have hble := lowbit_le hcpos
      have h1 : min (c + 1) len = c + 1 := by omega
      have h2 : min (c - lowbit c + 1) len = c - lowbit c + 1 := by omega
      rw [h1, h2]
      have h3 : ((c + 1 : Nat) : Int) - ((c - lowbit c + 1 : Nat) : Int) =
          ((lowbit c : Nat) : Int) := by
        push_cast
        omega
      have h4 : ∀ a b x : Int, a * x - b * x = (a - b) * x := by
        intro a b x
        ring
      rw [h4, h3]
      ring

/-- The list of absolute frequencies computed by `freq` from a raw cell
list. -/
def freqList (t : List Int) : List Int :=
  (List.range t.length).map (freqCore t)

theorem psum_freqList (t : List Int) :
    ∀ p, p < t.length → psum (freqList t) p = sumVal (fun i => t.getD i 0) p := by
  intro p
  induction p with
  | zero =>
    intro hp
    rw [psum_zero, sumVal_zero]
    unfold freqList
    rw [getD_range_map _ _ 0 hp, freqCore_eq]
    unfold freqVal
    rw [if_pos rfl]
  | succ q ih =>
    intro hp
    rw [psum_succ, ih (by omega)]
    unfold freqList
    rw [getD_range_map _ _ (q + 1) hp, freqCore_eq]
    have := sumVal_succ_sub (fun i => t.getD i 0) q
    omega

/-- Every cell list is the Fenwick encoding of its own computed
frequency list. -/
theorem rep_self (t : List Int) : Rep t (freqList t) := by
  constructor
  · unfold freqList
    rw [List.length_map, List.length_range]
  · intro c hc
    unfold cellVal
    by_cases hc0 : c = 0
    · subst hc0
      rw [if_pos rfl, psum_freqList t 0 hc, sumVal_zero]
    · have hcpos : 0 < c := by omega
      have hble := lowbit_le hcpos
      rw [if_neg hc0, psum_freqList t c hc,
        psum_freqList t (c - lowbit c) (by omega)]
      unfold sumVal
      rw [chainSum_pos _ hcpos]
      ring

/-- `sub`'s update body is `add`'s with the negated value. -/
theorem Rep.subBody {t L : List Int} (h : Rep t L) {pos : Nat}
    (hpos : pos < t.length) (v : Int) :
    Rep (if pos = 0 then t.set 0 (t.getD 0 0 - v) else subLoop t pos v)
      (L.set pos (L.getD pos 0 - v)) := by
  have h1 : t.getD 0 0 - v = t.getD 0 0 + -v := by ring
  have h2 : L.getD pos 0 - v = L.getD pos 0 + -v := by ring
  rw [h1, h2, subLoop_eq_addLoop (t.length - pos) t pos v le_rfl]
  exact h.addBody hpos (-v)

end binary_indexed_tree

theorem psum_mono {L : List Int} (hnn : ∀ i, i < L.length → 0 ≤ L.getD i 0) :
    ∀ d i, i + d < L.length → psum L i ≤ psum L (i + d) := by
  intro d
  induction d with
  | zero => intro i _; exact le_refl _
  | succ e ih =>
    intro i hi
    have h1 : i + (e + 1) = (i + e) + 1 := by omega
    rw [h1, psum_succ]
    have h2 := ih i (by omega)
    have h3 := hnn (i + e + 1) (by omega)
    omega

namespace binary_indexed_tree

/-- Invariant-based specification of the binary search loop of
`find_by_sum`: started in a sound state it returns the largest position
(below `len`) whose prefix sum is `≤ target`.  Requires nonnegative
frequencies (`hnn`), which make prefix sums monotone. -/
theorem findLoop_spec {tr L : List Int} (h : Rep tr L)
    (hnn : ∀ i, i < L.length → 0 ≤ L.getD i 0) (target : Int) :
    ∀ mid pos (rem : Int),
      (mid = 0 ∨ ∃ k, mid = 2 ^ k) →
      (mid ≠ 0 → 2 * mid ∣ pos) →
      pos < tr.length →
      rem = target - psum L pos →
      0 ≤ rem →
      (∀ q, pos < q → q < tr.length → psum L q ≤ target → q < pos + 2 * mid) →
      (findLoop (fun i => tr.getD i 0) tr.length pos mid rem < tr.length ∧
       psum L (findLoop (fun i => tr.getD i 0) tr.length pos mid rem) ≤ target ∧
       ∀ q, findLoop (fun i => tr.getD i 0) tr.length pos mid rem < q →
         q < tr.length → target < psum L q) := by
  have hlen := h.1
  intro mid
  induction mid using Nat.strong_induction_on with
  | _ mid ih =>
    intro pos rem hmid hdvd hpos hrem hrem0 hI6
    by_cases hm0 : mid = 0
    · subst hm0
      rw [findLoop]
      simp only [dite_true]
      refine ⟨hpos, by omega, ?_⟩
      intro q hq1 hq2
      by_contra hq3
      have := hI6 q hq1 hq2 (by omega)
      omega
    · obtain ⟨k, hk⟩ : ∃ k, mid = 2 ^ k := by
        rcases hmid with h1 | h1
        · omega
        · exact h1
      have hmpos : 0 < mid := by
        rw [hk]; exact pow_pos (by omega) k
      -- value of the probed cell, when it is in bounds
      have hcell : pos + mid < tr.length →
          tr.getD (pos + mid) 0 = psum L (pos + mid) - psum L pos := by
        intro hhi
        obtain ⟨a, ha⟩ := hdvd hm0
        have hlb : lowbit (pos + mid) = mid := by
          have harg : pos + mid = 2 ^ (k + 1) * a + 2 ^ k := by
            rw [ha, hk]; ring
          rw [harg, lowbit_mul_pow_add_pow, hk]
        have hx := h.2 (pos + mid) hhi
        unfold cellVal at hx
        rw [if_neg (by omega), hlb] at hx
        have harg2 : pos + mid - mid = pos := by omega
        rw [harg2] at hx
        exact hx
      -- the halved step keeps the power-of-two shape
      have hmid' : mid / 2 = 0 ∨ ∃ k', mid / 2 = 2 ^ k' := by
        cases k with
        | zero =>
          left
          rw [hk]
          rfl
        | succ j =>
          right
          refine ⟨j, ?_⟩
          rw [hk, pow_succ]
          omega
      have hmid2 : mid / 2 ≠ 0 → 2 * (mid / 2) = mid := by
        intro hne
        cases k with
        | zero => rw [hk] at hne; omega
        | succ j =>
          have : (2:Nat) ^ (j + 1) = 2 ^ j * 2 := pow_succ 2 j
          rw [hk, this]
          omega
      rw [findLoop, dif_neg hm0]
      by_cases hcond : pos + mid < tr.length ∧
          (fun i => tr.getD i 0) (pos + mid) ≤ rem
      · rw [if_pos hcond]
        obtain ⟨hhi, hle⟩ := hcond
        simp only at hle
        rw [hcell hhi] at hle
        obtain ⟨a, ha⟩ := hdvd hm0
        refine ih (mid / 2) (by omega) (pos + mid) (rem - tr.getD (pos + mid) 0)
          hmid' ?_ hhi ?_ ?_ ?_
        · intro hne
          rw [hmid2 hne, hk, ha, hk]
          exact ⟨2 * a + 1, by ring⟩
        · rw [hcell hhi, hrem]
          ring
        · rw [hcell hhi]
          omega
        · intro q hq1 hq2 hq3
          have hold := hI6 q (by omega) hq2 hq3
          by_cases hne : mid / 2 = 0
          · have hk0 : mid = 1 := by
              cases k with
              | zero => rw [hk]; rfl
              | succ j =>
                exfalso
                have : (2:Nat) ^ (j + 1) = 2 ^ j * 2 := pow_succ 2 j
                rw [hk, this] at hne
                have := pow_pos (by omega : (0:Nat) < 2) j
                omega
            omega
          · have := hmid2 hne
            omega
      · rw [if_neg hcond]
        have hdvd2 : mid / 2 ≠ 0 → 2 * (mid / 2) ∣ pos := by
          intro hne
          rw [hmid2 hne]
          obtain ⟨a, ha⟩ := hdvd hm0
          exact ⟨2 * a, by rw [ha]; ring⟩
        refine ih (mid / 2) (by omega) pos rem hmid' hdvd2 hpos hrem hrem0 ?_
        intro q hq1 hq2 hq3
        -- the failed probe bounds every candidate below `pos + mid`
        have hqlt : q < pos + mid := by
          by_cases hhi : pos + mid < tr.length
          · have hgt : rem < tr.getD (pos + mid) 0 := by
              by_contra hx
              exact hcond ⟨hhi, by simpa using (by omega : tr.getD (pos + mid) 0 ≤ rem)⟩
            rw [hcell hhi] at hgt
            have hhit : target < psum L (pos + mid) := by omega
            by_contra hxq
            have hmono := psum_mono hnn (q - (pos + mid)) (pos + mid)
              (by omega)
            have harg : pos + mid + (q - (pos + mid)) = q := by omega
            rw [harg] at hmono
            omega
          · omega
        by_cases hne : mid / 2 = 0
        · have hk0 : mid = 1 := by
            cases k with
            | zero => rw [hk]; rfl
            | succ j =>
              exfalso
              have : (2:Nat) ^ (j + 1) = 2 ^ j * 2 := pow_succ 2 j
              rw [hk, this] at hne
              have := pow_pos (by omega : (0:Nat) < 2) j
              omega
          omega
        · have := hmid2 hne
          omega

end binary_indexed_tree

namespace binary_indexed_tree

/-- What `find_by_sum` computes on a table with nonnegative
frequencies: `0` when `target ≤ sum(0)`, otherwise the largest position
whose prefix sum is `≤ target`.  In particular the result is always in
bounds. -/
theorem find_by_sum_spec {t : CumulFreqTable} {L : List Int}
    (h : Rep t.tree L) (hnn : ∀ i, i < L.length → 0 ≤ L.getD i 0)
    (hlen : 0 < t.tree.length) (target : Int) :
    t.find_by_sum target < t.tree.length ∧
    (psum L 0 < target →
      psum L (t.find_by_sum target) ≤ target ∧
      ∀ q, t.find_by_sum target < q → q < t.tree.length →
        target < psum L q) ∧
    (target ≤ psum L 0 → t.find_by_sum target = 0) := by
  have hcell0 : t.tree.getD 0 0 = psum L 0 := by
    have hx := h.2 0 hlen
    unfold cellVal at hx
    rw [if_pos rfl] at hx
    exact hx
  unfold CumulFreqTable.find_by_sum
  rw [hcell0]
  by_cases hlt : psum L 0 < target
  · rw [if_pos hlt]
    set mid : Nat := nextPow2 ((t.tree.length - 1) / 2 + 1) with hmid
    have hmidpow : ∃ k, mid = 2 ^ k := ⟨Nat.clog 2 ((t.tree.length - 1) / 2 + 1), rfl⟩
    have hmidge : (t.tree.length - 1) / 2 + 1 ≤ mid :=
      Nat.le_pow_clog (by omega) _
    have hspec := findLoop_spec h hnn target mid 0 (target - psum L 0)
      (Or.inr hmidpow) (fun _ => dvd_zero _) hlen rfl (by omega)
      (by
        intro q hq1 hq2 hq3
        omega)
    refine ⟨hspec.1, fun _ => ⟨hspec.2.1, hspec.2.2⟩, fun hc => by omega⟩
  · rw [if_neg hlt]
    exact ⟨hlen, fun hc => absurd hc hlt, fun _ => rfl⟩

end binary_indexed_tree

theorem set_getD_self (L : List Int) (n : Nat) (hn : n < L.length) :
    L.set n (L.getD n 0) = L := by
  apply List.ext_getElem
  · rw [List.length_set]
  · intro i h1 h2
    rw [List.length_set] at h1
    by_cases hin : n = i
    · subst hin
      rw [← List.getD_eq_getElem (L.set n (L.getD n 0)) 0
          (by rw [List.length_set]; exact h1),
        getD_set_self L n _ hn, List.getD_eq_getElem L 0 h2]
    · rw [← List.getD_eq_getElem (L.set n (L.getD n 0)) 0
          (by rw [List.length_set]; exact h1),
        getD_set_ne L n i _ hin, List.getD_eq_getElem L 0 h2]

theorem list_ext_getD (A B : List Int) (hlen : A.length = B.length)
    (h : ∀ i, i < A.length → A.getD i 0 = B.getD i 0) : A = B := by
  apply List.ext_getElem hlen
  intro i h1 h2
  rw [← List.getD_eq_getElem A 0 h1, ← List.getD_eq_getElem B 0 h2]
  exact h i h1

theorem getD_map0 (L : List Int) (f : Int → Int) (i : Nat) (hi : i < L.length) :
    (L.map f).getD i 0 = f (L.getD i 0) := by
  rw [List.getD_eq_getElem (L.map f) 0 (by rw [List.length_map]; exact hi),
    List.getD_eq_getElem L 0 hi, List.getElem_map]

namespace binary_indexed_tree

/-- The frequency list obtained from `L` by scaling positions `p`,
`p-1`, …, `1` through `f`, in the order `scale`'s walk performs it. -/
def scaleBelow (f : Int → Int) (L : List Int) : Nat → List Int
  | 0 => L
  | p + 1 => scaleBelow f (L.set (p + 1) (f (L.getD (p + 1) 0))) p

theorem scaleBelow_length (f : Int → Int) :
    ∀ p L, (scaleBelow f L p).length = L.length := by
  intro p
  induction p with
  | zero => intro L; rfl
  | succ q ih =>
    intro L
    unfold scaleBelow
    rw [ih, List.length_set]

theorem scaleBelow_getD (f : Int → Int) :
    ∀ p L i, i < L.length →
      (scaleBelow f L p).getD i 0 =
        if 1 ≤ i ∧ i ≤ p then f (L.getD i 0) else L.getD i 0 := by
  intro p
  induction p with
  | zero =>
    intro L i hi
    have hcond : ¬ (1 ≤ i ∧ i ≤ 0) := by omega
    rw [if_neg hcond]
    rfl
  | succ q ih =>
    intro L i hi
    unfold scaleBelow
    rw [ih _ i (by rw [List.length_set]; exact hi)]
    by_cases hiq : i = q + 1
    · subst hiq
      rw [if_neg (by omega : ¬ (1 ≤ q + 1 ∧ q + 1 ≤ q)),
        if_pos (by omega : 1 ≤ q + 1 ∧ q + 1 ≤ q + 1),
        getD_set_self L (q + 1) _ hi]
    · rw [getD_set_ne L (q + 1) i _ (by omega)]
      by_cases hc : 1 ≤ i ∧ i ≤ q
      · rw [if_pos hc, if_pos (by omega)]
      · rw [if_neg hc, if_neg (by omega)]

/-- One step of `scale`'s walk preserves the representation, replacing
the frequency at `p + 1` by its scaled value. -/
theorem bit_scaleGo_spec (f : Int → Int) :
    ∀ p t L, Rep t L → p < t.length →
      Rep (scaleGo f t p).1 (scaleBelow f L p) ∧
      (scaleGo f t p).2 =
        ((List.range' 1 p).reverse).map (fun i => L.getD i 0) := by
  intro p
  induction p with
  | zero =>
    intro t L h hp
    exact ⟨h, rfl⟩
  | succ q ih =>
    intro t L h hp
    have hlen := h.1
    have hfr : freqCore t (q + 1) = L.getD (q + 1) 0 := h.freq_getD (q + 1) hp
    have hL1 : q + 1 < L.length := by omega
    set frv := L.getD (q + 1) 0 with hfrv
    -- the updated tree after the delta write-back
    have h2 : Rep
        (if f frv < frv then subLoop t (q + 1) (frv - f frv)
         else if frv < f frv then addLoop t (q + 1) (f frv - frv) else t)
        (L.set (q + 1) (f frv)) := by
      by_cases hlt : f frv < frv
      · rw [if_pos hlt]
        have hbody := h.subBody hp (frv - f frv)
        rw [if_neg (by omega : ¬ q + 1 = 0)] at hbody
        have harg : L.getD (q + 1) 0 - (frv - f frv) = f frv := by
          rw [← hfrv]; ring
        rw [harg] at hbody
        exact hbody
      · rw [if_neg hlt]
        by_cases hgt : frv < f frv
        · rw [if_pos hgt]
          have hbody := h.addBody hp (f frv - frv)
          rw [if_neg (by omega : ¬ q + 1 = 0)] at hbody
          have harg : L.getD (q + 1) 0 + (f frv - frv) = f frv := by
            rw [← hfrv]; ring
          rw [harg] at hbody
          exact hbody
        · rw [if_neg hgt]
          have heq : f frv = frv := by omega
          rw [heq, hfrv, set_getD_self L (q + 1) hL1]
          exact h
    have hlen2 : q < (if f frv < frv then subLoop t (q + 1) (frv - f frv)
        else if frv < f frv then addLoop t (q + 1) (f frv - frv) else t).length := by
      rw [h2.1, List.length_set]
      omega
    have hrec := ih _ _ h2 hlen2
    constructor
    · show Rep (scaleGo f _ q).1 _
      unfold scaleBelow
      rw [hfr]
      exact hrec.1
    · show freqCore t (q + 1) :: (scaleGo f _ q).2 = _
      rw [hfr, hrec.2]
      have hrange : (List.range' 1 (q + 1)).reverse =
          (1 + q) :: (List.range' 1 q).reverse := by
        rw [List.range'_concat, List.reverse_append]
        norm_num
      rw [hrange, List.map_cons]
      have hhead : L.getD (1 + q) 0 = frv := by
        rw [hfrv, Nat.add_comm]
      rw [hhead]
      have htail : ((List.range' 1 q).reverse).map
            (fun i => (L.set (q + 1) (f frv)).getD i 0) =
          ((List.range' 1 q).reverse).map (fun i => L.getD i 0) := by
        apply List.map_congr_left
        intro a ha
        rw [List.mem_reverse, List.mem_range'_1] at ha
        exact getD_set_ne L (q + 1) a _ (by omega)
      rw [htail]

end binary_indexed_tree

namespace binary_indexed_tree

/-- `scale` maps the Fenwick encoding of `L` to the encoding of
`L.map f`, and applies `scale_freq` exactly once per position, in the
order `len-1, …, 1, 0`, to the absolute frequencies. -/
theorem scale_rep {t : CumulFreqTable} {L : List Int} (h : Rep t.tree L)
    (hlen : 0 < t.tree.length) (f : Int → Int) :
    Rep (t.scale f).1.tree (L.map f) ∧
    (t.scale f).2 =
      ((List.range t.tree.length).reverse).map (fun i => L.getD i 0) := by
  have hLlen : 0 < L.length := by
    have := h.1
    omega
  obtain ⟨hrep, hcalls⟩ :=
    bit_scaleGo_spec f (t.tree.length - 1) t.tree L h (by omega)
  set r := scaleGo f t.tree (t.tree.length - 1) with hrdef
  have hdef : t.scale f =
      (⟨r.1.set 0 (f (r.1.getD 0 0))⟩, r.2 ++ [r.1.getD 0 0]) := rfl
  -- the walk's result encodes `L` with all positions except `0` scaled
  have hSB : scaleBelow f L (t.tree.length - 1) =
      (L.map f).set 0 (L.getD 0 0) := by
    apply list_ext_getD
    · rw [scaleBelow_length, List.length_set, List.length_map]
    · intro i hi
      rw [scaleBelow_length] at hi
      rw [scaleBelow_getD f _ L i hi]
      by_cases hi0 : i = 0
      · subst hi0
        rw [if_neg (by omega : ¬ (1 ≤ 0 ∧ 0 ≤ t.tree.length - 1)),
          getD_set_self (L.map f) 0 _ (by rw [List.length_map]; exact hLlen)]
      · have hle : i ≤ t.tree.length - 1 := by
          have := h.1
          omega
        rw [if_pos (by omega : 1 ≤ i ∧ i ≤ t.tree.length - 1),
          getD_set_ne (L.map f) 0 i _ (by omega), getD_map0 L f i hi]
  rw [hSB] at hrep
  have hM0 : ((L.map f).set 0 (L.getD 0 0)).getD 0 0 = L.getD 0 0 :=
    getD_set_self (L.map f) 0 _ (by rw [List.length_map]; exact hLlen)
  have hr0 : r.1.getD 0 0 = L.getD 0 0 := by
    have hx := hrep.2 0 (by
      rw [hrep.1, List.length_set, List.length_map]
      exact hLlen)
    unfold cellVal at hx
    rw [if_pos rfl, psum_zero, hM0] at hx
    exact hx
  constructor
  · rw [hdef]
    have hbody := @Rep.addBody _ _ hrep 0
      (by rw [hrep.1, List.length_set, List.length_map]; exact hLlen)
      (f (L.getD 0 0) - L.getD 0 0)
    rw [if_pos rfl, hr0, hM0] at hbody
    have h1 : L.getD 0 0 + (f (L.getD 0 0) - L.getD 0 0) = f (L.getD 0 0) := by
      ring
    rw [h1, List.set_set] at hbody
    have h2 : (L.map f).set 0 (f (L.getD 0 0)) = L.map f := by
      have h3 : f (L.getD 0 0) = (L.map f).getD 0 0 :=
        (getD_map0 L f 0 hLlen).symm
      rw [h3]
      exact set_getD_self (L.map f) 0 (by rw [List.length_map]; exact hLlen)
    rw [h2] at hbody
    have h4 : f (r.1.getD 0 0) = f (L.getD 0 0) := by rw [hr0]
    rw [h4]
    exact hbody
  · rw [hdef, hcalls, hr0]
    have hrange : List.range t.tree.length =
        0 :: List.range' 1 (t.tree.length - 1) := by
      rw [List.range_eq_range']
      have h5 : t.tree.length = (t.tree.length - 1) + 1 := by omega
      rw [h5, List.range'_succ]
      norm_num
    rw [hrange, List.reverse_cons, List.map_append, List.map_cons,
      List.map_nil]

end binary_indexed_tree

theorem getLastD_eq_getD (L : List Int) :
    L.getLastD 0 = L.getD (L.length - 1) 0 := by
  rw [List.getLastD_eq_getLast?, List.getLast?_eq_getElem?,
    List.getD_eq_getElem?_getD]

/-! ### Simulation relation for `cumulfreq_array` -/

namespace cumulfreq_array

/-- The stored sums are the prefix sums of the frequency list `L`. -/
def CARel (t : CumulFreqTable) (L : List Int) : Prop :=
  t.sums.length = L.length ∧
  ∀ i, i < t.sums.length → t.sums.getD i 0 = psum L i

theorem carel_new (len : Nat) :
    CARel ⟨List.replicate len 0⟩ (List.replicate len 0) := by
  constructor
  · simp
  · intro i hi
    rw [List.length_replicate] at hi
    have hg : (List.replicate len (0:Int)).getD i 0 = 0 := by
      rw [List.getD_eq_getElem?_getD, List.getElem?_replicate]
      simp [hi]
    rw [hg, binary_indexed_tree.psum_replicate]
    ring

theorem wfGo_length (init : Int) :
    ∀ n total, (wfGo init n total).length = n := by
  intro n
  induction n with
  | zero => intro total; rfl
  | succ m ih =>
    intro total
    unfold wfGo
    rw [List.length_cons, ih]

theorem wfGo_getD (init : Int) :
    ∀ n total i, i < n →
      (wfGo init n total).getD i 0 = total + init * i := by
  intro n
  induction n with
  | zero => intro total i hi; omega
  | succ m ih =>
    intro total i hi
    unfold wfGo
    cases i with
    | zero =>
      rw [List.getD_cons_zero]
      ring
    | succ j =>
      rw [List.getD_cons_succ, ih (total + init) j (by omega)]
      push_cast
      ring

theorem carel_with_freq (len : Nat) (k : Int) :
    CARel ⟨wfGo k len k⟩ (List.replicate len k) := by
  constructor
  · rw [wfGo_length, List.length_replicate]
  · intro i hi
    rw [wfGo_length] at hi
    rw [wfGo_getD k len k i hi, binary_indexed_tree.psum_replicate]
    have hmin : min (i + 1) len = i + 1 := by omega
    rw [hmin]
    push_cast
    ring

theorem suffixMap_getD :
    ∀ (A : List Int) (g : Int → Int) (p i : Nat), i < A.length →
      ((A.take p) ++ (A.drop p).map g).getD i 0 =
        if i < p then A.getD i 0 else g (A.getD i 0) := by
  intro A
  induction A with
  | nil => intro g p i hi; simp at hi
  | cons a B ih =>
    intro g p i hi
    cases p with
    | zero =>
      rw [List.take_zero, List.drop_zero, List.nil_append,
        getD_map0 _ g i hi, if_neg (by omega : ¬ i < 0)]
    | succ s =>
      rw [List.take_succ_cons, List.drop_succ_cons, List.cons_append]
      cases i with
      | zero =>
        rw [List.getD_cons_zero, List.getD_cons_zero,
          if_pos (by omega : 0 < s + 1)]
      | succ j =>
        rw [List.getD_cons_succ, List.getD_cons_succ,
          ih g s j (by simpa using hi)]
        by_cases hjs : j < s
        · rw [if_pos hjs, if_pos (by omega)]
        · rw [if_neg hjs, if_neg (by omega)]

theorem suffixMap_length (A : List Int) (g : Int → Int) (p : Nat)
    (hp : p ≤ A.length) :
    ((A.take p) ++ (A.drop p).map g).length = A.length := by
  rw [List.length_append, List.length_take, List.length_map,
    List.length_drop]
  omega

theorem carel_add {t : CumulFreqTable} {L : List Int} (h : CARel t L)
    {pos : Nat} (hpos : pos < t.sums.length) (v : Int) :
    CARel ⟨t.sums.take pos ++ (t.sums.drop pos).map (fun s => s + v)⟩
      (L.set pos (L.getD pos 0 + v)) := by
  have hlen := h.1
  constructor
  · rw [suffixMap_length _ _ _ (by omega), List.length_set, hlen]
  · intro i hi
    rw [suffixMap_length _ _ _ (by omega)] at hi
    rw [suffixMap_getD t.sums _ pos i hi, psum_set L pos i _ (by omega)]
    by_cases hip : i < pos
    · rw [if_pos hip, if_neg (by omega : ¬ pos ≤ i), h.2 i hi]
      ring
    · rw [if_neg hip, if_pos (by omega : pos ≤ i), h.2 i hi]
      ring

theorem carel_sub {t : CumulFreqTable} {L : List Int} (h : CARel t L)
    {pos : Nat} (hpos : pos < t.sums.length) (v : Int) :
    CARel ⟨t.sums.take pos ++ (t.sums.drop pos).map (fun s => s - v)⟩
      (L.set pos (L.getD pos 0 - v)) := by
  have hlen := h.1
  constructor
  · rw [suffixMap_length _ _ _ (by omega), List.length_set, hlen]
  · intro i hi
    rw [suffixMap_length _ _ _ (by omega)] at hi
    rw [suffixMap_getD t.sums _ pos i hi, psum_set L pos i _ (by omega)]
    by_cases hip : i < pos
    · rw [if_pos hip, if_neg (by omega : ¬ pos ≤ i), h.2 i hi]
      ring
    · rw [if_neg hip, if_pos (by omega : pos ≤ i), h.2 i hi]
      ring

theorem ca_scaleGo_spec (f : Int → Int) :
    ∀ (S L : List Int) (psumv spsumv : Int),
      S.length = L.length →
      (∀ i, i < S.length → S.getD i 0 = psumv + psum L i) →
      ((scaleGo f S psumv spsumv).1.length = L.length ∧
       (∀ i, i < L.length →
         (scaleGo f S psumv spsumv).1.getD i 0 =
           spsumv + psum (L.map f) i) ∧
       (scaleGo f S psumv spsumv).2 = L) := by
  intro S
  induction S with
  | nil =>
    intro L psumv spsumv hlen hrel
    have hL : L = [] := by
      cases L with
      | nil => rfl
      | cons x X => simp at hlen
    subst hL
    exact ⟨rfl, by intro i hi; simp at hi, rfl⟩
  | cons s S' ih =>
    intro L psumv spsumv hlen hrel
    obtain ⟨x, L', hxL⟩ : ∃ x L', L = x :: L' := by
      cases L with
      | nil => simp at hlen
      | cons x X => exact ⟨x, X, rfl⟩
    subst hxL
    have hhead : s = psumv + x := by
      have := hrel 0 (by rw [List.length_cons]; omega)
      rw [List.getD_cons_zero, psum_cons_zero] at this
      exact this
    have hrel' : ∀ i, i < S'.length → S'.getD i 0 = s + psum L' i := by
      intro i hi
      have := hrel (i + 1) (by rw [List.length_cons]; omega)
      rw [List.getD_cons_succ, psum_cons_succ] at this
      rw [this, hhead]
      ring
    have hlen' : S'.length = L'.length := by
      rw [List.length_cons, List.length_cons] at hlen
      omega
    obtain ⟨ih1, ih2, ih3⟩ := ih L' s (spsumv + f (s - psumv)) hlen' hrel'
    have hd : s - psumv = x := by omega
    refine ⟨?_, ?_, ?_⟩
    · show ((spsumv + f (s - psumv)) :: (scaleGo f S' s (spsumv + f (s - psumv))).1).length = _
      rw [List.length_cons, ih1, List.length_cons]
    · intro i hi
      cases i with
      | zero =>
        show ((spsumv + f (s - psumv)) :: _).getD 0 0 = _
        rw [List.getD_cons_zero, List.map_cons, psum_cons_zero, hd]
      | succ j =>
        show ((spsumv + f (s - psumv)) :: (scaleGo f S' s (spsumv + f (s - psumv))).1).getD (j+1) 0 = _
        rw [List.getD_cons_succ, List.map_cons, psum_cons_succ,
          ih2 j (by rw [List.length_cons] at hi; omega), hd]
        ring
    · show (s - psumv) :: (scaleGo f S' s (spsumv + f (s - psumv))).2 = _
      rw [ih3, hd]

theorem carel_scale {t : CumulFreqTable} {L : List Int} (h : CARel t L)
    (f : Int → Int) :
    CARel (t.scale f).1 (L.map f) ∧ (t.scale f).2 = L := by
  obtain ⟨h1, h2, h3⟩ := ca_scaleGo_spec f t.sums L 0 0 h.1 (by
    intro i hi
    rw [h.2 i hi]
    ring)
  have hdef : t.scale f = (⟨(scaleGo f t.sums 0 0).1⟩, (scaleGo f t.sums 0 0).2) := rfl
  rw [hdef]
  refine ⟨⟨?_, ?_⟩, h3⟩
  · rw [h1, List.length_map]
  · intro i hi
    rw [h1] at hi
    rw [h2 i hi]
    ring

theorem carel_total {t : CumulFreqTable} {L : List Int} (h : CARel t L)
    (hlen : 0 < t.sums.length) :
    t.total = psum L (t.sums.length - 1) := by
  unfold CumulFreqTable.total
  rw [getLastD_eq_getD, h.2 (t.sums.length - 1) (by omega)]

end cumulfreq_array

/-! ### Simulation relation for `freq_array` -/

namespace freq_array

/-- The stored state is the frequency list itself plus a total in sync. -/
def FARel (t : FreqTable) (L : List Int) : Prop :=
  t.freqs = L ∧ t.total = L.sum

theorem scaleGo_spec (f : Int → Int) :
    ∀ (L : List Int) (acc : Int),
      scaleGo f L acc = (L.map f, acc + (L.map f).sum, L) := by
  intro L
  induction L with
  | nil =>
    intro acc
    unfold scaleGo
    rw [List.map_nil, List.sum_nil]
    norm_num
  | cons x rest ih =>
    intro acc
    show (f x :: (scaleGo f rest (acc + f x)).1,
      (scaleGo f rest (acc + f x)).2.1,
      x :: (scaleGo f rest (acc + f x)).2.2) =
      (List.map f (x :: rest), acc + (List.map f (x :: rest)).sum, x :: rest)
    rw [ih (acc + f x), List.map_cons, List.sum_cons, Prod.mk.injEq,
      Prod.mk.injEq]
    exact ⟨rfl, by ring, rfl⟩

theorem positionAcc_some :
    ∀ (L : List Int) (acc target : Int),
      (∃ i, i < L.length ∧ target ≤ acc + psum L i) →
      ∃ r, positionAcc target L acc = some r ∧ r < L.length ∧
        target ≤ acc + psum L r ∧ ∀ q, q < r → acc + psum L q < target := by
  intro L
  induction L with
  | nil =>
    intro acc target h
    obtain ⟨i, hi, -⟩ := h
    simp at hi
  | cons x rest ih =>
    intro acc target h
    by_cases hx : target ≤ acc + x
    · refine ⟨0, ?_, by rw [List.length_cons]; omega, ?_, ?_⟩
      · unfold positionAcc
        rw [if_pos hx]
      · rw [psum_cons_zero]
        exact hx
      · intro q hq
        omega
    · obtain ⟨i, hi, hile⟩ := h
      obtain ⟨j, hj⟩ : ∃ j, i = j + 1 := by
        cases i with
        | zero =>
          exfalso
          rw [psum_cons_zero] at hile
          exact hx hile
        | succ j => exact ⟨j, rfl⟩
      subst hj
      rw [psum_cons_succ] at hile
      obtain ⟨r, hr1, hr2, hr3, hr4⟩ := ih (acc + x) target
        ⟨j, by rw [List.length_cons] at hi; omega, by omega⟩
      refine ⟨r + 1, ?_, by rw [List.length_cons]; omega, ?_, ?_⟩
      · unfold positionAcc
        rw [if_neg hx, hr1]
        rfl
      · rw [psum_cons_succ]
        omega
      · intro q hq
        cases q with
        | zero =>
          rw [psum_cons_zero]
          omega
        | succ m =>
          rw [psum_cons_succ]
          have := hr4 m (by omega)
          omega

theorem positionAcc_none :
    ∀ (L : List Int) (acc target : Int),
      (∀ i, i < L.length → acc + psum L i < target) →
      positionAcc target L acc = none := by
  intro L
  induction L with
  | nil => intro acc target _; rfl
  | cons x rest ih =>
    intro acc target h
    unfold positionAcc
    have hx : ¬ target ≤ acc + x := by
      have := h 0 (by rw [List.length_cons]; omega)
      rw [psum_cons_zero] at this
      omega
    rw [if_neg hx, ih (acc + x) target ?_]
    · rfl
    · intro i hi
      have := h (i + 1) (by rw [List.length_cons]; omega)
      rw [psum_cons_succ] at this
      omega

/-- `freq_array` and `cumulfreq_array` search the same sequence of
prefix sums, so their `find_by_sum` results coincide. -/
theorem positionAcc_eq_position :
    ∀ (L S : List Int) (acc target : Int), S.length = L.length →
      (∀ i, i < L.length → S.getD i 0 = acc + psum L i) →
      positionAcc target L acc = cumulfreq_array.position target S := by
  intro L
  induction L with
  | nil =>
    intro S acc target hlen _
    have hS : S = [] := by
      cases S with
      | nil => rfl
      | cons s S' => simp at hlen
    subst hS
    rfl
  | cons x rest ih =>
    intro S acc target hlen hrel
    obtain ⟨s, S', hsS⟩ : ∃ s S', S = s :: S' := by
      cases S with
      | nil => simp at hlen
      | cons s S' => exact ⟨s, S', rfl⟩
    subst hsS
    have hhead : s = acc + x := by
      have := hrel 0 (by rw [List.length_cons]; omega)
      rw [List.getD_cons_zero, psum_cons_zero] at this
      exact this
    unfold positionAcc cumulfreq_array.position
    rw [hhead]
    by_cases hx : target ≤ acc + x
    · rw [if_pos hx, if_pos hx]
    · rw [if_neg hx, if_neg hx,
        ih S' (acc + x) target
          (by rw [List.length_cons, List.length_cons] at hlen; omega) ?_]
      intro i hi
      have := hrel (i + 1) (by rw [List.length_cons]; omega)
      rw [List.getD_cons_succ, psum_cons_succ] at this
      rw [this]
      ring

/-- The public-interface invariant of `FreqTable`: the separately
maintained total equals the sum of the frequencies, and the table is
non-empty. -/
theorem Reachable.inv {t : FreqTable} (h : t.Reachable) :
    t.total = t.freqs.sum ∧ 0 < t.freqs.length := by
  induction h with
  | new len t hnew =>
    unfold FreqTable.new at hnew
    by_cases hl : 0 < len
    · rw [if_pos hl] at hnew
      cases hnew
      constructor
      · rw [List.sum_replicate]
        simp
      · rw [List.length_replicate]
        exact hl
    · rw [if_neg hl] at hnew
      cases hnew
  | with_freq len k t hwf =>
    unfold FreqTable.with_freq FreqTable.with_freqGen at hwf
    by_cases hl : 0 < len
    · rw [if_pos hl] at hwf
      simp only [Option.map_some] at hwf
      cases hwf
      constructor
      · rw [List.sum_replicate, nsmul_eq_mul]
        ring
      · rw [List.length_replicate]
        exact hl
    · rw [if_neg hl] at hwf
      cases hwf
  | add t pos v t' _ hstep ih =>
    unfold FreqTable.add at hstep
    by_cases hp : pos < t.freqs.length
    · rw [if_pos hp] at hstep
      cases hstep
      refine ⟨?_, by rw [List.length_set]; exact ih.2⟩
      rw [sum_set t.freqs pos _ hp, ih.1]
      ring
    · rw [if_neg hp] at hstep
      cases hstep
  | sub t pos v t' _ hstep ih =>
    unfold FreqTable.sub at hstep
    by_cases hp : pos < t.freqs.length
    · rw [if_pos hp] at hstep
      cases hstep
      refine ⟨?_, by rw [List.length_set]; exact ih.2⟩
      rw [sum_set t.freqs pos _ hp, ih.1]
      ring
    · rw [if_neg hp] at hstep
      cases hstep
  | inc t pos t' _ hstep ih =>
    unfold FreqTable.inc FreqTable.add at hstep
    by_cases hp : pos < t.freqs.length
    · rw [if_pos hp] at hstep
      cases hstep
      refine ⟨?_, by rw [List.length_set]; exact ih.2⟩
      rw [sum_set t.freqs pos _ hp, ih.1]
      ring
    · rw [if_neg hp] at hstep
      cases hstep
  | dec t pos t' _ hstep ih =>
    unfold FreqTable.dec FreqTable.sub at hstep
    by_cases hp : pos < t.freqs.length
    · rw [if_pos hp] at hstep
      cases hstep
      refine ⟨?_, by rw [List.length_set]; exact ih.2⟩
      rw [sum_set t.freqs pos _ hp, ih.1]
      ring
    · rw [if_neg hp] at hstep
      cases hstep
  | scale t f _ ih =>
    have hdef : t.scale f =
        (⟨(scaleGo f t.freqs 0).1, (scaleGo f t.freqs 0).2.1⟩,
          (scaleGo f t.freqs 0).2.2) := rfl
    rw [hdef, scaleGo_spec f t.freqs 0]
    constructor
    · show (0:Int) + (t.freqs.map f).sum = (t.freqs.map f).sum
      ring
    · show 0 < (t.freqs.map f).length
      rw [List.length_map]
      exact ih.2

end freq_array

namespace cumulfreq_array

theorem scaleGo_length (f : Int → Int) :
    ∀ (S : List Int) (p s : Int), (scaleGo f S p s).1.length = S.length := by
  intro S
  induction S with
  | nil => intro p s; rfl
  | cons x S' ih =>
    intro p s
    show ((s + f (x - p)) :: (scaleGo f S' x (s + f (x - p))).1).length = _
    rw [List.length_cons, ih, List.length_cons]

theorem Reachable.nonempty {t : CumulFreqTable} (h : t.Reachable) :
    0 < t.sums.length := by
  induction h with
  | new len t hnew =>
    unfold CumulFreqTable.new at hnew
    by_cases hl : 0 < len
    · rw [if_pos hl] at hnew
      cases hnew
      rw [List.length_replicate]
      exact hl
    · rw [if_neg hl] at hnew
      cases hnew
  | with_freq len k t hwf =>
    unfold CumulFreqTable.with_freq at hwf
    by_cases hl : 0 < len
    · rw [if_pos hl] at hwf
      cases hwf
      rw [wfGo_length]
      exact hl
    · rw [if_neg hl] at hwf
      cases hwf
  | add t pos v t' _ hstep ih =>
    unfold CumulFreqTable.add at hstep
    by_cases hp : pos < t.sums.length
    · rw [if_pos hp] at hstep
      cases hstep
      rw [suffixMap_length _ _ _ (by omega)]
      exact ih
    · rw [if_neg hp] at hstep
      cases hstep
  | sub t pos v t' _ hstep ih =>
    unfold CumulFreqTable.sub at hstep
    by_cases hp : pos < t.sums.length
    · rw [if_pos hp] at hstep
      cases hstep
      rw [suffixMap_length _ _ _ (by omega)]
      exact ih
    · rw [if_neg hp] at hstep
      cases hstep
  | inc t pos t' _ hstep ih =>
    unfold CumulFreqTable.inc CumulFreqTable.add at hstep
    by_cases hp : pos < t.sums.length
    · rw [if_pos hp] at hstep
      cases hstep
      rw [suffixMap_length _ _ _ (by omega)]
      exact ih
    · rw [if_neg hp] at hstep
      cases hstep
  | dec t pos t' _ hstep ih =>
    unfold CumulFreqTable.dec CumulFreqTable.sub at hstep
    by_cases hp : pos < t.sums.length
    · rw [if_pos hp] at hstep
      cases hstep
      rw [suffixMap_length _ _ _ (by omega)]
      exact ih
    · rw [if_neg hp] at hstep
      cases hstep
  | scale t f _ ih =>
    have hdef : (t.scale f).1 = ⟨(scaleGo f t.sums 0 0).1⟩ := rfl
    rw [hdef]
    show 0 < (scaleGo f t.sums 0 0).1.length
    rw [scaleGo_length]
    exact ih

end cumulfreq_array

namespace binary_indexed_tree

theorem subLoop_length (t : List Int) (pos : Nat) (v : Int) :
    (subLoop t pos v).length = t.length := by
  rw [subLoop_eq_addLoop (t.length - pos) t pos v le_rfl,
    addLoop_length (t.length - pos) t pos (-v) le_rfl]

theorem bit_scaleGo_length (f : Int → Int) :
    ∀ (p : Nat) (t : List Int), (scaleGo f t p).1.length = t.length := by
  intro p
  induction p with
  | zero => intro t; rfl
  | succ q ih =>
    intro t
    show (scaleGo f _ q).1.length = t.length
    rw [ih]
    by_cases h1 : f (freqCore t (q + 1)) < freqCore t (q + 1)
    · rw [if_pos h1, subLoop_length]
    · rw [if_neg h1]
      by_cases h2 : freqCore t (q + 1) < f (freqCore t (q + 1))
      · rw [if_pos h2, addLoop_length (t.length - (q+1)) t (q+1) _ le_rfl]
      · rw [if_neg h2]

theorem Reachable.tree_nonempty {t : CumulFreqTable} (h : t.Reachable) :
    0 < t.tree.length := by
  induction h with
  | new len t hnew =>
    unfold CumulFreqTable.new at hnew
    by_cases hl : 0 < len
    · rw [if_pos hl] at hnew
      cases hnew
      rw [List.length_replicate]
      exact hl
    · rw [if_neg hl] at hnew
      cases hnew
  | with_freq len k t hwf =>
    unfold CumulFreqTable.with_freq at hwf
    by_cases hl : 0 < len
    · rw [if_pos hl] at hwf
      cases hwf
      rw [List.length_map, List.length_range]
      exact hl
    · rw [if_neg hl] at hwf
      cases hwf
  | add t pos v t' _ hstep ih =>
    unfold CumulFreqTable.add at hstep
    by_cases hp : pos < t.tree.length
    · rw [if_pos hp] at hstep
      cases hstep
      show 0 < (if pos = 0 then _ else addLoop t.tree pos v).length
      by_cases h0 : pos = 0
      · rw [if_pos h0, List.length_set]
        exact ih
      · rw [if_neg h0, addLoop_length (t.tree.length - pos) t.tree pos v le_rfl]
        exact ih
    · rw [if_neg hp] at hstep
      cases hstep
  | sub t pos v t' _ hstep ih =>
    unfold CumulFreqTable.sub at hstep
    by_cases hp : pos < t.tree.length
    · rw [if_pos hp] at hstep
      cases hstep
      show 0 < (if pos = 0 then _ else subLoop t.tree pos v).length
      by_cases h0 : pos = 0
      · rw [if_pos h0, List.length_set]
        exact ih
      · rw [if_neg h0, subLoop_length]
        exact ih
    · rw [if_neg hp] at hstep
      cases hstep
  | inc t pos t' _ hstep ih =>
    unfold CumulFreqTable.inc CumulFreqTable.add at hstep
    by_cases hp : pos < t.tree.length
    · rw [if_pos hp] at hstep
      cases hstep
      show 0 < (if pos = 0 then _ else addLoop t.tree pos 1).length
      by_cases h0 : pos = 0
      · rw [if_pos h0, List.length_set]
        exact ih
      · rw [if_neg h0, addLoop_length (t.tree.length - pos) t.tree pos 1 le_rfl]
        exact ih
    · rw [if_neg hp] at hstep
      cases hstep
  | dec t pos t' _ hstep ih =>
    unfold CumulFreqTable.dec CumulFreqTable.sub at hstep
    by_cases hp : pos < t.tree.length
    · rw [if_pos hp] at hstep
      cases hstep
      show 0 < (if pos = 0 then _ else subLoop t.tree pos 1).length
      by_cases h0 : pos = 0
      · rw [if_pos h0, List.length_set]
        exact ih
      · rw [if_neg h0, subLoop_length]
        exact ih
    · rw [if_neg hp] at hstep
      cases hstep
  | scale t f _ ih =>
    have hdef : (t.scale f).1 =
        ⟨((scaleGo f t.tree (t.tree.length - 1)).1).set 0
          (f (((scaleGo f t.tree (t.tree.length - 1)).1).getD 0 0))⟩ := rfl
    rw [hdef]
    show 0 < (((scaleGo f t.tree (t.tree.length - 1)).1).set 0 _).length
    rw [List.length_set, bit_scaleGo_length]
    exact ih

end binary_indexed_tree

namespace freq_array

theorem FARel.len_eq {t : FreqTable} {L : List Int} (h : FARel t L) :
    t.len = L.length := by
  unfold FreqTable.len
  rw [h.1]

theorem FARel.freq_eq {t : FreqTable} {L : List Int} (h : FARel t L)
    {pos : Nat} (hpos : pos < L.length) :
    t.freq pos = some (L.getD pos 0) := by
  unfold FreqTable.freq
  rw [h.1, if_pos hpos]

theorem FARel.sum_eq {t : FreqTable} {L : List Int} (h : FARel t L)
    {pos : Nat} (hpos : pos < L.length) :
    t.sum pos = some (psum L pos) := by
  unfold FreqTable.sum
  rw [h.1, if_pos hpos]

theorem FARel.total_eq {t : FreqTable} {L : List Int} (h : FARel t L) :
    t.total = L.sum := h.2

theorem FARel.find_eq {t : FreqTable} {L : List Int} (h : FARel t L)
    (target : Int) :
    t.find_by_sum target = positionAcc target L 0 := by
  unfold FreqTable.find_by_sum
  rw [h.1]

end freq_array

namespace cumulfreq_array

theorem CARel.len_eq_ca {t : CumulFreqTable} {L : List Int} (h : CARel t L) :
    t.len = L.length := by
  unfold CumulFreqTable.len
  exact h.1

theorem CARel.freq_eq_ca {t : CumulFreqTable} {L : List Int} (h : CARel t L)
    {pos : Nat} (hpos : pos < L.length) :
    t.freq pos = some (L.getD pos 0) := by
  have hlen : pos < t.sums.length := by
    rw [h.1]
    exact hpos
  unfold CumulFreqTable.freq
  rw [if_pos hlen]
  by_cases h0 : pos = 0
  · subst h0
    rw [if_pos rfl, h.2 0 hlen, psum_zero]
  · obtain ⟨q, hq⟩ : ∃ q, pos = q + 1 := ⟨pos - 1, by omega⟩
    subst hq
    rw [if_neg h0, h.2 (q + 1) hlen, h.2 (q + 1 - 1) (by omega)]
    have hq1 : q + 1 - 1 = q := rfl
    rw [hq1, psum_succ]
    have : psum L q + L.getD (q + 1) 0 - psum L q = L.getD (q + 1) 0 := by
      ring
    rw [this]

theorem CARel.sum_eq_ca {t : CumulFreqTable} {L : List Int} (h : CARel t L)
    {pos : Nat} (hpos : pos < L.length) :
    t.sum pos = some (psum L pos) := by
  have hlen : pos < t.sums.length := by
    rw [h.1]
    exact hpos
  unfold CumulFreqTable.sum
  rw [if_pos hlen, h.2 pos hlen]

theorem CARel.total_eq_ca {t : CumulFreqTable} {L : List Int} (h : CARel t L)
    (hlen : 0 < L.length) :
    t.total = L.sum := by
  rw [carel_total h (by rw [h.1]; exact hlen), h.1,
    psum_of_length_le L (L.length - 1) (by omega)]

theorem CARel.find_eq_ca {t : CumulFreqTable} {L : List Int} (h : CARel t L)
    (target : Int) :
    t.find_by_sum target = freq_array.positionAcc target L 0 := by
  unfold CumulFreqTable.find_by_sum
  rw [← freq_array.positionAcc_eq_position L t.sums 0 target h.1 ?_]
  intro i hi
  rw [h.2 i (by rw [h.1]; exact hi)]
  ring

end cumulfreq_array

namespace binary_indexed_tree

theorem rep_len_eq {t : CumulFreqTable} {L : List Int} (h : Rep t.tree L) :
    t.len = L.length := by
  unfold CumulFreqTable.len
  exact h.1

theorem rep_freq_eq {t : CumulFreqTable} {L : List Int} (h : Rep t.tree L)
    {pos : Nat} (hpos : pos < L.length) :
    t.freq pos = some (L.getD pos 0) := by
  have hlen : pos < t.tree.length := by
    rw [h.1]
    exact hpos
  unfold CumulFreqTable.freq
  rw [if_pos hlen, h.freq_getD pos hlen]

theorem rep_sum_eq {t : CumulFreqTable} {L : List Int} (h : Rep t.tree L)
    {pos : Nat} (hpos : pos < L.length) :
    t.sum pos = some (psum L pos) := by
  have hlen : pos < t.tree.length := by
    rw [h.1]
    exact hpos
  unfold CumulFreqTable.sum
  rw [if_pos hlen, sumCore_eq, h.sumVal_eq pos hlen]

theorem rep_total_eq {t : CumulFreqTable} {L : List Int} (h : Rep t.tree L)
    (hlen : 0 < L.length) :
    t.total = L.sum := by
  unfold CumulFreqTable.total
  rw [sumCore_eq, h.sumVal_eq (t.tree.length - 1) (by rw [h.1]; omega), h.1,
    psum_of_length_le L (L.length - 1) (by omega)]

end binary_indexed_tree

/-! ### Common operation sequences over the three implementations -/

/-- One mutating trait operation. -/
inductive Op where
  | add (pos : Nat) (val : Int)
  | sub (pos : Nat) (val : Int)
  | inc (pos : Nat)
  | dec (pos : Nat)
  | scale (f : Int → Int)

/-- One construction of the trait. -/
inductive Ctor where
  | new (len : Nat)
  | with_freq (len : Nat) (k : Int)

/-- The canonical effect of an operation on the abstract frequency
list. -/
def canonOp (L : List Int) : Op → Option (List Int)
  | Op.add p v => if p < L.length then some (L.set p (L.getD p 0 + v)) else none
  | Op.sub p v => if p < L.length then some (L.set p (L.getD p 0 - v)) else none
  | Op.inc p => if p < L.length then some (L.set p (L.getD p 0 + 1)) else none
  | Op.dec p => if p < L.length then some (L.set p (L.getD p 0 - 1)) else none
  | Op.scale f => some (L.map f)

def canonOps (L : List Int) : List Op → Option (List Int)
  | [] => some L
  | op :: ops =>
    match canonOp L op with
    | none => none
    | some L' => canonOps L' ops

def canonCtor : Ctor → Option (List Int)
  | Ctor.new len => if 0 < len then some (List.replicate len 0) else none
  | Ctor.with_freq len k => if 0 < len then some (List.replicate len k) else none

/-- Pointwise lifting of a relation to `Option`: both fail together or
both succeed with related values. -/
def OptRel {α β : Type} (R : α → β → Prop) : Option α → Option β → Prop
  | some a, some b => R a b
  | none, none => True
  | _, _ => False

namespace freq_array

def FreqTable.runOp (t : FreqTable) : Op → Option FreqTable
  | Op.add p v => t.add p v
  | Op.sub p v => t.sub p v
  | Op.inc p => t.inc p
  | Op.dec p => t.dec p
  | Op.scale f => some (t.scale f).1

def FreqTable.runOps (t : FreqTable) : List Op → Option FreqTable
  | [] => some t
  | op :: ops =>
    match t.runOp op with
    | none => none
    | some t' => t'.runOps ops

def FreqTable.build : Ctor → Option FreqTable
  | Ctor.new len => FreqTable.new len
  | Ctor.with_freq len k => FreqTable.with_freq len k

theorem fa_add_rel {t : FreqTable} {L : List Int} (h : FARel t L)
    {p : Nat} (hp : p < L.length) (v : Int) :
    FARel ⟨t.freqs.set p (t.freqs.getD p 0 + v), t.total + v⟩
      (L.set p (L.getD p 0 + v)) := by
  obtain ⟨h1, h2⟩ := h
  subst h1
  refine ⟨rfl, ?_⟩
  rw [sum_set t.freqs p _ hp, h2]
  ring

theorem fa_sub_rel {t : FreqTable} {L : List Int} (h : FARel t L)
    {p : Nat} (hp : p < L.length) (v : Int) :
    FARel ⟨t.freqs.set p (t.freqs.getD p 0 - v), t.total - v⟩
      (L.set p (L.getD p 0 - v)) := by
  obtain ⟨h1, h2⟩ := h
  subst h1
  refine ⟨rfl, ?_⟩
  rw [sum_set t.freqs p _ hp, h2]
  ring

theorem fa_step {t : FreqTable} {L : List Int} (h : FARel t L) (op : Op) :
    OptRel FARel (t.runOp op) (canonOp L op) := by
  have hlen : t.freqs.length = L.length := by rw [h.1]
  cases op with
  | add p v =>
    simp only [FreqTable.runOp, canonOp]
    unfold FreqTable.add
    by_cases hp : p < L.length
    · rw [if_pos (by omega : p < t.freqs.length), if_pos hp]
      exact fa_add_rel h hp v
    · rw [if_neg (by omega : ¬ p < t.freqs.length), if_neg hp]
      trivial
  | sub p v =>
    simp only [FreqTable.runOp, canonOp]
    unfold FreqTable.sub
    by_cases hp : p < L.length
    · rw [if_pos (by omega : p < t.freqs.length), if_pos hp]
      exact fa_sub_rel h hp v
    · rw [if_neg (by omega : ¬ p < t.freqs.length), if_neg hp]
      trivial
  | inc p =>
    simp only [FreqTable.runOp, canonOp]
    unfold FreqTable.inc FreqTable.add
    by_cases hp : p < L.length
    · rw [if_pos (by omega : p < t.freqs.length), if_pos hp]
      exact fa_add_rel h hp 1
    · rw [if_neg (by omega : ¬ p < t.freqs.length), if_neg hp]
      trivial
  | dec p =>
    simp only [FreqTable.runOp, canonOp]
    unfold FreqTable.dec FreqTable.sub
    by_cases hp : p < L.length
    · rw [if_pos (by omega : p < t.freqs.length), if_pos hp]
      exact fa_sub_rel h hp 1
    · rw [if_neg (by omega : ¬ p < t.freqs.length), if_neg hp]
      trivial
  | scale f =>
    simp only [FreqTable.runOp, canonOp]
    show FARel (t.scale f).1 (L.map f)
    have hdef : (t.scale f).1 =
        ⟨(scaleGo f t.freqs 0).1, (scaleGo f t.freqs 0).2.1⟩ := rfl
    rw [hdef, scaleGo_spec f t.freqs 0, h.1]
    exact ⟨rfl, by ring⟩

theorem fa_runs :
    ∀ (ops : List Op) {t : FreqTable} {L : List Int}, FARel t L →
      OptRel FARel (t.runOps ops) (canonOps L ops) := by
  intro ops
  induction ops with
  | nil =>
    intro t L h
    exact h
  | cons op rest ih =>
    intro t L h
    have hstep := fa_step h op
    show OptRel FARel
      (match t.runOp op with
       | none => none
       | some t2 => t2.runOps rest)
      (match canonOp L op with
       | none => none
       | some L2 => canonOps L2 rest)
    cases hro : t.runOp op with
    | none =>
      rw [hro] at hstep
      cases hco : canonOp L op with
      | none => trivial
      | some L2 =>
        rw [hco] at hstep
        exact hstep.elim
    | some t2 =>
      rw [hro] at hstep
      cases hco : canonOp L op with
      | none =>
        rw [hco] at hstep
        exact hstep.elim
      | some L2 =>
        rw [hco] at hstep
        exact ih hstep

theorem fa_build (c : Ctor) :
    OptRel FARel (FreqTable.build c) (canonCtor c) := by
  cases c with
  | new len =>
    simp only [FreqTable.build, canonCtor]
    unfold FreqTable.new
    by_cases hl : 0 < len
    · rw [if_pos hl, if_pos hl]
      refine ⟨rfl, ?_⟩
      rw [List.sum_replicate]
      simp
    · rw [if_neg hl, if_neg hl]
      trivial
  | with_freq len k =>
    simp only [FreqTable.build, canonCtor]
    unfold FreqTable.with_freq FreqTable.with_freqGen
    by_cases hl : 0 < len
    · rw [if_pos hl, if_pos hl]
      simp only [Option.map_some]
      refine ⟨rfl, ?_⟩
      rw [List.sum_replicate, nsmul_eq_mul]
      ring
    · rw [if_neg hl, if_neg hl]
      trivial

end freq_array

theorem canonOp_length {L L' : List Int} {op : Op}
    (h : canonOp L op = some L') : L'.length = L.length := by
  cases op with
  | add p v =>
    have h2 : (if p < L.length then some (L.set p (L.getD p 0 + v))
        else none) = some L' := h
    by_cases hp : p < L.length
    · rw [if_pos hp] at h2
      cases h2
      rw [List.length_set]
    · rw [if_neg hp] at h2
      cases h2
  | sub p v =>
    have h2 : (if p < L.length then some (L.set p (L.getD p 0 - v))
        else none) = some L' := h
    by_cases hp : p < L.length
    · rw [if_pos hp] at h2
      cases h2
      rw [List.length_set]
    · rw [if_neg hp] at h2
      cases h2
  | inc p =>
    have h2 : (if p < L.length then some (L.set p (L.getD p 0 + 1))
        else none) = some L' := h
    by_cases hp : p < L.length
    · rw [if_pos hp] at h2
      cases h2
      rw [List.length_set]
    · rw [if_neg hp] at h2
      cases h2
  | dec p =>
    have h2 : (if p < L.length then some (L.set p (L.getD p 0 - 1))
        else none) = some L' := h
    by_cases hp : p < L.length
    · rw [if_pos hp] at h2
      cases h2
      rw [List.length_set]
    · rw [if_neg hp] at h2
      cases h2
  | scale f =>
    have h2 : some (L.map f) = some L' := h
    cases h2
    rw [List.length_map]

namespace cumulfreq_array

def CumulFreqTable.runOp (t : CumulFreqTable) : Op → Option CumulFreqTable
  | Op.add p v => t.add p v
  | Op.sub p v => t.sub p v
  | Op.inc p => t.inc p
  | Op.dec p => t.dec p
  | Op.scale f => some (t.scale f).1

def CumulFreqTable.runOps (t : CumulFreqTable) : List Op → Option CumulFreqTable
  | [] => some t
  | op :: ops =>
    match t.runOp op with
    | none => none
    | some t' => t'.runOps ops

def CumulFreqTable.build : Ctor → Option CumulFreqTable
  | Ctor.new len => CumulFreqTable.new len
  | Ctor.with_freq len k => CumulFreqTable.with_freq len k

theorem ca_step {t : CumulFreqTable} {L : List Int} (h : CARel t L)
    (op : Op) : OptRel CARel (t.runOp op) (canonOp L op) := by
  have hlen : t.sums.length = L.length := h.1
  cases op with
  | add p v =>
    simp only [CumulFreqTable.runOp, canonOp]
    unfold CumulFreqTable.add
    by_cases hp : p < L.length
    · rw [if_pos (by omega : p < t.sums.length), if_pos hp]
      exact carel_add h (by omega) v
    · rw [if_neg (by omega : ¬ p < t.sums.length), if_neg hp]
      trivial
  | sub p v =>
    simp only [CumulFreqTable.runOp, canonOp]
    unfold CumulFreqTable.sub
    by_cases hp : p < L.length
    · rw [if_pos (by omega : p < t.sums.length), if_pos hp]
      exact carel_sub h (by omega) v
    · rw [if_neg (by omega : ¬ p < t.sums.length), if_neg hp]
      trivial
  | inc p =>
    simp only [CumulFreqTable.runOp, canonOp]
    unfold CumulFreqTable.inc CumulFreqTable.add
    by_cases hp : p < L.length
    · rw [if_pos (by omega : p < t.sums.length), if_pos hp]
      exact carel_add h (by omega) 1
    · rw [if_neg (by omega : ¬ p < t.sums.length), if_neg hp]
      trivial
  | dec p =>
    simp only [CumulFreqTable.runOp, canonOp]
    unfold CumulFreqTable.dec CumulFreqTable.sub
    by_cases hp : p < L.length
    · rw [if_pos (by omega : p < t.sums.length), if_pos hp]
      exact carel_sub h (by omega) 1
    · rw [if_neg (by omega : ¬ p < t.sums.length), if_neg hp]
      trivial
  | scale f =>
    simp only [CumulFreqTable.runOp, canonOp]
    show CARel (t.scale f).1 (L.map f)
    exact (carel_scale h f).1

theorem ca_runs :
    ∀ (ops : List Op) {t : CumulFreqTable} {L : List Int}, CARel t L →
      OptRel CARel (t.runOps ops) (canonOps L ops) := by
  intro ops
  induction ops with
  | nil =>
    intro t L h
    exact h
  | cons op rest ih =>
    intro t L h
    have hstep := ca_step h op
    show OptRel CARel
      (match t.runOp op with
       | none => none
       | some t2 => t2.runOps rest)
      (match canonOp L op with
       | none => none
       | some L2 => canonOps L2 rest)
    cases hro : t.runOp op with
    | none =>
      rw [hro] at hstep
      cases hco : canonOp L op with
      | none => trivial
      | some L2 =>
        rw [hco] at hstep
        exact hstep.elim
    | some t2 =>
      rw [hro] at hstep
      cases hco : canonOp L op with
      | none =>
        rw [hco] at hstep
        exact hstep.elim
      | some L2 =>
        rw [hco] at hstep
        exact ih hstep

theorem ca_build (c : Ctor) :
    OptRel CARel (CumulFreqTable.build c) (canonCtor c) := by
  cases c with
  | new len =>
    simp only [CumulFreqTable.build, canonCtor]
    unfold CumulFreqTable.new
    by_cases hl : 0 < len
    · rw [if_pos hl, if_pos hl]
      exact carel_new len
    · rw [if_neg hl, if_neg hl]
      trivial
  | with_freq len k =>
    simp only [CumulFreqTable.build, canonCtor]
    unfold CumulFreqTable.with_freq
    by_cases hl : 0 < len
    · rw [if_pos hl, if_pos hl]
      exact carel_with_freq len k
    · rw [if_neg hl, if_neg hl]
      trivial

end cumulfreq_array

namespace binary_indexed_tree

def CumulFreqTable.runOp (t : CumulFreqTable) : Op → Option CumulFreqTable
  | Op.add p v => t.add p v
  | Op.sub p v => t.sub p v
  | Op.inc p => t.inc p
  | Op.dec p => t.dec p
  | Op.scale f => some (t.scale f).1

def CumulFreqTable.runOps (t : CumulFreqTable) : List Op → Option CumulFreqTable
  | [] => some t
  | op :: ops =>
    match t.runOp op with
    | none => none
    | some t' => t'.runOps ops

def CumulFreqTable.build : Ctor → Option CumulFreqTable
  | Ctor.new len => CumulFreqTable.new len
  | Ctor.with_freq len k => CumulFreqTable.with_freq len k

theorem bit_step {t : CumulFreqTable} {L : List Int} (h : Rep t.tree L)
    (hne : 0 < L.length) (op : Op) :
    OptRel (fun a b => Rep a.tree b) (t.runOp op) (canonOp L op) := by
  have hlen : t.tree.length = L.length := h.1
  cases op with
  | add p v =>
    simp only [CumulFreqTable.runOp, canonOp]
    unfold CumulFreqTable.add
    by_cases hp : p < L.length
    · rw [if_pos (by omega : p < t.tree.length), if_pos hp]
      exact h.addBody (by omega) v
    · rw [if_neg (by omega : ¬ p < t.tree.length), if_neg hp]
      trivial
  | sub p v =>
    simp only [CumulFreqTable.runOp, canonOp]
    unfold CumulFreqTable.sub
    by_cases hp : p < L.length
    · rw [if_pos (by omega : p < t.tree.length), if_pos hp]
      exact h.subBody (by omega) v
    · rw [if_neg (by omega : ¬ p < t.tree.length), if_neg hp]
      trivial
  | inc p =>
    simp only [CumulFreqTable.runOp, canonOp]
    unfold CumulFreqTable.inc CumulFreqTable.add
    by_cases hp : p < L.length
    · rw [if_pos (by omega : p < t.tree.length), if_pos hp]
      exact h.addBody (by omega) 1
    · rw [if_neg (by omega : ¬ p < t.tree.length), if_neg hp]
      trivial
  | dec p =>
    simp only [CumulFreqTable.runOp, canonOp]
    unfold CumulFreqTable.dec CumulFreqTable.sub
    by_cases hp : p < L.length
    · rw [if_pos (by omega : p < t.tree.length), if_pos hp]
      exact h.subBody (by omega) 1
    · rw [if_neg (by omega : ¬ p < t.tree.length), if_neg hp]
      trivial
  | scale f =>
    simp only [CumulFreqTable.runOp, canonOp]
    show Rep (t.scale f).1.tree (L.map f)
    exact (scale_rep h (by omega) f).1

theorem bit_runs :
    ∀ (ops : List Op) {t : CumulFreqTable} {L : List Int},
      Rep t.tree L → 0 < L.length →
      OptRel (fun a b => Rep a.tree b) (t.runOps ops) (canonOps L ops) := by
  intro ops
  induction ops with
  | nil =>
    intro t L h _
    exact h
  | cons op rest ih =>
    intro t L h hne
    have hstep := bit_step h hne op
    show OptRel (fun a b => Rep a.tree b)
      (match t.runOp op with
       | none => none
       | some t2 => t2.runOps rest)
      (match canonOp L op with
       | none => none
       | some L2 => canonOps L2 rest)
    cases hro : t.runOp op with
    | none =>
      rw [hro] at hstep
      cases hco : canonOp L op with
      | none => trivial
      | some L2 =>
        rw [hco] at hstep
        exact hstep.elim
    | some t2 =>
      rw [hro] at hstep
      cases hco : canonOp L op with
      | none =>
        rw [hco] at hstep
        exact hstep.elim
      | some L2 =>
        rw [hco] at hstep
        exact ih hstep (by rw [canonOp_length hco]; exact hne)

theorem bit_build (c : Ctor) :
    OptRel (fun a b => Rep a.tree b) (CumulFreqTable.build c) (canonCtor c) := by
  cases c with
  | new len =>
    simp only [CumulFreqTable.build, canonCtor]
    unfold CumulFreqTable.new
    by_cases hl : 0 < len
    · rw [if_pos hl, if_pos hl]
      exact rep_new len
    · rw [if_neg hl, if_neg hl]
      trivial
  | with_freq len k =>
    simp only [CumulFreqTable.build, canonCtor]
    unfold CumulFreqTable.with_freq
    by_cases hl : 0 < len
    · rw [if_pos hl, if_pos hl]
      exact rep_with_freq len k
    · rw [if_neg hl, if_neg hl]
      trivial

end binary_indexed_tree

theorem psum_eq_range_sum (L : List Int) :
    ∀ pos, psum L pos =
      ((List.range (pos + 1)).map (fun i => L.getD i 0)).sum := by
  intro pos
  induction pos with
  | zero =>
    rw [psum_zero]
    have h1 : List.range 1 = [0] := rfl
    rw [h1, List.map_cons, List.map_nil, List.sum_cons, List.sum_nil]
    ring
  | succ q ih =>
    rw [psum_succ, ih]
    conv_rhs => rw [List.range_succ]
    rw [List.map_append, List.sum_append,
      List.map_cons, List.map_nil, List.sum_cons, List.sum_nil]
    ring

theorem sum_eq_range_sum (L : List Int) :
    L.sum = ((List.range L.length).map (fun i => L.getD i 0)).sum := by
  cases hL : L with
  | nil => rfl
  | cons x X =>
    have h1 : 0 < L.length := by rw [hL]; simp
    rw [← hL, ← psum_of_length_le L (L.length - 1) (by omega),
      psum_eq_range_sum]
    have h2 : L.length - 1 + 1 = L.length := by omega
    rw [h2]

theorem canonOps_length :
    ∀ (ops : List Op) (L L' : List Int),
      canonOps L ops = some L' → L'.length = L.length := by
  intro ops
  induction ops with
  | nil =>
    intro L L' h
    have h2 : some L = some L' := h
    cases h2
    rfl
  | cons op rest ih =>
    intro L L' h
    have h2 : (match canonOp L op with
      | none => none
      | some L2 => canonOps L2 rest) = some L' := h
    cases hco : canonOp L op with
    | none =>
      rw [hco] at h2
      cases h2
    | some L2 =>
      rw [hco] at h2
      rw [ih L2 L' h2, canonOp_length hco]

/-- Running `add(i, k)` for `i` in `s, s+1, …, s+n-1` on the canonical
list adds `k` at each of those positions. -/
theorem canon_adds (k : Int) :
    ∀ (n s : Nat) (L : List Int), s + n ≤ L.length →
      ∃ M, canonOps L ((List.range' s n).map (fun i => Op.add i k)) = some M ∧
        M.length = L.length ∧
        ∀ i, i < L.length →
          M.getD i 0 = L.getD i 0 + (if s ≤ i ∧ i < s + n then k else 0) := by
  intro n
  induction n with
  | zero =>
    intro s L hsn
    refine ⟨L, rfl, rfl, ?_⟩
    intro i hi
    rw [if_neg (by omega : ¬ (s ≤ i ∧ i < s + 0))]
    ring
  | succ m ih =>
    intro s L hsn
    have hs : s < L.length := by omega
    obtain ⟨M, hM1, hM2, hM3⟩ := ih (s + 1) (L.set s (L.getD s 0 + k))
      (by rw [List.length_set]; omega)
    refine ⟨M, ?_, ?_, ?_⟩
    · rw [List.range'_succ, List.map_cons]
      show (match canonOp L (Op.add s k) with
        | none => none
        | some L2 => canonOps L2 ((List.range' (s+1) m).map (fun i => Op.add i k))) = some M
      have hco : canonOp L (Op.add s k) = some (L.set s (L.getD s 0 + k)) := by
        show (if s < L.length then some (L.set s (L.getD s 0 + k)) else none) = _
        rw [if_pos hs]
      rw [hco]
      exact hM1
    · rw [hM2, List.length_set]
    · intro i hi
      rw [hM3 i (by rw [List.length_set]; exact hi)]
      by_cases his : i = s
      · subst his
        rw [getD_set_self L i _ hs,
          if_neg (by omega : ¬ (i + 1 ≤ i ∧ i < i + 1 + m)),
          if_pos (by omega : i ≤ i ∧ i < i + (m + 1))]
        ring
      · rw [getD_set_ne L s i _ (by omega)]
        by_cases hc : s + 1 ≤ i ∧ i < s + 1 + m
        · rw [if_pos hc, if_pos (by omega : s ≤ i ∧ i < s + (m + 1))]
        · rw [if_neg hc, if_neg (by omega : ¬ (s ≤ i ∧ i < s + (m + 1)))]

namespace cumulfreq_array

/-- The absolute-frequency list computed by `freq` from a sums list. -/
def diffList (t : CumulFreqTable) : List Int :=
  (List.range t.sums.length).map
    (fun i => if i = 0 then t.sums.getD 0 0
              else t.sums.getD i 0 - t.sums.getD (i - 1) 0)

/-- Every sums list stores the prefix sums of its own difference
list. -/
theorem carel_self (t : CumulFreqTable) : CARel t (diffList t) := by
  constructor
  · unfold diffList
    rw [List.length_map, List.length_range]
  · intro i
    induction i with
    | zero =>
      intro hi
      rw [psum_zero]
      unfold diffList
      rw [binary_indexed_tree.getD_range_map _ _ 0 hi, if_pos rfl]
    | succ q ih =>
      intro hi
      rw [psum_succ]
      have hq := ih (by omega)
      rw [← hq]
      have hd : (diffList t).getD (q + 1) 0 =
          t.sums.getD (q + 1) 0 - t.sums.getD q 0 := by
        unfold diffList
        rw [binary_indexed_tree.getD_range_map _ _ (q + 1) hi,
          if_neg (by omega : ¬ q + 1 = 0)]
        rfl
      rw [hd]
      ring

end cumulfreq_array

namespace freq_array

def runFrom (c : Ctor) (ops : List Op) : Option FreqTable :=
  match FreqTable.build c with
  | none => none
  | some t => t.runOps ops

end freq_array

namespace cumulfreq_array

def runFrom (c : Ctor) (ops : List Op) : Option CumulFreqTable :=
  match CumulFreqTable.build c with
  | none => none
  | some t => t.runOps ops

end cumulfreq_array

namespace binary_indexed_tree

def runFrom (c : Ctor) (ops : List Op) : Option CumulFreqTable :=
  match CumulFreqTable.build c with
  | none => none
  | some t => t.runOps ops

end binary_indexed_tree

/-! ### The claims -/

/-- Claim C3 (code bug exhibit): with `target` exceeding `total()`,
`find_by_sum` of `freq_array::FreqTable` and of
`cumulfreq_array::CumulFreqTable` reaches
`unsafe { r.unwrap_unchecked() }` on `None` (its `position` finds no
prefix sum `≥ target`), which is undefined behavior — modelled here by
the `none` result — instead of returning a position in `[0, len-1]` as
the specification requires.  Exhibited on the table `new(1)` with
`target = 1 > total() = 0`. -/
theorem claim_C3_bug :
    freq_array.FreqTable.new 1 = some ⟨[0], 0⟩ ∧
    (⟨[0], 0⟩ : freq_array.FreqTable).total < 1 ∧
    (⟨[0], 0⟩ : freq_array.FreqTable).find_by_sum 1 = none ∧
    cumulfreq_array.CumulFreqTable.new 1 = some ⟨[0]⟩ ∧
    (⟨[0]⟩ : cumulfreq_array.CumulFreqTable).total < 1 ∧
    (⟨[0]⟩ : cumulfreq_array.CumulFreqTable).find_by_sum 1 = none := by
  refine ⟨rfl, by decide, ?_, rfl, by decide, ?_⟩
  · rfl
  · rfl

/-- Claim C2: for each of the three implementations, in every reachable
state and for every `pos < len`, `sum(pos)` equals the sum of the
frequencies `freq(i)` for `i = 0 .. pos`. -/
theorem claim_C2 :
    (∀ (t : freq_array.FreqTable), t.Reachable → ∀ pos, pos < t.len →
      t.sum pos =
        some (((List.range (pos + 1)).map (fun i => (t.freq i).getD 0)).sum)) ∧
    (∀ (t : cumulfreq_array.CumulFreqTable), t.Reachable → ∀ pos, pos < t.len →
      t.sum pos =
        some (((List.range (pos + 1)).map (fun i => (t.freq i).getD 0)).sum)) ∧
    (∀ (t : binary_indexed_tree.CumulFreqTable), t.Reachable → ∀ pos, pos < t.len →
      t.sum pos =
        some (((List.range (pos + 1)).map (fun i => (t.freq i).getD 0)).sum)) := by
  refine ⟨?_, ?_, ?_⟩
  · intro t _ pos hpos
    unfold freq_array.FreqTable.len at hpos
    unfold freq_array.FreqTable.sum
    rw [if_pos hpos, psum_eq_range_sum]
    congr 1
    refine congrArg List.sum (List.map_congr_left ?_)
    intro i hi
    rw [List.mem_range] at hi
    unfold freq_array.FreqTable.freq
    rw [if_pos (by omega), Option.getD_some]
  · intro t _ pos hpos
    unfold cumulfreq_array.CumulFreqTable.len at hpos
    have hca := cumulfreq_array.carel_self t
    have hplen : pos < (cumulfreq_array.diffList t).length := by
      rw [← hca.1]
      exact hpos
    rw [hca.sum_eq_ca hplen, psum_eq_range_sum]
    congr 1
    refine congrArg List.sum (List.map_congr_left ?_)
    intro i hi
    rw [List.mem_range] at hi
    rw [hca.freq_eq_ca (by omega : i < (cumulfreq_array.diffList t).length),
      Option.getD_some]
  · intro t _ pos hpos
    unfold binary_indexed_tree.CumulFreqTable.len at hpos
    have hrep := binary_indexed_tree.rep_self t.tree
    have hplen : pos < (binary_indexed_tree.freqList t.tree).length := by
      have := hrep.1
      omega
    rw [binary_indexed_tree.rep_sum_eq hrep hplen, psum_eq_range_sum]
    congr 1
    refine congrArg List.sum (List.map_congr_left ?_)
    intro i hi
    rw [List.mem_range] at hi
    rw [binary_indexed_tree.rep_freq_eq hrep
      (by omega : i < (binary_indexed_tree.freqList t.tree).length),
      Option.getD_some]

/-- Concrete instantiation of C2 on a reachable table of each
implementation. -/
theorem claim_C2_witness :
    (⟨[0], 0⟩ : freq_array.FreqTable).sum 0 =
      some (((List.range 1).map
        (fun i => ((⟨[0], 0⟩ : freq_array.FreqTable).freq i).getD 0)).sum) ∧
    (⟨[0]⟩ : cumulfreq_array.CumulFreqTable).sum 0 =
      some (((List.range 1).map
        (fun i => ((⟨[0]⟩ : cumulfreq_array.CumulFreqTable).freq i).getD 0)).sum) ∧
    (⟨[0]⟩ : binary_indexed_tree.CumulFreqTable).sum 0 =
      some (((List.range 1).map
        (fun i => ((⟨[0]⟩ : binary_indexed_tree.CumulFreqTable).freq i).getD 0)).sum) :=
  ⟨claim_C2.1 ⟨[0], 0⟩
      (freq_array.FreqTable.Reachable.new 1 ⟨[0], 0⟩ rfl) 0 (by decide),
   claim_C2.2.1 ⟨[0]⟩
      (cumulfreq_array.CumulFreqTable.Reachable.new 1 ⟨[0]⟩ rfl) 0 (by decide),
   claim_C2.2.2 ⟨[0]⟩
      (binary_indexed_tree.CumulFreqTable.Reachable.new 1 ⟨[0]⟩ rfl) 0 (by decide)⟩

/-- Claim C6: for each of the three implementations, in every reachable
state `total()` equals `sum(len - 1)`; in particular `FreqTable`'s
separately maintained `total` field stays in sync (it equals the sum of
the stored frequencies). -/
theorem claim_C6 :
    (∀ (t : freq_array.FreqTable), t.Reachable →
      t.sum (t.len - 1) = some t.total ∧ t.total = t.freqs.sum) ∧
    (∀ (t : cumulfreq_array.CumulFreqTable), t.Reachable →
      t.sum (t.len - 1) = some t.total) ∧
    (∀ (t : binary_indexed_tree.CumulFreqTable), t.Reachable →
      t.sum (t.len - 1) = some t.total) := by
  refine ⟨?_, ?_, ?_⟩
  · intro t hr
    obtain ⟨htot, hlen⟩ := freq_array.Reachable.inv hr
    refine ⟨?_, htot⟩
    unfold freq_array.FreqTable.sum freq_array.FreqTable.len
    rw [if_pos (by omega : t.freqs.length - 1 < t.freqs.length),
      psum_of_length_le t.freqs (t.freqs.length - 1) (by omega), htot]
  · intro t hr
    have hlen := cumulfreq_array.Reachable.nonempty hr
    unfold cumulfreq_array.CumulFreqTable.sum cumulfreq_array.CumulFreqTable.len
    rw [if_pos (by omega : t.sums.length - 1 < t.sums.length)]
    unfold cumulfreq_array.CumulFreqTable.total
    rw [getLastD_eq_getD]
  · intro t hr
    have hlen := binary_indexed_tree.Reachable.tree_nonempty hr
    unfold binary_indexed_tree.CumulFreqTable.sum
      binary_indexed_tree.CumulFreqTable.len
    rw [if_pos (by omega : t.tree.length - 1 < t.tree.length)]
    rfl

/-- Concrete instantiation of C6 on a reachable table of each
implementation. -/
theorem claim_C6_witness :
    ((⟨[0], 0⟩ : freq_array.FreqTable).sum 0 = some 0 ∧
      (0 : Int) = ([0] : List Int).sum) ∧
    (⟨[0]⟩ : cumulfreq_array.CumulFreqTable).sum 0 =
      some (⟨[0]⟩ : cumulfreq_array.CumulFreqTable).total ∧
    (⟨[0]⟩ : binary_indexed_tree.CumulFreqTable).sum 0 =
      some (⟨[0]⟩ : binary_indexed_tree.CumulFreqTable).total :=
  ⟨claim_C6.1 ⟨[0], 0⟩ (freq_array.FreqTable.Reachable.new 1 ⟨[0], 0⟩ rfl),
   claim_C6.2.1 ⟨[0]⟩ (cumulfreq_array.CumulFreqTable.Reachable.new 1 ⟨[0]⟩ rfl),
   claim_C6.2.2 ⟨[0]⟩
     (binary_indexed_tree.CumulFreqTable.Reachable.new 1 ⟨[0]⟩ rfl)⟩

/-- Claim C8: every implementation rejects construction with
`len == 0` and rejects `add`/`sub`/`sum`/`freq` with `pos ≥ len` by an
unrecoverable failure (a panic, modelled by `none`) rather than an
error value or a clamped result. -/
theorem claim_C8 :
    (freq_array.FreqTable.new 0 = none ∧
     (∀ k, freq_array.FreqTable.with_freq 0 k = none) ∧
     (∀ (t : freq_array.FreqTable) pos (v : Int), t.len ≤ pos →
       t.add pos v = none ∧ t.sub pos v = none ∧
       t.sum pos = none ∧ t.freq pos = none)) ∧
    (cumulfreq_array.CumulFreqTable.new 0 = none ∧
     (∀ k, cumulfreq_array.CumulFreqTable.with_freq 0 k = none) ∧
     (∀ (t : cumulfreq_array.CumulFreqTable) pos (v : Int), t.len ≤ pos →
       t.add pos v = none ∧ t.sub pos v = none ∧
       t.sum pos = none ∧ t.freq pos = none)) ∧
    (binary_indexed_tree.CumulFreqTable.new 0 = none ∧
     (∀ k, binary_indexed_tree.CumulFreqTable.with_freq 0 k = none) ∧
     (∀ (t : binary_indexed_tree.CumulFreqTable) pos (v : Int), t.len ≤ pos →
       t.add pos v = none ∧ t.sub pos v = none ∧
       t.sum pos = none ∧ t.freq pos = none)) := by
  refine ⟨⟨rfl, fun k => rfl, ?_⟩, ⟨rfl, fun k => rfl, ?_⟩,
    ⟨rfl, fun k => rfl, ?_⟩⟩
  · intro t pos v hp
    unfold freq_array.FreqTable.len at hp
    unfold freq_array.FreqTable.add freq_array.FreqTable.sub
      freq_array.FreqTable.sum freq_array.FreqTable.freq
    refine ⟨?_, ?_, ?_, ?_⟩ <;> rw [if_neg (by omega : ¬ pos < t.freqs.length)]
  · intro t pos v hp
    unfold cumulfreq_array.CumulFreqTable.len at hp
    unfold cumulfreq_array.CumulFreqTable.add cumulfreq_array.CumulFreqTable.sub
      cumulfreq_array.CumulFreqTable.sum cumulfreq_array.CumulFreqTable.freq
    refine ⟨?_, ?_, ?_, ?_⟩ <;> rw [if_neg (by omega : ¬ pos < t.sums.length)]
  · intro t pos v hp
    unfold binary_indexed_tree.CumulFreqTable.len at hp
    unfold binary_indexed_tree.CumulFreqTable.add
      binary_indexed_tree.CumulFreqTable.sub
      binary_indexed_tree.CumulFreqTable.sum
      binary_indexed_tree.CumulFreqTable.freq
    refine ⟨?_, ?_, ?_, ?_⟩ <;> rw [if_neg (by omega : ¬ pos < t.tree.length)]

/-- Concrete instantiation of C8's out-of-bounds clauses. -/
theorem claim_C8_witness :
    ((⟨[0], 0⟩ : freq_array.FreqTable).add 3 1 = none ∧
     (⟨[0], 0⟩ : freq_array.FreqTable).sub 3 1 = none ∧
     (⟨[0], 0⟩ : freq_array.FreqTable).sum 3 = none ∧
     (⟨[0], 0⟩ : freq_array.FreqTable).freq 3 = none) ∧
    ((⟨[0]⟩ : cumulfreq_array.CumulFreqTable).add 3 1 = none ∧
     (⟨[0]⟩ : cumulfreq_array.CumulFreqTable).sub 3 1 = none ∧
     (⟨[0]⟩ : cumulfreq_array.CumulFreqTable).sum 3 = none ∧
     (⟨[0]⟩ : cumulfreq_array.CumulFreqTable).freq 3 = none) ∧
    ((⟨[0]⟩ : binary_indexed_tree.CumulFreqTable).add 3 1 = none ∧
     (⟨[0]⟩ : binary_indexed_tree.CumulFreqTable).sub 3 1 = none ∧
     (⟨[0]⟩ : binary_indexed_tree.CumulFreqTable).sum 3 = none ∧
     (⟨[0]⟩ : binary_indexed_tree.CumulFreqTable).freq 3 = none) :=
  ⟨claim_C8.1.2.2 ⟨[0], 0⟩ 3 1 (by decide),
   claim_C8.2.1.2.2 ⟨[0]⟩ 3 1 (by decide),
   claim_C8.2.2.2.2 ⟨[0]⟩ 3 1 (by decide)⟩

/-- Claim C10: `FreqTable::with_freq` has the extra failure case of the
`usize → F` conversion (`total = init * len.try_into().unwrap()`): for
any conversion, it panics exactly when `len == 0` or the conversion of
`len` fails; the other two implementations succeed for every `len ≥ 1`
(they never convert `len`). -/
theorem claim_C10 :
    (∀ (conv : Nat → Option Int) (len : Nat) (k : Int),
      freq_array.FreqTable.with_freqGen conv len k = none ↔
        (len = 0 ∨ conv len = none)) ∧
    (∀ (len : Nat) (k : Int), 0 < len →
      (cumulfreq_array.CumulFreqTable.with_freq len k).isSome = true ∧
      (binary_indexed_tree.CumulFreqTable.with_freq len k).isSome = true) := by
  constructor
  · intro conv len k
    unfold freq_array.FreqTable.with_freqGen
    by_cases hl : 0 < len
    · rw [if_pos hl]
      rw [Option.map_eq_none']
      constructor
      · intro h
        exact Or.inr h
      · intro h
        rcases h with h | h
        · omega
        · exact h
    · rw [if_neg hl]
      constructor
      · intro _
        exact Or.inl (by omega)
      · intro _
        rfl
  · intro len k hl
    unfold cumulfreq_array.CumulFreqTable.with_freq
      binary_indexed_tree.CumulFreqTable.with_freq
    rw [if_pos hl, if_pos hl]
    exact ⟨rfl, rfl⟩

/-- Concrete instantiation of C10: a 16-bit-style bounded conversion
fails at `len = 2^16`, so `FreqTable::with_freq` panics there while the
other two implementations succeed. -/
theorem claim_C10_witness :
    (freq_array.FreqTable.with_freqGen
      (fun n => if n < 65536 then some (n : Int) else none) 65536 1 = none ↔
      (65536 = 0 ∨ (if 65536 < 65536 then some ((65536 : Nat) : Int) else none) = none)) ∧
    (cumulfreq_array.CumulFreqTable.with_freq 65536 1).isSome = true ∧
    (binary_indexed_tree.CumulFreqTable.with_freq 65536 1).isSome = true :=
  ⟨claim_C10.1 (fun n => if n < 65536 then some (n : Int) else none) 65536 1,
   claim_C10.2 65536 1 (by omega)⟩

/-- Claim C9: for each of the three implementations, on any table and
any `pos < len`, `add(pos, val)` succeeds, increases `freq(pos)` by
`val`, leaves every other frequency unchanged, increases `sum(p)` by
`val` exactly for `p ≥ pos`, and leaves `len` unchanged. -/
theorem claim_C9 :
    (∀ (t : freq_array.FreqTable) pos (v : Int), pos < t.len →
      ∃ t', t.add pos v = some t' ∧ t'.len = t.len ∧
        t'.freq pos = some ((t.freq pos).getD 0 + v) ∧
        (∀ q, q < t.len → q ≠ pos → t'.freq q = t.freq q) ∧
        (∀ p, pos ≤ p → p < t.len → t'.sum p = some ((t.sum p).getD 0 + v)) ∧
        (∀ p, p < pos → t'.sum p = t.sum p)) ∧
    (∀ (t : cumulfreq_array.CumulFreqTable) pos (v : Int), pos < t.len →
      ∃ t', t.add pos v = some t' ∧ t'.len = t.len ∧
        t'.freq pos = some ((t.freq pos).getD 0 + v) ∧
        (∀ q, q < t.len → q ≠ pos → t'.freq q = t.freq q) ∧
        (∀ p, pos ≤ p → p < t.len → t'.sum p = some ((t.sum p).getD 0 + v)) ∧
        (∀ p, p < pos → t'.sum p = t.sum p)) ∧
    (∀ (t : binary_indexed_tree.CumulFreqTable) pos (v : Int), pos < t.len →
      ∃ t', t.add pos v = some t' ∧ t'.len = t.len ∧
        t'.freq pos = some ((t.freq pos).getD 0 + v) ∧
        (∀ q, q < t.len → q ≠ pos → t'.freq q = t.freq q) ∧
        (∀ p, pos ≤ p → p < t.len → t'.sum p = some ((t.sum p).getD 0 + v)) ∧
        (∀ p, p < pos → t'.sum p = t.sum p)) := by
  refine ⟨?_, ?_, ?_⟩
  · -- freq_array: direct computation on the stored list
    intro t pos v hpos
    unfold freq_array.FreqTable.len at hpos
    refine ⟨⟨t.freqs.set pos (t.freqs.getD pos 0 + v), t.total + v⟩, ?_, ?_, ?_, ?_, ?_, ?_⟩
    · unfold freq_array.FreqTable.add
      rw [if_pos hpos]
    · unfold freq_array.FreqTable.len
      rw [List.length_set]
    · unfold freq_array.FreqTable.freq
      rw [if_pos (by rw [List.length_set]; exact hpos), if_pos hpos,
        Option.getD_some, getD_set_self t.freqs pos _ hpos]
    · intro q hq hqne
      unfold freq_array.FreqTable.len at hq
      unfold freq_array.FreqTable.freq
      rw [if_pos (by rw [List.length_set]; exact hq), if_pos hq,
        getD_set_ne t.freqs pos q _ (by omega)]
    · intro p hp1 hp2
      unfold freq_array.FreqTable.len at hp2
      unfold freq_array.FreqTable.sum
      rw [if_pos (by rw [List.length_set]; exact hp2), if_pos hp2,
        Option.getD_some, psum_set t.freqs pos p _ hpos, if_pos hp1]
      congr 1
      ring
    · intro p hp
      unfold freq_array.FreqTable.sum
      by_cases hp2 : p < t.freqs.length
      · rw [if_pos (by rw [List.length_set]; exact hp2), if_pos hp2,
          psum_set t.freqs pos p _ hpos, if_neg (by omega : ¬ pos ≤ p)]
        norm_num
      · rw [if_neg (by rw [List.length_set]; exact hp2), if_neg hp2]
  · -- cumulfreq_array: through the prefix-sum relation with its own
    -- difference list
    intro t pos v hpos
    unfold cumulfreq_array.CumulFreqTable.len at hpos
    have hca := cumulfreq_array.carel_self t
    set D := cumulfreq_array.diffList t with hD
    have hDlen : pos < D.length := by rw [← hca.1]; exact hpos
    have hca' := cumulfreq_array.carel_add hca hpos v
    set D' := D.set pos (D.getD pos 0 + v) with hD'
    have hD'len : D'.length = D.length := by rw [hD', List.length_set]
    refine ⟨⟨t.sums.take pos ++ (t.sums.drop pos).map (fun s => s + v)⟩,
      ?_, ?_, ?_, ?_, ?_, ?_⟩
    · unfold cumulfreq_array.CumulFreqTable.add
      rw [if_pos hpos]
    · rw [hca'.len_eq_ca, cumulfreq_array.CARel.len_eq_ca hca, hD'len]
    · rw [hca'.freq_eq_ca (by omega : pos < D'.length),
        hca.freq_eq_ca hDlen, Option.getD_some, hD',
        getD_set_self D pos _ hDlen]
    · intro q hq hqne
      rw [cumulfreq_array.CARel.len_eq_ca hca] at hq
      rw [hca'.freq_eq_ca (by omega : q < D'.length), hca.freq_eq_ca hq, hD',
        getD_set_ne D pos q _ (by omega)]
    · intro p hp1 hp2
      rw [cumulfreq_array.CARel.len_eq_ca hca] at hp2
      rw [hca'.sum_eq_ca (by omega : p < D'.length), hca.sum_eq_ca hp2,
        Option.getD_some, hD', psum_set D pos p _ hDlen, if_pos hp1]
      congr 1
      ring
    · intro p hp
      have hp2 : p < D.length := by omega
      rw [hca'.sum_eq_ca (by omega : p < D'.length), hca.sum_eq_ca hp2, hD',
        psum_set D pos p _ hDlen, if_neg (by omega : ¬ pos ≤ p)]
      norm_num
  · -- binary indexed tree: through the Fenwick representation of its
    -- own frequency list
    intro t pos v hpos
    unfold binary_indexed_tree.CumulFreqTable.len at hpos
    have hrep := binary_indexed_tree.rep_self t.tree
    set L := binary_indexed_tree.freqList t.tree with hL
    have hLlen : pos < L.length := by
      have := hrep.1
      omega
    have hbody := hrep.addBody hpos v
    set L' := L.set pos (L.getD pos 0 + v) with hL'
    set tt := (if pos = 0 then t.tree.set 0 (t.tree.getD 0 0 + v)
      else binary_indexed_tree.addLoop t.tree pos v) with htt
    have hL'len : L'.length = L.length := by rw [hL', List.length_set]
    refine ⟨⟨tt⟩, ?_, ?_, ?_, ?_, ?_, ?_⟩
    · unfold binary_indexed_tree.CumulFreqTable.add
      rw [if_pos hpos, htt]
    · rw [@binary_indexed_tree.rep_len_eq ⟨tt⟩ L' hbody,
        binary_indexed_tree.rep_len_eq hrep, hL'len]
    · rw [@binary_indexed_tree.rep_freq_eq ⟨tt⟩ L' hbody pos
        (by omega : pos < L'.length),
        binary_indexed_tree.rep_freq_eq hrep hLlen, Option.getD_some, hL',
        getD_set_self L pos _ hLlen]
    · intro q hq hqne
      rw [binary_indexed_tree.rep_len_eq hrep] at hq
      rw [@binary_indexed_tree.rep_freq_eq ⟨tt⟩ L' hbody q
        (by omega : q < L'.length),
        binary_indexed_tree.rep_freq_eq hrep hq, hL',
        getD_set_ne L pos q _ (by omega)]
    · intro p hp1 hp2
      rw [binary_indexed_tree.rep_len_eq hrep] at hp2
      rw [@binary_indexed_tree.rep_sum_eq ⟨tt⟩ L' hbody p
        (by omega : p < L'.length),
        binary_indexed_tree.rep_sum_eq hrep hp2, Option.getD_some, hL',
        psum_set L pos p _ hLlen, if_pos hp1]
      congr 1
      ring
    · intro p hp
      have hp2 : p < L.length := by omega
      rw [@binary_indexed_tree.rep_sum_eq ⟨tt⟩ L' hbody p
        (by omega : p < L'.length),
        binary_indexed_tree.rep_sum_eq hrep hp2, hL',
        psum_set L pos p _ hLlen, if_neg (by omega : ¬ pos ≤ p)]
      norm_num

/-- Concrete instantiation of C9 on singleton tables. -/
theorem claim_C9_witness :
    (∃ t', (⟨[0], 0⟩ : freq_array.FreqTable).add 0 5 = some t' ∧
      t'.len = (⟨[0], 0⟩ : freq_array.FreqTable).len ∧
      t'.freq 0 = some (((⟨[0], 0⟩ : freq_array.FreqTable).freq 0).getD 0 + 5) ∧
      (∀ q, q < (⟨[0], 0⟩ : freq_array.FreqTable).len → q ≠ 0 →
        t'.freq q = (⟨[0], 0⟩ : freq_array.FreqTable).freq q) ∧
      (∀ p, 0 ≤ p → p < (⟨[0], 0⟩ : freq_array.FreqTable).len →
        t'.sum p = some (((⟨[0], 0⟩ : freq_array.FreqTable).sum p).getD 0 + 5)) ∧
      (∀ p, p < 0 → t'.sum p = (⟨[0], 0⟩ : freq_array.FreqTable).sum p)) ∧
    (∃ t', (⟨[0]⟩ : cumulfreq_array.CumulFreqTable).add 0 5 = some t' ∧
      t'.len = (⟨[0]⟩ : cumulfreq_array.CumulFreqTable).len ∧
      t'.freq 0 = some (((⟨[0]⟩ : cumulfreq_array.CumulFreqTable).freq 0).getD 0 + 5) ∧
      (∀ q, q < (⟨[0]⟩ : cumulfreq_array.CumulFreqTable).len → q ≠ 0 →
        t'.freq q = (⟨[0]⟩ : cumulfreq_array.CumulFreqTable).freq q) ∧
      (∀ p, 0 ≤ p → p < (⟨[0]⟩ : cumulfreq_array.CumulFreqTable).len →
        t'.sum p = some (((⟨[0]⟩ : cumulfreq_array.CumulFreqTable).sum p).getD 0 + 5)) ∧
      (∀ p, p < 0 → t'.sum p = (⟨[0]⟩ : cumulfreq_array.CumulFreqTable).sum p)) ∧
    (∃ t', (⟨[0]⟩ : binary_indexed_tree.CumulFreqTable).add 0 5 = some t' ∧
      t'.len = (⟨[0]⟩ : binary_indexed_tree.CumulFreqTable).len ∧
      t'.freq 0 = some (((⟨[0]⟩ : binary_indexed_tree.CumulFreqTable).freq 0).getD 0 + 5) ∧
      (∀ q, q < (⟨[0]⟩ : binary_indexed_tree.CumulFreqTable).len → q ≠ 0 →
        t'.freq q = (⟨[0]⟩ : binary_indexed_tree.CumulFreqTable).freq q) ∧
      (∀ p, 0 ≤ p → p < (⟨[0]⟩ : binary_indexed_tree.CumulFreqTable).len →
        t'.sum p = some (((⟨[0]⟩ : binary_indexed_tree.CumulFreqTable).sum p).getD 0 + 5)) ∧
      (∀ p, p < 0 → t'.sum p = (⟨[0]⟩ : binary_indexed_tree.CumulFreqTable).sum p)) :=
  ⟨claim_C9.1 ⟨[0], 0⟩ 0 5 (by decide),
   claim_C9.2.1 ⟨[0]⟩ 0 5 (by decide),
   claim_C9.2.2 ⟨[0]⟩ 0 5 (by decide)⟩

/-- Claim C5: for each of the three implementations, `scale f` replaces
every absolute frequency by its image under `f` (never a cumulative
sum), leaves `total` equal to the sum of the new per-position
frequencies, and calls `f` exactly once per position: the list of
arguments passed to `f` is a permutation of the per-position absolute
frequencies held before the call. -/
theorem claim_C5 :
    (∀ (t : freq_array.FreqTable) (f : Int → Int), 0 < t.len →
      (t.scale f).1.len = t.len ∧
      (∀ pos, pos < t.len →
        (t.scale f).1.freq pos = some (f ((t.freq pos).getD 0))) ∧
      (t.scale f).1.total =
        ((List.range t.len).map (fun i => ((t.scale f).1.freq i).getD 0)).sum ∧
      List.Perm (t.scale f).2
        ((List.range t.len).map (fun i => (t.freq i).getD 0))) ∧
    (∀ (t : cumulfreq_array.CumulFreqTable) (f : Int → Int), 0 < t.len →
      (t.scale f).1.len = t.len ∧
      (∀ pos, pos < t.len →
        (t.scale f).1.freq pos = some (f ((t.freq pos).getD 0))) ∧
      (t.scale f).1.total =
        ((List.range t.len).map (fun i => ((t.scale f).1.freq i).getD 0)).sum ∧
      List.Perm (t.scale f).2
        ((List.range t.len).map (fun i => (t.freq i).getD 0))) ∧
    (∀ (t : binary_indexed_tree.CumulFreqTable) (f : Int → Int), 0 < t.len →
      (t.scale f).1.len = t.len ∧
      (∀ pos, pos < t.len →
        (t.scale f).1.freq pos = some (f ((t.freq pos).getD 0))) ∧
      (t.scale f).1.total =
        ((List.range t.len).map (fun i => ((t.scale f).1.freq i).getD 0)).sum ∧
      List.Perm (t.scale f).2
        ((List.range t.len).map (fun i => (t.freq i).getD 0))) := by
  refine ⟨?_, ?_, ?_⟩
  · -- freq_array
    intro t f hlen
    have hsg := freq_array.scaleGo_spec f t.freqs 0
    have hdef : t.scale f = (⟨t.freqs.map f, 0 + (t.freqs.map f).sum⟩, t.freqs) := by
      show ((⟨(freq_array.scaleGo f t.freqs 0).1,
          (freq_array.scaleGo f t.freqs 0).2.1⟩ : freq_array.FreqTable),
        (freq_array.scaleGo f t.freqs 0).2.2) = _
      rw [hsg]
    have hlen' : t.len = t.freqs.length := rfl
    refine ⟨?_, ?_, ?_, ?_⟩
    · rw [hdef]
      show (t.freqs.map f).length = t.len
      rw [List.length_map, hlen']
    · intro pos hpos
      rw [hlen'] at hpos
      rw [hdef]
      unfold freq_array.FreqTable.freq
      rw [if_pos (by rw [List.length_map]; exact hpos), if_pos hpos,
        Option.getD_some, getD_map0 t.freqs f pos hpos]
    · rw [hdef]
      show 0 + (t.freqs.map f).sum = _
      rw [zero_add, sum_eq_range_sum (t.freqs.map f), List.length_map, ← hlen']
      refine congrArg List.sum (List.map_congr_left ?_)
      intro i hi
      rw [List.mem_range, hlen'] at hi
      unfold freq_array.FreqTable.freq
      rw [if_pos (by rw [List.length_map]; exact hi), Option.getD_some]
    · rw [hdef]
      have hfr : (List.range t.len).map (fun i => (t.freq i).getD 0) = t.freqs := by
        refine list_ext_getD _ _ ?_ ?_
        · rw [List.length_map, List.length_range, hlen']
        · intro i hi
          rw [List.length_map, List.length_range] at hi
          rw [binary_indexed_tree.getD_range_map _ t.len i hi]
          unfold freq_array.FreqTable.freq
          rw [hlen'] at hi
          rw [if_pos hi, Option.getD_some]
      rw [hfr]
  · -- cumulfreq_array
    intro t f hlen
    set D := cumulfreq_array.diffList t with hD
    have h := cumulfreq_array.carel_self t
    obtain ⟨hs, hcalls⟩ := cumulfreq_array.carel_scale h f
    have hDlen : t.len = D.length := h.1
    refine ⟨?_, ?_, ?_, ?_⟩
    · rw [hs.len_eq_ca, List.length_map, ← hDlen]
    · intro pos hpos
      rw [hDlen] at hpos
      rw [hs.freq_eq_ca (by rw [List.length_map]; exact hpos),
        h.freq_eq_ca hpos, Option.getD_some, getD_map0 D f pos hpos]
    · rw [hs.total_eq_ca (by rw [List.length_map]; exact hDlen ▸ hlen),
        sum_eq_range_sum (D.map f), List.length_map, ← hDlen]
      refine congrArg List.sum (List.map_congr_left ?_)
      intro i hi
      rw [List.mem_range, hDlen] at hi
      rw [hs.freq_eq_ca (by rw [List.length_map]; exact hi), Option.getD_some]
    · rw [hcalls]
      have hfr : (List.range t.len).map (fun i => (t.freq i).getD 0) = D := by
        refine list_ext_getD _ _ ?_ ?_
        · rw [List.length_map, List.length_range, hDlen]
        · intro i hi
          rw [List.length_map, List.length_range] at hi
          rw [binary_indexed_tree.getD_range_map _ t.len i hi]
          rw [hDlen] at hi
          rw [h.freq_eq_ca hi, Option.getD_some]
      rw [hfr]
  · -- binary indexed tree
    intro t f hlen
    set L := binary_indexed_tree.freqList t.tree with hL
    have hrep := binary_indexed_tree.rep_self t.tree
    have hlen' : t.len = t.tree.length := rfl
    have htlen : 0 < t.tree.length := by rw [← hlen']; exact hlen
    obtain ⟨hs, hcalls⟩ := binary_indexed_tree.scale_rep hrep htlen f
    have hLlen : t.len = L.length := hrep.1
    refine ⟨?_, ?_, ?_, ?_⟩
    · rw [@binary_indexed_tree.rep_len_eq ((t.scale f).1) (L.map f) hs,
        List.length_map, ← hLlen]
    · intro pos hpos
      rw [hLlen] at hpos
      rw [@binary_indexed_tree.rep_freq_eq ((t.scale f).1) (L.map f) hs pos
        (by rw [List.length_map]; exact hpos),
        binary_indexed_tree.rep_freq_eq hrep hpos, Option.getD_some,
        getD_map0 L f pos hpos]
    · rw [@binary_indexed_tree.rep_total_eq ((t.scale f).1) (L.map f) hs
        (by rw [List.length_map]; exact hLlen ▸ hlen),
        sum_eq_range_sum (L.map f), List.length_map, ← hLlen]
      refine congrArg List.sum (List.map_congr_left ?_)
      intro i hi
      rw [List.mem_range, hLlen] at hi
      rw [@binary_indexed_tree.rep_freq_eq ((t.scale f).1) (L.map f) hs i
        (by rw [List.length_map]; exact hi), Option.getD_some]
    · rw [hcalls]
      have hfr : (List.range t.len).map (fun i => (t.freq i).getD 0) =
          (List.range t.tree.length).map (fun i => L.getD i 0) := by
        refine list_ext_getD _ _ ?_ ?_
        · rw [List.length_map, List.length_range, List.length_map,
            List.length_range, hlen']
        · intro i hi
          rw [List.length_map, List.length_range] at hi
          rw [binary_indexed_tree.getD_range_map _ t.len i hi,
            binary_indexed_tree.getD_range_map _ t.tree.length i
              (by rw [← hlen']; exact hi)]
          rw [hLlen] at hi
          rw [binary_indexed_tree.rep_freq_eq hrep hi, Option.getD_some]
      rw [hfr]
      exact (List.reverse_perm _).map _

/-- Concrete instantiation of C5 on singleton tables with the tripling
function. -/
theorem claim_C5_witness :
    0 < (⟨[2], 2⟩ : freq_array.FreqTable).len ∧
    0 < (⟨[2]⟩ : cumulfreq_array.CumulFreqTable).len ∧
    0 < (⟨[2]⟩ : binary_indexed_tree.CumulFreqTable).len ∧
    ((⟨[2], 2⟩ : freq_array.FreqTable).scale (fun x => x * 3)).1.len =
      (⟨[2], 2⟩ : freq_array.FreqTable).len ∧
    ((⟨[2]⟩ : cumulfreq_array.CumulFreqTable).scale (fun x => x * 3)).1.len =
      (⟨[2]⟩ : cumulfreq_array.CumulFreqTable).len ∧
    ((⟨[2]⟩ : binary_indexed_tree.CumulFreqTable).scale (fun x => x * 3)).1.len =
      (⟨[2]⟩ : binary_indexed_tree.CumulFreqTable).len :=
  ⟨by decide, by decide, by decide,
   (claim_C5.1 ⟨[2], 2⟩ (fun x => x * 3) (by decide)).1,
   (claim_C5.2.1 ⟨[2]⟩ (fun x => x * 3) (by decide)).1,
   (claim_C5.2.2 ⟨[2]⟩ (fun x => x * 3) (by decide)).1⟩

/-- Running `add i k` for every `i` in `0..len` on the all-zero
canonical list yields the all-`k` list. -/
theorem canon_adds_replicate (len : Nat) (k : Int) :
    canonOps (List.replicate len 0)
      ((List.range len).map (fun i => Op.add i k)) =
      some (List.replicate len k) := by
  rw [List.range_eq_range']
  obtain ⟨M, hM1, hM2, hM3⟩ := canon_adds k len 0 (List.replicate len 0)
    (by rw [List.length_replicate]; omega)
  rw [hM1]
  refine congrArg some ?_
  refine list_ext_getD _ _ ?_ ?_
  · rw [hM2, List.length_replicate, List.length_replicate]
  · intro i hi
    rw [hM2, List.length_replicate] at hi
    rw [hM3 i (by rw [List.length_replicate]; exact hi)]
    have h0 : (List.replicate len (0:Int)).getD i 0 = 0 := by
      rw [List.getD_eq_getElem?_getD, List.getElem?_replicate]
      simp [hi]
    have hk : (List.replicate len k).getD i 0 = k := by
      rw [List.getD_eq_getElem?_getD, List.getElem?_replicate]
      simp [hi]
    rw [h0, hk, if_pos ⟨Nat.zero_le i, by omega⟩]
    norm_num

/-- Claim C7: for every implementation, every `len ≥ 1` and every value
`k`, the table built by `with_freq(len, k)` is observationally equal to
the table built by `new(len)` followed by `add(i, k)` for every `i` in
`0..len`: both paths succeed and `len`, `freq`, `sum`, `total` agree
between them at every position. -/
theorem claim_C7 :
    (∀ (len : Nat) (k : Int), 0 < len →
      ∃ tw ta, freq_array.FreqTable.with_freq len k = some tw ∧
        freq_array.runFrom (Ctor.new len)
          ((List.range len).map (fun i => Op.add i k)) = some ta ∧
        tw.len = ta.len ∧
        (∀ pos, pos < len →
          tw.freq pos = ta.freq pos ∧ tw.sum pos = ta.sum pos) ∧
        tw.total = ta.total) ∧
    (∀ (len : Nat) (k : Int), 0 < len →
      ∃ tw ta, cumulfreq_array.CumulFreqTable.with_freq len k = some tw ∧
        cumulfreq_array.runFrom (Ctor.new len)
          ((List.range len).map (fun i => Op.add i k)) = some ta ∧
        tw.len = ta.len ∧
        (∀ pos, pos < len →
          tw.freq pos = ta.freq pos ∧ tw.sum pos = ta.sum pos) ∧
        tw.total = ta.total) ∧
    (∀ (len : Nat) (k : Int), 0 < len →
      ∃ tw ta, binary_indexed_tree.CumulFreqTable.with_freq len k = some tw ∧
        binary_indexed_tree.runFrom (Ctor.new len)
          ((List.range len).map (fun i => Op.add i k)) = some ta ∧
        tw.len = ta.len ∧
        (∀ pos, pos < len →
          tw.freq pos = ta.freq pos ∧ tw.sum pos = ta.sum pos) ∧
        tw.total = ta.total) := by
  refine ⟨?_, ?_, ?_⟩
  · -- freq_array
    intro len k hlen
    have hc : canonCtor (Ctor.new len) = some (List.replicate len 0) := by
      simp only [canonCtor]
      rw [if_pos hlen]
    have hbuild := freq_array.fa_build (Ctor.new len)
    rw [hc] at hbuild
    cases hb : freq_array.FreqTable.build (Ctor.new len) with
    | none =>
      rw [hb] at hbuild
      exact hbuild.elim
    | some t0 =>
      rw [hb] at hbuild
      have h0 : freq_array.FARel t0 (List.replicate len 0) := hbuild
      have hrun := freq_array.fa_runs
        ((List.range len).map (fun i => Op.add i k)) h0
      rw [canon_adds_replicate len k] at hrun
      cases hr : freq_array.FreqTable.runOps t0
          ((List.range len).map (fun i => Op.add i k)) with
      | none =>
        rw [hr] at hrun
        exact hrun.elim
      | some ta =>
        rw [hr] at hrun
        have hta : freq_array.FARel ta (List.replicate len k) := hrun
        have hwf : freq_array.FreqTable.with_freq len k =
            some ⟨List.replicate len k, k * (len : Int)⟩ := by
          unfold freq_array.FreqTable.with_freq freq_array.FreqTable.with_freqGen
          rw [if_pos hlen]
          rfl
        have htw : freq_array.FARel ⟨List.replicate len k, k * (len : Int)⟩
            (List.replicate len k) := by
          refine ⟨rfl, ?_⟩
          rw [List.sum_replicate, nsmul_eq_mul]
          ring
        have hreplen : (List.replicate len k).length = len :=
          List.length_replicate len k
        refine ⟨⟨List.replicate len k, k * (len : Int)⟩, ta, hwf, ?_, ?_, ?_, ?_⟩
        · unfold freq_array.runFrom
          rw [hb]
          exact hr
        · rw [htw.len_eq, hta.len_eq]
        · intro pos hpos
          refine ⟨?_, ?_⟩
          · rw [htw.freq_eq (by rw [hreplen]; exact hpos),
              hta.freq_eq (by rw [hreplen]; exact hpos)]
          · rw [htw.sum_eq (by rw [hreplen]; exact hpos),
              hta.sum_eq (by rw [hreplen]; exact hpos)]
        · rw [htw.total_eq, hta.total_eq]
  · -- cumulfreq_array
    intro len k hlen
    have hc : canonCtor (Ctor.new len) = some (List.replicate len 0) := by
      simp only [canonCtor]
      rw [if_pos hlen]
    have hbuild := cumulfreq_array.ca_build (Ctor.new len)
    rw [hc] at hbuild
    cases hb : cumulfreq_array.CumulFreqTable.build (Ctor.new len) with
    | none =>
      rw [hb] at hbuild
      exact hbuild.elim
    | some t0 =>
      rw [hb] at hbuild
      have h0 : cumulfreq_array.CARel t0 (List.replicate len 0) := hbuild
      have hrun := cumulfreq_array.ca_runs
        ((List.range len).map (fun i => Op.add i k)) h0
      rw [canon_adds_replicate len k] at hrun
      cases hr : cumulfreq_array.CumulFreqTable.runOps t0
          ((List.range len).map (fun i => Op.add i k)) with
      | none =>
        rw [hr] at hrun
        exact hrun.elim
      | some ta =>
        rw [hr] at hrun
        have hta : cumulfreq_array.CARel ta (List.replicate len k) := hrun
        have hwf : cumulfreq_array.CumulFreqTable.with_freq len k =
            some ⟨cumulfreq_array.wfGo k len k⟩ := by
          unfold cumulfreq_array.CumulFreqTable.with_freq
          rw [if_pos hlen]
        have htw := cumulfreq_array.carel_with_freq len k
        have hreplen : (List.replicate len k).length = len :=
          List.length_replicate len k
        refine ⟨⟨cumulfreq_array.wfGo k len k⟩, ta, hwf, ?_, ?_, ?_, ?_⟩
        · unfold cumulfreq_array.runFrom
          rw [hb]
          exact hr
        · rw [htw.len_eq_ca, hta.len_eq_ca]
        · intro pos hpos
          refine ⟨?_, ?_⟩
          · rw [htw.freq_eq_ca (by rw [hreplen]; exact hpos),
              hta.freq_eq_ca (by rw [hreplen]; exact hpos)]
          · rw [htw.sum_eq_ca (by rw [hreplen]; exact hpos),
              hta.sum_eq_ca (by rw [hreplen]; exact hpos)]
        · rw [htw.total_eq_ca (by rw [hreplen]; exact hlen),
            hta.total_eq_ca (by rw [hreplen]; exact hlen)]
  · -- binary indexed tree
    intro len k hlen
    have hc : canonCtor (Ctor.new len) = some (List.replicate len 0) := by
      simp only [canonCtor]
      rw [if_pos hlen]
    have hbuild := binary_indexed_tree.bit_build (Ctor.new len)
    rw [hc] at hbuild
    cases hb : binary_indexed_tree.CumulFreqTable.build (Ctor.new len) with
    | none =>
      rw [hb] at hbuild
      exact hbuild.elim
    | some t0 =>
      rw [hb] at hbuild
      have h0 : binary_indexed_tree.Rep t0.tree (List.replicate len 0) := hbuild
      have hrun := binary_indexed_tree.bit_runs
        ((List.range len).map (fun i => Op.add i k)) h0
        (by rw [List.length_replicate]; exact hlen)
      rw [canon_adds_replicate len k] at hrun
      cases hr : binary_indexed_tree.CumulFreqTable.runOps t0
          ((List.range len).map (fun i => Op.add i k)) with
      | none =>
        rw [hr] at hrun
        exact hrun.elim
      | some ta =>
        rw [hr] at hrun
        have hta : binary_indexed_tree.Rep ta.tree (List.replicate len k) := hrun
        have hwf : binary_indexed_tree.CumulFreqTable.with_freq len k =
            some ⟨(List.range len).map
              (fun i => if i = 0 then k else k * 2 ^ tz i)⟩ := by
          unfold binary_indexed_tree.CumulFreqTable.with_freq
          rw [if_pos hlen]
        have htw := binary_indexed_tree.rep_with_freq len k
        have hreplen : (List.replicate len k).length = len :=
          List.length_replicate len k
        refine ⟨⟨(List.range len).map
          (fun i => if i = 0 then k else k * 2 ^ tz i)⟩, ta, hwf, ?_, ?_, ?_, ?_⟩
        · unfold binary_indexed_tree.runFrom
          rw [hb]
          exact hr
        · rw [@binary_indexed_tree.rep_len_eq ⟨(List.range len).map
            (fun i => if i = 0 then k else k * 2 ^ tz i)⟩
            (List.replicate len k) htw,
            binary_indexed_tree.rep_len_eq hta]
        · intro pos hpos
          refine ⟨?_, ?_⟩
          · rw [@binary_indexed_tree.rep_freq_eq ⟨(List.range len).map
              (fun i => if i = 0 then k else k * 2 ^ tz i)⟩
              (List.replicate len k) htw pos (by rw [hreplen]; exact hpos),
              binary_indexed_tree.rep_freq_eq hta (by rw [hreplen]; exact hpos)]
          · rw [@binary_indexed_tree.rep_sum_eq ⟨(List.range len).map
              (fun i => if i = 0 then k else k * 2 ^ tz i)⟩
              (List.replicate len k) htw pos (by rw [hreplen]; exact hpos),
              binary_indexed_tree.rep_sum_eq hta (by rw [hreplen]; exact hpos)]
        · rw [@binary_indexed_tree.rep_total_eq ⟨(List.range len).map
            (fun i => if i = 0 then k else k * 2 ^ tz i)⟩
            (List.replicate len k) htw (by rw [hreplen]; exact hlen),
            binary_indexed_tree.rep_total_eq hta (by rw [hreplen]; exact hlen)]

/-- Concrete instantiation of C7 at `len = 1`, `k = 7`. -/
theorem claim_C7_witness :
    (∃ tw ta, freq_array.FreqTable.with_freq 1 7 = some tw ∧
      freq_array.runFrom (Ctor.new 1)
        ((List.range 1).map (fun i => Op.add i 7)) = some ta ∧
      tw.len = ta.len ∧
      (∀ pos, pos < 1 →
        tw.freq pos = ta.freq pos ∧ tw.sum pos = ta.sum pos) ∧
      tw.total = ta.total) ∧
    (∃ tw ta, cumulfreq_array.CumulFreqTable.with_freq 1 7 = some tw ∧
      cumulfreq_array.runFrom (Ctor.new 1)
        ((List.range 1).map (fun i => Op.add i 7)) = some ta ∧
      tw.len = ta.len ∧
      (∀ pos, pos < 1 →
        tw.freq pos = ta.freq pos ∧ tw.sum pos = ta.sum pos) ∧
      tw.total = ta.total) ∧
    (∃ tw ta, binary_indexed_tree.CumulFreqTable.with_freq 1 7 = some tw ∧
      binary_indexed_tree.runFrom (Ctor.new 1)
        ((List.range 1).map (fun i => Op.add i 7)) = some ta ∧
      tw.len = ta.len ∧
      (∀ pos, pos < 1 →
        tw.freq pos = ta.freq pos ∧ tw.sum pos = ta.sum pos) ∧
      tw.total = ta.total) :=
  ⟨claim_C7.1 1 7 (by decide), claim_C7.2.1 1 7 (by decide),
   claim_C7.2.2 1 7 (by decide)⟩

/-- Claim C1 (amended): `freq_array` and `cumulfreq_array` return the
smallest `pos` with `sum(pos) ≥ target` (for reachable states and
`0 < target ≤ total`), but `binary_indexed_tree` does not: under
nonnegative frequencies its `find_by_sum` returns `0` when
`target ≤ sum(0)` and otherwise the largest `pos` with
`sum(pos) ≤ target`. -/
theorem claim_C1 :
    (∀ (t : freq_array.FreqTable), t.Reachable → ∀ target : Int,
      0 < target → target ≤ t.total →
      ∃ r, t.find_by_sum target = some r ∧ r < t.len ∧
        target ≤ (t.sum r).getD 0 ∧
        ∀ q, q < r → (t.sum q).getD 0 < target) ∧
    (∀ (t : cumulfreq_array.CumulFreqTable), t.Reachable → ∀ target : Int,
      0 < target → target ≤ t.total →
      ∃ r, t.find_by_sum target = some r ∧ r < t.len ∧
        target ≤ (t.sum r).getD 0 ∧
        ∀ q, q < r → (t.sum q).getD 0 < target) ∧
    (∀ (t : binary_indexed_tree.CumulFreqTable),
      (∀ i, i < t.len → 0 ≤ (t.freq i).getD 0) → 0 < t.len →
      ∀ target : Int,
        t.find_by_sum target < t.len ∧
        ((t.sum 0).getD 0 < target →
          (t.sum (t.find_by_sum target)).getD 0 ≤ target ∧
          ∀ q, t.find_by_sum target < q → q < t.len →
            target < (t.sum q).getD 0) ∧
        (target ≤ (t.sum 0).getD 0 → t.find_by_sum target = 0)) := by
  refine ⟨?_, ?_, ?_⟩
  · -- freq_array: the original smallest-position reading holds
    intro t hr target htpos htle
    obtain ⟨htot, hlen⟩ := freq_array.Reachable.inv hr
    have hfind : t.find_by_sum target =
        freq_array.positionAcc target t.freqs 0 := rfl
    obtain ⟨r, hr1, hr2, hr3, hr4⟩ :=
      freq_array.positionAcc_some t.freqs 0 target
        ⟨t.freqs.length - 1, by omega, by
          rw [zero_add, psum_of_length_le t.freqs (t.freqs.length - 1) (by omega)]
          omega⟩
    refine ⟨r, by rw [hfind, hr1], hr2, ?_, ?_⟩
    · unfold freq_array.FreqTable.sum
      rw [if_pos hr2, Option.getD_some]
      rw [zero_add] at hr3
      exact hr3
    · intro q hq
      unfold freq_array.FreqTable.sum
      rw [if_pos (by omega : q < t.freqs.length), Option.getD_some]
      have := hr4 q hq
      rw [zero_add] at this
      exact this
  · -- cumulfreq_array: likewise the smallest position
    intro t hr target htpos htle
    have hnon := cumulfreq_array.Reachable.nonempty hr
    have h := cumulfreq_array.carel_self t
    set D := cumulfreq_array.diffList t with hD
    have hDlen : t.sums.length = D.length := h.1
    have hfind := h.find_eq_ca target
    have htot := cumulfreq_array.carel_total h hnon
    obtain ⟨r, hr1, hr2, hr3, hr4⟩ :=
      freq_array.positionAcc_some D 0 target
        ⟨t.sums.length - 1, by omega, by rw [zero_add]; omega⟩
    refine ⟨r, by rw [hfind, hr1], by show r < t.sums.length; omega, ?_, ?_⟩
    · rw [h.sum_eq_ca hr2, Option.getD_some]
      rw [zero_add] at hr3
      exact hr3
    · intro q hq
      rw [h.sum_eq_ca (by omega : q < D.length), Option.getD_some]
      have := hr4 q hq
      rw [zero_add] at this
      exact this
  · -- binary indexed tree: the corrected largest-position description
    intro t hnn hlen target
    have hrep := binary_indexed_tree.rep_self t.tree
    set L := binary_indexed_tree.freqList t.tree with hL
    have hLlen : t.len = L.length := hrep.1
    have hT : t.tree.length = L.length := hrep.1
    have hnn' : ∀ i, i < L.length → 0 ≤ L.getD i 0 := by
      intro i hi
      have hx := hnn i (by omega)
      rw [binary_indexed_tree.rep_freq_eq hrep hi, Option.getD_some] at hx
      exact hx
    obtain ⟨hs1, hs2, hs3⟩ :=
      binary_indexed_tree.find_by_sum_spec hrep hnn' hlen target
    have hsum : ∀ p, p < L.length → (t.sum p).getD 0 = psum L p := by
      intro p hp
      rw [binary_indexed_tree.rep_sum_eq hrep hp, Option.getD_some]
    refine ⟨hs1, ?_, ?_⟩
    · intro hlt
      rw [hsum 0 (by omega)] at hlt
      obtain ⟨ha, hb⟩ := hs2 hlt
      refine ⟨?_, ?_⟩
      · rw [hsum (t.find_by_sum target) (by omega)]
        exact ha
      · intro q hq1 hq2
        rw [hsum q (by omega)]
        exact hb q hq1 (by omega)
    · intro hle
      rw [hsum 0 (by omega)] at hle
      exact hs3 hle

/-- Concrete instantiation of C1: on the reachable singleton tables
holding frequency `5`, `find_by_sum 5` behaves as stated. -/
theorem claim_C1_witness :
    (∃ r, (⟨[5], 5⟩ : freq_array.FreqTable).find_by_sum 5 = some r ∧
      r < (⟨[5], 5⟩ : freq_array.FreqTable).len ∧
      (5:Int) ≤ ((⟨[5], 5⟩ : freq_array.FreqTable).sum r).getD 0 ∧
      ∀ q, q < r → ((⟨[5], 5⟩ : freq_array.FreqTable).sum q).getD 0 < 5) ∧
    (∃ r, (⟨[5]⟩ : cumulfreq_array.CumulFreqTable).find_by_sum 5 = some r ∧
      r < (⟨[5]⟩ : cumulfreq_array.CumulFreqTable).len ∧
      (5:Int) ≤ ((⟨[5]⟩ : cumulfreq_array.CumulFreqTable).sum r).getD 0 ∧
      ∀ q, q < r → ((⟨[5]⟩ : cumulfreq_array.CumulFreqTable).sum q).getD 0 < 5) ∧
    (⟨[5]⟩ : binary_indexed_tree.CumulFreqTable).find_by_sum 5 <
      (⟨[5]⟩ : binary_indexed_tree.CumulFreqTable).len :=
  ⟨claim_C1.1 ⟨[5], 5⟩
      (freq_array.FreqTable.Reachable.add ⟨[0], 0⟩ 0 5 ⟨[5], 5⟩
        (freq_array.FreqTable.Reachable.new 1 ⟨[0], 0⟩ rfl) rfl)
      5 (by decide) (by decide),
   claim_C1.2.1 ⟨[5]⟩
      (cumulfreq_array.CumulFreqTable.Reachable.add ⟨[0]⟩ 0 5 ⟨[5]⟩
        (cumulfreq_array.CumulFreqTable.Reachable.new 1 ⟨[0]⟩ rfl) rfl)
      5 (by decide) (by decide),
   (claim_C1.2.2 ⟨[5]⟩ (by decide) (by decide) 5).1⟩

/-- Claim C1 (counterexample to the original wording): the reachable
binary-indexed-tree state with frequencies `[3, 3]` and `target = 4`
satisfies `0 < target ≤ total`, yet `find_by_sum` returns `0` whose
prefix sum `3` is below the target (the smallest position with
`sum(pos) ≥ 4` is `1`). -/
theorem claim_C1_cex :
    ∃ t0 t1 t2 : binary_indexed_tree.CumulFreqTable,
      binary_indexed_tree.CumulFreqTable.new 2 = some t0 ∧
      t0.add 0 3 = some t1 ∧
      t1.add 1 3 = some t2 ∧
      (0:Int) < 4 ∧ (4:Int) ≤ t2.total ∧
      t2.find_by_sum 4 = 0 ∧
      t2.sum 0 = some 3 ∧ t2.sum 1 = some 6 ∧
      ¬ ((4:Int) ≤ (t2.sum 0).getD 0) := by
  refine ⟨⟨[0, 0]⟩, ⟨[3, 0]⟩, ⟨[3, 3]⟩, rfl, rfl, ?_, by norm_num, ?_, ?_, ?_, ?_, ?_⟩
  · show (⟨[3, 0]⟩ : binary_indexed_tree.CumulFreqTable).add 1 3 = some ⟨[3, 3]⟩
    unfold binary_indexed_tree.CumulFreqTable.add
    simp [binary_indexed_tree.addLoop, lowbit]
  · show (4:Int) ≤ binary_indexed_tree.sumCore [3, 3] 1
    unfold binary_indexed_tree.sumCore
    simp [binary_indexed_tree.sumLoop, lowbit]
    try norm_num
  · unfold binary_indexed_tree.CumulFreqTable.find_by_sum
    norm_num [nextPow2, Nat.clog]
    simp [binary_indexed_tree.findLoop]
    try decide
  · unfold binary_indexed_tree.CumulFreqTable.sum binary_indexed_tree.sumCore
    simp [binary_indexed_tree.sumLoop, lowbit]
  · unfold binary_indexed_tree.CumulFreqTable.sum binary_indexed_tree.sumCore
    simp [binary_indexed_tree.sumLoop, lowbit]
    try norm_num
  · unfold binary_indexed_tree.CumulFreqTable.sum binary_indexed_tree.sumCore
    simp [binary_indexed_tree.sumLoop, lowbit]

/-- Claim C4 (amended): the three implementations are interchangeable
for construction success and for `len`, `freq`, `sum` and `total` under
every common sequence of `add`/`sub`/`inc`/`dec`/`scale` operations, and
`freq_array` and `cumulfreq_array` additionally agree on `find_by_sum`;
the binary indexed tree's `find_by_sum` is excluded (it may differ, see
the counterexample). -/
theorem claim_C4 :
    ∀ (c : Ctor) (ops : List Op),
      ((freq_array.runFrom c ops).isSome ↔
        (cumulfreq_array.runFrom c ops).isSome) ∧
      ((freq_array.runFrom c ops).isSome ↔
        (binary_indexed_tree.runFrom c ops).isSome) ∧
      (∀ fa ca bt,
        freq_array.runFrom c ops = some fa →
        cumulfreq_array.runFrom c ops = some ca →
        binary_indexed_tree.runFrom c ops = some bt →
        fa.len = ca.len ∧ fa.len = bt.len ∧
        (∀ pos, pos < fa.len →
          fa.freq pos = ca.freq pos ∧ fa.freq pos = bt.freq pos ∧
          fa.sum pos = ca.sum pos ∧ fa.sum pos = bt.sum pos) ∧
        fa.total = ca.total ∧ fa.total = bt.total ∧
        (∀ target, fa.find_by_sum target = ca.find_by_sum target)) := by
  intro c ops
  have hfb := freq_array.fa_build c
  have hcb := cumulfreq_array.ca_build c
  have hbb := binary_indexed_tree.bit_build c
  cases hc : canonCtor c with
  | none =>
    rw [hc] at hfb hcb hbb
    have hf : freq_array.FreqTable.build c = none := by
      cases hx : freq_array.FreqTable.build c with
      | none => rfl
      | some t =>
        rw [hx] at hfb
        exact hfb.elim
    have hg : cumulfreq_array.CumulFreqTable.build c = none := by
      cases hx : cumulfreq_array.CumulFreqTable.build c with
      | none => rfl
      | some t =>
        rw [hx] at hcb
        exact hcb.elim
    have hh : binary_indexed_tree.CumulFreqTable.build c = none := by
      cases hx : binary_indexed_tree.CumulFreqTable.build c with
      | none => rfl
      | some t =>
        rw [hx] at hbb
        exact hbb.elim
    have hfe : freq_array.runFrom c ops = none := by
      unfold freq_array.runFrom
      rw [hf]
    have hce : cumulfreq_array.runFrom c ops = none := by
      unfold cumulfreq_array.runFrom
      rw [hg]
    have hbe : binary_indexed_tree.runFrom c ops = none := by
      unfold binary_indexed_tree.runFrom
      rw [hh]
    refine ⟨by simp [hfe, hce], by simp [hfe, hbe], ?_⟩
    intro fa ca bt hfa hca hbt
    rw [hfe] at hfa
    exact Option.noConfusion hfa
  | some L0 =>
    have hL0 : 0 < L0.length := by
      cases c with
      | new len =>
        have h2 : (if 0 < len then some (List.replicate len (0:Int)) else none) =
            some L0 := hc
        by_cases hl : 0 < len
        · rw [if_pos hl] at h2
          cases h2
          rw [List.length_replicate]
          exact hl
        · rw [if_neg hl] at h2
          cases h2
      | with_freq len k =>
        have h2 : (if 0 < len then some (List.replicate len k) else none) =
            some L0 := hc
        by_cases hl : 0 < len
        · rw [if_pos hl] at h2
          cases h2
          rw [List.length_replicate]
          exact hl
        · rw [if_neg hl] at h2
          cases h2
    rw [hc] at hfb hcb hbb
    obtain ⟨f0, hf0, hfrel⟩ : ∃ f0, freq_array.FreqTable.build c = some f0 ∧
        freq_array.FARel f0 L0 := by
      cases hx : freq_array.FreqTable.build c with
      | none =>
        rw [hx] at hfb
        exact hfb.elim
      | some t =>
        rw [hx] at hfb
        exact ⟨t, rfl, hfb⟩
    obtain ⟨c0, hc0, hcrel⟩ : ∃ c0,
        cumulfreq_array.CumulFreqTable.build c = some c0 ∧
        cumulfreq_array.CARel c0 L0 := by
      cases hx : cumulfreq_array.CumulFreqTable.build c with
      | none =>
        rw [hx] at hcb
        exact hcb.elim
      | some t =>
        rw [hx] at hcb
        exact ⟨t, rfl, hcb⟩
    obtain ⟨b0, hb0, hbrel⟩ : ∃ b0,
        binary_indexed_tree.CumulFreqTable.build c = some b0 ∧
        binary_indexed_tree.Rep b0.tree L0 := by
      cases hx : binary_indexed_tree.CumulFreqTable.build c with
      | none =>
        rw [hx] at hbb
        exact hbb.elim
      | some t =>
        rw [hx] at hbb
        exact ⟨t, rfl, hbb⟩
    have hfr := freq_array.fa_runs ops hfrel
    have hcr := cumulfreq_array.ca_runs ops hcrel
    have hbr := binary_indexed_tree.bit_runs ops hbrel hL0
    cases hM : canonOps L0 ops with
    | none =>
      rw [hM] at hfr hcr hbr
      have hfn : freq_array.FreqTable.runOps f0 ops = none := by
        cases hx : freq_array.FreqTable.runOps f0 ops with
        | none => rfl
        | some t =>
          rw [hx] at hfr
          exact hfr.elim
      have hcn : cumulfreq_array.CumulFreqTable.runOps c0 ops = none := by
        cases hx : cumulfreq_array.CumulFreqTable.runOps c0 ops with
        | none => rfl
        | some t =>
          rw [hx] at hcr
          exact hcr.elim
      have hbn : binary_indexed_tree.CumulFreqTable.runOps b0 ops = none := by
        cases hx : binary_indexed_tree.CumulFreqTable.runOps b0 ops with
        | none => rfl
        | some t =>
          rw [hx] at hbr
          exact hbr.elim
      have hfe : freq_array.runFrom c ops = none := by
        unfold freq_array.runFrom
        rw [hf0]
        exact hfn
      have hce : cumulfreq_array.runFrom c ops = none := by
        unfold cumulfreq_array.runFrom
        rw [hc0]
        exact hcn
      have hbe : binary_indexed_tree.runFrom c ops = none := by
        unfold binary_indexed_tree.runFrom
        rw [hb0]
        exact hbn
      refine ⟨by simp [hfe, hce], by simp [hfe, hbe], ?_⟩
      intro fa ca bt hfa hca hbt
      rw [hfe] at hfa
      exact Option.noConfusion hfa
    | some M =>
      rw [hM] at hfr hcr hbr
      have hMlen : M.length = L0.length := canonOps_length ops L0 M hM
      have hMpos : 0 < M.length := by omega
      obtain ⟨fa0, hfa0, hfaM⟩ : ∃ x, freq_array.FreqTable.runOps f0 ops = some x ∧
          freq_array.FARel x M := by
        cases hx : freq_array.FreqTable.runOps f0 ops with
        | none =>
          rw [hx] at hfr
          exact hfr.elim
        | some t =>
          rw [hx] at hfr
          exact ⟨t, rfl, hfr⟩
      obtain ⟨ca0, hca0, hcaM⟩ : ∃ x,
          cumulfreq_array.CumulFreqTable.runOps c0 ops = some x ∧
          cumulfreq_array.CARel x M := by
        cases hx : cumulfreq_array.CumulFreqTable.runOps c0 ops with
        | none =>
          rw [hx] at hcr
          exact hcr.elim
        | some t =>
          rw [hx] at hcr
          exact ⟨t, rfl, hcr⟩
      obtain ⟨bt0, hbt0, hbtM⟩ : ∃ x,
          binary_indexed_tree.CumulFreqTable.runOps b0 ops = some x ∧
          binary_indexed_tree.Rep x.tree M := by
        cases hx : binary_indexed_tree.CumulFreqTable.runOps b0 ops with
        | none =>
          rw [hx] at hbr
          exact hbr.elim
        | some t =>
          rw [hx] at hbr
          exact ⟨t, rfl, hbr⟩
      have hfe : freq_array.runFrom c ops = some fa0 := by
        unfold freq_array.runFrom
        rw [hf0]
        exact hfa0
      have hce : cumulfreq_array.runFrom c ops = some ca0 := by
        unfold cumulfreq_array.runFrom
        rw [hc0]
        exact hca0
      have hbe : binary_indexed_tree.runFrom c ops = some bt0 := by
        unfold binary_indexed_tree.runFrom
        rw [hb0]
        exact hbt0
      refine ⟨by simp [hfe, hce], by simp [hfe, hbe], ?_⟩
      intro fa ca bt hfa hca hbt
      rw [hfe] at hfa
      rw [hce] at hca
      rw [hbe] at hbt
      obtain rfl := Option.some.inj hfa
      obtain rfl := Option.some.inj hca
      obtain rfl := Option.some.inj hbt
      have hfalen : fa0.len = M.length := hfaM.len_eq
      refine ⟨?_, ?_, ?_, ?_, ?_, ?_⟩
      · rw [hfaM.len_eq, hcaM.len_eq_ca]
      · rw [hfaM.len_eq, binary_indexed_tree.rep_len_eq hbtM]
      · intro pos hpos
        rw [hfalen] at hpos
        refine ⟨?_, ?_, ?_, ?_⟩
        · rw [hfaM.freq_eq hpos, hcaM.freq_eq_ca hpos]
        · rw [hfaM.freq_eq hpos, binary_indexed_tree.rep_freq_eq hbtM hpos]
        · rw [hfaM.sum_eq hpos, hcaM.sum_eq_ca hpos]
        · rw [hfaM.sum_eq hpos, binary_indexed_tree.rep_sum_eq hbtM hpos]
      · rw [hfaM.total_eq, hcaM.total_eq_ca hMpos]
      · rw [hfaM.total_eq, binary_indexed_tree.rep_total_eq hbtM hMpos]
      · intro target
        rw [hfaM.find_eq target, hcaM.find_eq_ca target]

/-- Concrete instantiation of C4 at `new 2` with no operations. -/
theorem claim_C4_witness :
    ((⟨[0, 0], 0⟩ : freq_array.FreqTable).len =
      (⟨[0, 0]⟩ : cumulfreq_array.CumulFreqTable).len) ∧
    ((⟨[0, 0], 0⟩ : freq_array.FreqTable).len =
      (⟨[0, 0]⟩ : binary_indexed_tree.CumulFreqTable).len) :=
  ⟨((claim_C4 (Ctor.new 2) []).2.2 ⟨[0, 0], 0⟩ ⟨[0, 0]⟩ ⟨[0, 0]⟩
      rfl rfl rfl).1,
   ((claim_C4 (Ctor.new 2) []).2.2 ⟨[0, 0], 0⟩ ⟨[0, 0]⟩ ⟨[0, 0]⟩
      rfl rfl rfl).2.1⟩

/-- Claim C4 (counterexample to the original wording): after `new(4)`
and `inc 0; inc 1; inc 3`, `find_by_sum(2)` returns position `1` on
`freq_array` and `cumulfreq_array` but position `2` on the binary
indexed tree, so the three implementations are not interchangeable on
`find_by_sum`. -/
theorem claim_C4_cex :
    freq_array.runFrom (Ctor.new 4) [Op.inc 0, Op.inc 1, Op.inc 3] =
      some ⟨[1, 1, 0, 1], 3⟩ ∧
    cumulfreq_array.runFrom (Ctor.new 4) [Op.inc 0, Op.inc 1, Op.inc 3] =
      some ⟨[1, 2, 2, 3]⟩ ∧
    binary_indexed_tree.runFrom (Ctor.new 4) [Op.inc 0, Op.inc 1, Op.inc 3] =
      some ⟨[1, 1, 1, 1]⟩ ∧
    (⟨[1, 1, 0, 1], 3⟩ : freq_array.FreqTable).find_by_sum 2 = some 1 ∧
    (⟨[1, 2, 2, 3]⟩ : cumulfreq_array.CumulFreqTable).find_by_sum 2 = some 1 ∧
    (⟨[1, 1, 1, 1]⟩ : binary_indexed_tree.CumulFreqTable).find_by_sum 2 = 2 := by
  refine ⟨rfl, rfl, ?_, rfl, rfl, ?_⟩
  · unfold binary_indexed_tree.runFrom
    simp [binary_indexed_tree.CumulFreqTable.build,
      binary_indexed_tree.CumulFreqTable.new,
      binary_indexed_tree.CumulFreqTable.runOps,
      binary_indexed_tree.CumulFreqTable.runOp,
      binary_indexed_tree.CumulFreqTable.inc,
      binary_indexed_tree.CumulFreqTable.add,
      binary_indexed_tree.addLoop, lowbit, List.replicate]
  · unfold binary_indexed_tree.CumulFreqTable.find_by_sum
    norm_num [nextPow2, Nat.clog]
    simp [binary_indexed_tree.findLoop]
    try decide
